import Mathlib

set_option linter.unusedVariables false
set_option linter.unnecessarySeqFocus false

/-!
# libppsp wire codec, chunk scheduler and API: a shallow embedding of
`ppspp_protocol.c`, of the schedule functions and `process_file` of `peer.c`
and of three API functions of `ppspp_swift.c`

Memory reached through a `char *` is a function from offsets to cells; every
read takes the cell modulo 256 and every write stores a value modulo 256, so
each cell behaves as one octet.  Encoders thread the buffer they write to and
return it together with their `int` result, which is `d - ptr`.  Parsers
return `none` where the C code calls `abort()` or cannot complete a call.
The chunk table `peer->chunk` has `nl` entries: a store to an entry past the
last one has no result, and a test of a value read there is left undecided.

Three things the C text leaves to the platform are parameters:
`hostLE`, the byte order of the host (it decides how `live_disc_wind` is read),
`charSigned`, the signedness of `char` (the type of `peer.fname_len`), and the
outcome of `open` and `read` in `make_data`.  Loops over a `uint32_t` counter
and the `while` loops of the scheduler take fuel and return `none` when it
runs out; the theorems about them hold for every amount of fuel above the
number of iterations.
-/

namespace Ppspp

/-! ## Memory -/

/-- Memory seen from a `char *`: cell `i` is `ptr[i]`. -/
abbrev Buf := Nat → Nat

/-- Read of one octet, `*(uint8_t *)(ptr + i)`. -/
def rd8 (m : Buf) (i : Nat) : Nat := m i % 256

/-- Store of one octet, `ptr[i] = v`. -/
def wr8 (m : Buf) (i v : Nat) : Buf := fun j => if j = i then v % 256 else m j

/-- The pointer `ptr + k` as a buffer of its own. -/
def shift (m : Buf) (k : Nat) : Buf := fun i => m (k + i)

/-- Read `be16toh(*(uint16_t *)(ptr + i))`. -/
def rd16be (m : Buf) (i : Nat) : Nat := rd8 m i * 256 + rd8 m (i + 1)

/-- Read `be32toh(*(uint32_t *)(ptr + i))`. -/
def rd32be (m : Buf) (i : Nat) : Nat :=
  ((rd8 m i * 256 + rd8 m (i + 1)) * 256 + rd8 m (i + 2)) * 256 + rd8 m (i + 3)

/-- Read `be64toh(*(uint64_t *)(ptr + i))`. -/
def rd64be (m : Buf) (i : Nat) : Nat := rd32be m i * 2 ^ 32 + rd32be m (i + 4)

/-- Store `*(uint16_t *)(ptr + i) = htobe16(v)`. -/
def wr16be (m : Buf) (i v : Nat) : Buf := wr8 (wr8 m i (v / 2 ^ 8)) (i + 1) v

/-- Store `*(uint32_t *)(ptr + i) = htobe32(v)`. -/
def wr32be (m : Buf) (i v : Nat) : Buf :=
  wr8 (wr8 (wr8 (wr8 m i (v / 2 ^ 24)) (i + 1) (v / 2 ^ 16)) (i + 2) (v / 2 ^ 8)) (i + 3) v

/-- Store `*(uint64_t *)(ptr + i) = htobe64(v)`. -/
def wr64be (m : Buf) (i v : Nat) : Buf := wr32be (wr32be m i (v / 2 ^ 32)) (i + 4) v

/-- The call `memcpy(dst + d, src, n)`. -/
def memcpy (dst : Buf) (d : Nat) (src : Buf) (n : Nat) : Buf :=
  fun j => if d ≤ j ∧ j < d + n then rd8 src (j - d) else dst j

/-- The call `memset(dst + d, v, n)`. -/
def memset (dst : Buf) (d v n : Nat) : Buf :=
  fun j => if d ≤ j ∧ j < d + n then v % 256 else dst j

/-- The first `n` octets of a buffer. -/
def bytes (m : Buf) (n : Nat) : List Nat := (List.range n).map (rd8 m)

/-- Big-endian octets of a 16-bit value. -/
def be16 (v : Nat) : List Nat := [v / 2 ^ 8 % 256, v % 256]

/-- Big-endian octets of a 32-bit value. -/
def be32 (v : Nat) : List Nat := [v / 2 ^ 24 % 256, v / 2 ^ 16 % 256, v / 2 ^ 8 % 256, v % 256]

/-- Big-endian octets of a 64-bit value. -/
def be64 (v : Nat) : List Nat := be32 (v / 2 ^ 32) ++ be32 v

/-! ## Constants of `ppspp_protocol.h` -/

/-- Handshake option tags, `enum proto_options`. -/
def VERSION : Nat := 0
def MINIMUM_VERSION : Nat := 1
def SWARM_ID : Nat := 2
def CONTENT_PROT_METHOD : Nat := 3
def MERKLE_HASH_FUNC : Nat := 4
def LIVE_SIGNATURE_ALG : Nat := 5
def CHUNK_ADDR_METHOD : Nat := 6
def LIVE_DISC_WIND : Nat := 7
def SUPPORTED_MSGS : Nat := 8
def CHUNK_SIZE : Nat := 9
def FILE_SIZE : Nat := 10
def FILE_NAME : Nat := 11
def FILE_HASH : Nat := 12
def END_OPTION : Nat := 255

/-- Message kinds, `enum message`. -/
def HANDSHAKE : Nat := 0
def DATA : Nat := 1
def ACK : Nat := 2
def HAVE : Nat := 3
def INTEGRITY : Nat := 4
def PEX_RESV4 : Nat := 5
def PEX_REQ : Nat := 6
def SIGNED_INTEGRITY : Nat := 7
def REQUEST : Nat := 8

/-- Handshake classes, `enum handshake_type`. -/
def HANDSHAKE_INIT : Nat := 1
def HANDSHAKE_FINISH : Nat := 2
def HANDSHAKE_ERROR : Nat := 3

/-! ## `handshake_type` -/

/-- The function `handshake_type` of `ppspp_protocol.c`.  `ret0` is the
indeterminate initial content of the local `ret`; `none` is `abort()`. -/
def handshake_type (m : Buf) (ret0 : Nat) : Option Nat :=
  let dest_chan_id := rd32be m 0
  if rd8 m 4 = HANDSHAKE then
    let src_chan_id := rd32be m 5
    let ret := ret0
    let ret := if dest_chan_id = 0 ∧ src_chan_id ≠ 0 then HANDSHAKE_INIT else ret
    let ret := if dest_chan_id ≠ 0 ∧ src_chan_id = 0 then HANDSHAKE_FINISH else ret
    let ret := if dest_chan_id = 0 ∧ src_chan_id = 0 then HANDSHAKE_ERROR else ret
    let ret := if dest_chan_id ≠ 0 ∧ src_chan_id ≠ 0 then HANDSHAKE_ERROR else ret
    some ret
  else
    none

/-! ## Records of `ppspp_protocol.h` and `peer.h` -/

/-- The record `struct proto_opt_str`: every scalar field holds a value of its
C type, every array or pointer field is the memory it designates. -/
structure proto_opt_str where
  version : Nat := 0
  minimum_version : Nat := 0
  swarm_id_len : Nat := 0
  swarm_id : Buf := fun _ => 0
  content_prot_method : Nat := 0
  merkle_hash_func : Nat := 0
  live_signature_alg : Nat := 0
  chunk_addr_method : Nat := 0
  live_disc_wind : Buf := fun _ => 0
  supported_msgs_len : Nat := 0
  supported_msgs : Buf := fun _ => 0
  chunk_size : Nat := 0
  file_size : Nat := 0
  file_name : Buf := fun _ => 0
  file_name_len : Nat := 0
  opt_map : Nat := 0

/-- Ranges of the scalar fields of `struct proto_opt_str` that the round trip
depends on: `uint16_t swarm_id_len`, `uint8_t file_name_len`,
`uint32_t chunk_size`, `uint64_t file_size`. -/
def proto_opt_str.wf (pos : proto_opt_str) : Prop :=
  pos.swarm_id_len < 2 ^ 16 ∧ pos.file_name_len < 2 ^ 8 ∧
  pos.chunk_size < 2 ^ 32 ∧ pos.file_size < 2 ^ 64

/-- The anonymous enum of `peer.type`. -/
inductive peer_type where
  | LEECHER
  | SEEDER
  deriving DecidableEq, Repr

/-- Values of `chunk.state`. -/
inductive chunk_state where
  | CH_EMPTY
  | CH_ACTIVE
  deriving DecidableEq, Repr

/-- Values of `chunk.downloaded`. -/
inductive chunk_downloaded where
  | CH_NO
  | CH_YES
  deriving DecidableEq, Repr

/-- Modelled from the spec: `struct chunk` of `mt.h`, which is not among the
sources.  The spec lists the fields `offset`, `len`, `sha[20]`,
`state ∈ {EMPTY, ACTIVE}` and `downloaded ∈ {NO, YES}`. -/
structure chunk where
  offset : Nat := 0
  len : Nat := 0
  sha : List Nat := List.replicate 20 0
  state : chunk_state := chunk_state.CH_EMPTY
  downloaded : chunk_downloaded := chunk_downloaded.CH_NO

/-- Modelled from the spec: `struct node` of `mt.h`, which is not among the
sources; only its field `sha[20]` is used by the codec. -/
structure node where
  sha : List Nat := List.replicate 20 0

/-- One entry of the download schedule, `struct schedule_entry` of `peer.h`
(`end` is a keyword of Lean, so the field `end` is `end_`). -/
structure schedule_entry where
  begin : Nat := 0
  end_ : Nat := 0

/-- One entry of `peer.have_cache`.  The array and `num_have_cache` are fields
of the `peer.h` that `peer.c` is compiled against, which is not among the
sources; `swift_create_download_schedule_sbs` reads `end_chunk` only. -/
structure have_cache_entry where
  start_chunk : Nat := 0
  end_chunk : Nat := 0

/-- The record `struct sockaddr_in` of `netinet/in.h`: address family, UDP
port and IPv4 address, each as the number its octets hold. -/
structure sockaddr_in where
  sin_family : Nat := 2
  sin_port : Nat := 0
  sin_addr : Nat := 0
  deriving DecidableEq, Repr

/-- One entry of the list of alternative seeders, `struct other_seeders_entry`
of `peer.h`; the `next` link is the position in the list. -/
structure other_seeders_entry where
  sa : sockaddr_in := {}
  deriving DecidableEq, Repr

/-- The fields of `struct peer` that the codec, the scheduler and the API of
`ppspp_swift.c` use.  `chunk` is `none` for a NULL pointer; `fname_len` has C
type `char`.  `seeder_has_file` and `other_seeders_list_head` are fields of
the `peer.h` that `ppspp_swift.c` is compiled against, which is not among
the sources; the list head is the list of its entries, first entry first. -/
structure peer where
  type : peer_type := peer_type.LEECHER
  src_chan_id : Nat := 0
  dest_chan_id : Nat := 0
  tree : Nat → node := fun _ => {}
  chunk : Option (Nat → chunk) := none
  nl : Nat := 0
  nc : Nat := 0
  hashes_per_mtu : Nat := 0
  download_schedule : Nat → schedule_entry := fun _ => {}
  download_schedule_len : Nat := 0
  num_have_cache : Nat := 0
  have_cache : Nat → have_cache_entry := fun _ => {}
  chunk_size : Nat := 0
  start_chunk : Nat := 0
  end_chunk : Nat := 0
  curr_chunk : Nat := 0
  file_size : Nat := 0
  fname : Buf := fun _ => 0
  fname_len : Int := 0
  seeder_has_file : Nat := 0
  other_seeders_list_head : List other_seeders_entry := []

/-- A list of octets as the memory that holds it. -/
def ofList (l : List Nat) : Buf := fun i => l.getD i 0

/-- Value of a `char` that receives the octet `v`: where `char` is signed the
octets 128..255 are the negative values -128..-1. -/
def toChar (charSigned : Bool) (v : Nat) : Int :=
  if charSigned ∧ 128 ≤ v % 256 then (v % 256 : Int) - 256 else (v % 256 : Int)

/-- Host-order read `*(uint32_t *)p`. -/
def ld32host (hostLE : Bool) (m : Buf) : Nat :=
  if hostLE then rd8 m 0 + 2 ^ 8 * rd8 m 1 + 2 ^ 16 * rd8 m 2 + 2 ^ 24 * rd8 m 3
  else rd32be m 0

/-- Host-order read `*(uint64_t *)p`. -/
def ld64host (hostLE : Bool) (m : Buf) : Nat :=
  if hostLE then ld32host true m + 2 ^ 32 * ld32host true (shift m 4)
  else rd64be m 0

/-- The test `opt_map & (1 << k)`. -/
def optSet (opt_map k : Nat) : Bool := (opt_map &&& (1 <<< k)) != 0

/-! ## `make_handshake_options`

A cursor is the buffer together with the offset `d - ptr`. -/

/-- Lines 59-62: tag VERSION, value 1. -/
def put_version (c : Buf × Nat) : Buf × Nat :=
  (wr8 (wr8 c.1 c.2 VERSION) (c.2 + 1) 1, c.2 + 1 + 1)

/-- Lines 69-72: tag MINIMUM_VERSION, value 1. -/
def put_minimum_version (c : Buf × Nat) : Buf × Nat :=
  (wr8 (wr8 c.1 c.2 MINIMUM_VERSION) (c.2 + 1) 1, c.2 + 1 + 1)

/-- Lines 79-84: tag SWARM_ID, 16-bit length, the identifier. -/
def put_swarm_id (pos : proto_opt_str) (c : Buf × Nat) : Buf × Nat :=
  let m := wr8 c.1 c.2 SWARM_ID
  let d := c.2 + 1
  let m := wr16be m d (pos.swarm_id_len % 2 ^ 16)
  let d := d + 2
  let m := memcpy m d pos.swarm_id pos.swarm_id_len
  (m, d + pos.swarm_id_len)

/-- Lines 88-91. -/
def put_content_prot_method (pos : proto_opt_str) (c : Buf × Nat) : Buf × Nat :=
  (wr8 (wr8 c.1 c.2 CONTENT_PROT_METHOD) (c.2 + 1) (pos.content_prot_method % 256), c.2 + 1 + 1)

/-- Lines 98-101. -/
def put_merkle_hash_func (pos : proto_opt_str) (c : Buf × Nat) : Buf × Nat :=
  (wr8 (wr8 c.1 c.2 MERKLE_HASH_FUNC) (c.2 + 1) (pos.merkle_hash_func % 256), c.2 + 1 + 1)

/-- Lines 105-108. -/
def put_live_signature_alg (pos : proto_opt_str) (c : Buf × Nat) : Buf × Nat :=
  (wr8 (wr8 c.1 c.2 LIVE_SIGNATURE_ALG) (c.2 + 1) (pos.live_signature_alg % 256), c.2 + 1 + 1)

/-- Lines 112-115. -/
def put_chunk_addr_method (pos : proto_opt_str) (c : Buf × Nat) : Buf × Nat :=
  (wr8 (wr8 c.1 c.2 CHUNK_ADDR_METHOD) (c.2 + 1) (pos.chunk_addr_method % 256), c.2 + 1 + 1)

/-- Lines 122-130: tag LIVE_DISC_WIND, then 4 octets when the addressing
method is 0 or 2 and 8 octets otherwise. -/
def put_live_disc_wind (hostLE : Bool) (pos : proto_opt_str) (c : Buf × Nat) : Buf × Nat :=
  let m := wr8 c.1 c.2 LIVE_DISC_WIND
  let d := c.2 + 1
  if pos.chunk_addr_method = 0 ∨ pos.chunk_addr_method = 2 then
    (wr32be m d (ld32host hostLE pos.live_disc_wind), d + 4)
  else
    (wr64be m d (ld64host hostLE pos.live_disc_wind), d + 8)

/-- Lines 137-142. -/
def put_supported_msgs (pos : proto_opt_str) (c : Buf × Nat) : Buf × Nat :=
  let m := wr8 c.1 c.2 SUPPORTED_MSGS
  let d := c.2 + 1
  let m := wr8 m d (pos.supported_msgs_len % 256)
  let d := d + 1
  let m := memcpy m d pos.supported_msgs (pos.supported_msgs_len % 256)
  (m, d + pos.supported_msgs_len % 256)

/-- Lines 146-149. -/
def put_chunk_size (pos : proto_opt_str) (c : Buf × Nat) : Buf × Nat :=
  (wr32be (wr8 c.1 c.2 CHUNK_SIZE) (c.2 + 1) (pos.chunk_size % 2 ^ 32), c.2 + 1 + 4)

/-- Lines 163-166. -/
def put_file_size (pos : proto_opt_str) (c : Buf × Nat) : Buf × Nat :=
  (wr64be (wr8 c.1 c.2 FILE_SIZE) (c.2 + 1) pos.file_size, c.2 + 1 + 8)

/-- Lines 181-187: tag FILE_NAME, length octet, 255 zero octets overwritten
by the name. -/
def put_file_name (pos : proto_opt_str) (c : Buf × Nat) : Buf × Nat :=
  let m := wr8 c.1 c.2 FILE_NAME
  let d := c.2 + 1
  let m := wr8 m d (pos.file_name_len % 256)
  let d := d + 1
  let m := memset m d 0 255
  let m := memcpy m d pos.file_name pos.file_name_len
  (m, d + pos.file_name_len)

/-- The function `make_handshake_options` of `ppspp_protocol.c`: the buffer
after the call and the returned `int`.  `hostLE` is the byte order of the
host, which decides how `live_disc_wind` is read. -/
def make_handshake_options (hostLE : Bool) (ptr : Buf) (pos : proto_opt_str) : Buf × Int :=
  let c : Buf × Nat := (ptr, 0)
  if optSet pos.opt_map VERSION then
    let c := put_version c
    if optSet pos.opt_map MINIMUM_VERSION then
      let c := put_minimum_version c
      let c := if optSet pos.opt_map SWARM_ID then put_swarm_id pos c else c
      if optSet pos.opt_map CONTENT_PROT_METHOD then
        let c := put_content_prot_method pos c
        let c := if optSet pos.opt_map MERKLE_HASH_FUNC then put_merkle_hash_func pos c else c
        let c := if optSet pos.opt_map LIVE_SIGNATURE_ALG then put_live_signature_alg pos c else c
        if optSet pos.opt_map CHUNK_ADDR_METHOD then
          let c := put_chunk_addr_method pos c
          if optSet pos.opt_map LIVE_DISC_WIND then
            let c := put_live_disc_wind hostLE pos c
            let c := if optSet pos.opt_map SUPPORTED_MSGS then put_supported_msgs pos c else c
            if optSet pos.opt_map CHUNK_SIZE then
              let c := put_chunk_size pos c
              if optSet pos.opt_map FILE_SIZE then
                let c := put_file_size pos c
                if optSet pos.opt_map FILE_NAME then
                  let c := put_file_name pos c
                  let c : Buf × Nat := (wr8 c.1 c.2 END_OPTION, c.2 + 1)
                  (c.1, (c.2 : Int))
                else (c.1, -1)
              else (c.1, -1)
            else (c.1, -1)
          else (c.1, -1)
        else (c.1, -1)
      else (c.1, -1)
    else (c.1, -1)
  else (c.1, -1)

/-! ## `make_handshake_request`, `make_handshake_have`, `make_request` -/

/-- The function `make_handshake_request`; `opts` is the memory at `opts`. -/
def make_handshake_request (ptr : Buf) (dest_chan_id src_chan_id : Nat) (opts : Buf)
    (opt_len : Nat) : Buf × Int :=
  let d := 0
  let m := wr32be ptr d dest_chan_id
  let d := d + 4
  let m := wr8 m d HANDSHAKE
  let d := d + 1
  let m := wr32be m d src_chan_id
  let d := d + 4
  let m := memcpy m d opts opt_len
  let d := d + opt_len
  (m, (d : Int))

/-- The function `make_handshake_have`; `p` describes the seeder. -/
def make_handshake_have (ptr : Buf) (dest_chan_id src_chan_id : Nat) (opts : Buf)
    (opt_len : Nat) (p : peer) : Buf × Int :=
  let r := make_handshake_request ptr dest_chan_id src_chan_id opts opt_len
  let d := r.2.toNat
  let m := wr8 r.1 d HAVE
  let d := d + 1
  let m := wr32be m d p.start_chunk
  let d := d + 4
  let m := wr32be m d p.end_chunk
  let d := d + 4
  (m, (d : Int))

/-- The function `make_request`. -/
def make_request (ptr : Buf) (dest_chan_id start_chunk end_chunk : Nat) : Buf × Int :=
  let d := 0
  let m := wr32be ptr d dest_chan_id
  let d := d + 4
  let m := wr8 m d REQUEST
  let d := d + 1
  let m := wr32be m d start_chunk
  let d := d + 4
  let m := wr32be m d end_chunk
  let d := d + 4
  let m := wr8 m d PEX_REQ
  let d := d + 1
  (m, (d : Int))

/-! ## `make_integrity`, `make_data`, `make_ack` -/

/-- Conversion of an unsigned value to a signed 32-bit integer (`int`,
`int32_t`): the value modulo `2 ^ 32`, read in two's complement. -/
def toInt32 (v : Nat) : Int :=
  if v % 2 ^ 32 < 2 ^ 31 then (v % 2 ^ 32 : Int) else (v % 2 ^ 32 : Int) - 2 ^ 32

/-- The `for` loop of `make_integrity` (lines 390-395) from the state
`(buffer, d - ptr, x)`; `x` is a `uint32_t`, so `2 * x` and `x++` wrap at
`2 ^ 32`.  `none` when the fuel runs out before the loop condition fails. -/
def make_integrity_loop (we : peer) (end_chunk : Nat) : Nat → Buf → Nat → Nat → Option (Buf × Nat)
  | 0, _, _, _ => none
  | fuel + 1, m, d, x =>
    if x ≤ end_chunk then
      make_integrity_loop we end_chunk fuel
        (memcpy m d (ofList (we.tree ((2 * x) % 2 ^ 32)).sha) 20) (d + 20) ((x + 1) % 2 ^ 32)
    else some (m, d)

/-- The function `make_integrity`; `p` describes the leecher, `we` the seeder.
The result is `int ret = d - ptr`: the length written, converted to `int`. -/
def make_integrity (fuel : Nat) (ptr : Buf) (p we : peer) : Option (Buf × Int) :=
  let d := 0
  let m := wr32be ptr d p.dest_chan_id
  let d := d + 4
  let m := wr8 m d INTEGRITY
  let d := d + 1
  let m := wr32be m d p.start_chunk
  let d := d + 4
  let m := wr32be m d p.end_chunk
  let d := d + 4
  match make_integrity_loop we p.end_chunk fuel m d p.start_chunk with
  | none => none
  | some (m, d) => some (m, toInt32 d)

/-- What `open` and `read` do for `make_data`: `open` fails, `read` fails, or
the file exists with the given content. -/
inductive file_env where
  | open_fails
  | read_fails
  | content (data : List Nat)

/-- The function `make_data`: header, then `read(fd, d, chunk_size)` after
`lseek(fd, curr_chunk * chunk_size, SEEK_SET)`. -/
def make_data (ptr : Buf) (p : peer) (file : file_env) : Buf × Int :=
  let d := 0
  let m := wr32be ptr d p.dest_chan_id
  let d := d + 4
  let m := wr8 m d DATA
  let d := d + 1
  let m := wr32be m d p.start_chunk
  let d := d + 4
  let m := wr32be m d p.end_chunk
  let d := d + 4
  let timestamp := 0x12345678f11ff00f
  let m := wr64be m d timestamp
  let d := d + 8
  match file with
  | file_env.open_fails => (m, -1)
  | file_env.read_fails => (m, -1)
  | file_env.content data =>
    let got := (data.drop ((p.curr_chunk * p.chunk_size) % 2 ^ 64)).take p.chunk_size
    let l := got.length
    let m := memcpy m d (ofList got) l
    let d := d + l
    (m, (d : Int))

/-- The function `make_ack`. -/
def make_ack (ptr : Buf) (p : peer) : Buf × Int :=
  let d := 0
  let m := wr32be ptr d p.dest_chan_id
  let d := d + 4
  let m := wr8 m d ACK
  let d := d + 1
  let m := wr32be m d p.curr_chunk
  let d := d + 4
  let m := wr32be m d p.curr_chunk
  let d := d + 4
  let delay_sample := 0x12345678ABCDEF
  let m := wr64be m d delay_sample
  let d := d + 8
  (m, (d : Int))

/-! ## `dump_options`

The function is a straight sequence of `if (*d == TAG)` blocks; each
definition below is the function from one block to its end, taking the
offset `d - ptr` reached so far. -/

/-- Lines 645-656: the END_OPTION test and the return. -/
def dump_options_end (m : Buf) (p : peer) (d : Nat) : Option (peer × Int) :=
  if rd8 m d = END_OPTION then some (p, ((d + 1 : Nat) : Int)) else none

/-- Lines 635-643, then the rest.  `fname_len` is a `char`: where it receives a
negative value the `memcpy` length converts to more than `2 ^ 63` and the call
cannot complete. -/
def dump_options_file_name (charSigned : Bool) (m : Buf) (p : peer) (d : Nat) :
    Option (peer × Int) :=
  if rd8 m d = FILE_NAME then
    let d := d + 1
    let fname_len := toChar charSigned (rd8 m d)
    let d := d + 1
    if fname_len < 0 then none
    else
      let p := { p with fname_len := fname_len,
                        fname := memcpy p.fname 0 (shift m d) fname_len.toNat }
      dump_options_end m p (d + fname_len.toNat)
  else dump_options_end m p d

/-- Lines 626-633, then the rest. -/
def dump_options_file_size (charSigned : Bool) (m : Buf) (p : peer) (d : Nat) :
    Option (peer × Int) :=
  if rd8 m d = FILE_SIZE then
    let d := d + 1
    let p := if p.type = peer_type.LEECHER then { p with file_size := rd64be m d } else p
    dump_options_file_name charSigned m p (d + 8)
  else dump_options_file_name charSigned m p d

/-- Lines 617-624, then the rest. -/
def dump_options_chunk_size (charSigned : Bool) (m : Buf) (p : peer) (d : Nat) :
    Option (peer × Int) :=
  if rd8 m d = CHUNK_SIZE then
    let d := d + 1
    let p := if p.type = peer_type.LEECHER then { p with chunk_size := rd32be m d } else p
    dump_options_file_size charSigned m p (d + 4)
  else dump_options_file_size charSigned m p d

/-- Lines 606-615, then the rest. -/
def dump_options_supported_msgs (charSigned : Bool) (m : Buf) (p : peer) (d : Nat) :
    Option (peer × Int) :=
  if rd8 m d = SUPPORTED_MSGS then
    let d := d + 1
    let supported_msgs_len := rd8 m d
    let d := d + 1
    dump_options_chunk_size charSigned m p (d + supported_msgs_len)
  else dump_options_chunk_size charSigned m p d

/-- Lines 593-604, then the rest: 4 octets for methods 0 and 2, 8 octets for
methods 1, 3 and 4, and no octet (the `default` label) for any other. -/
def dump_options_live_disc_wind (charSigned : Bool) (m : Buf) (p : peer)
    (chunk_addr_method d : Nat) : Option (peer × Int) :=
  if rd8 m d = LIVE_DISC_WIND then
    let d := d + 1
    if chunk_addr_method = 0 ∨ chunk_addr_method = 2 then
      dump_options_supported_msgs charSigned m p (d + 4)
    else if chunk_addr_method = 1 ∨ chunk_addr_method = 3 ∨ chunk_addr_method = 4 then
      dump_options_supported_msgs charSigned m p (d + 8)
    else dump_options_supported_msgs charSigned m p d
  else dump_options_supported_msgs charSigned m p d

/-- Lines 577-591, then the rest. -/
def dump_options_chunk_addr_method (charSigned : Bool) (m : Buf) (p : peer) (d : Nat) :
    Option (peer × Int) :=
  let chunk_addr_method := 255
  if rd8 m d = CHUNK_ADDR_METHOD then
    let d := d + 1
    let chunk_addr_method := rd8 m d
    dump_options_live_disc_wind charSigned m p chunk_addr_method (d + 1)
  else dump_options_live_disc_wind charSigned m p chunk_addr_method d

/-- Lines 571-575, then the rest. -/
def dump_options_live_signature_alg (charSigned : Bool) (m : Buf) (p : peer) (d : Nat) :
    Option (peer × Int) :=
  if rd8 m d = LIVE_SIGNATURE_ALG then dump_options_chunk_addr_method charSigned m p (d + 1 + 1)
  else dump_options_chunk_addr_method charSigned m p d

/-- Lines 557-569, then the rest. -/
def dump_options_merkle_hash_func (charSigned : Bool) (m : Buf) (p : peer) (d : Nat) :
    Option (peer × Int) :=
  if rd8 m d = MERKLE_HASH_FUNC then dump_options_live_signature_alg charSigned m p (d + 1 + 1)
  else dump_options_live_signature_alg charSigned m p d

/-- Lines 544-555, then the rest. -/
def dump_options_content_prot_method (charSigned : Bool) (m : Buf) (p : peer) (d : Nat) :
    Option (peer × Int) :=
  if rd8 m d = CONTENT_PROT_METHOD then dump_options_merkle_hash_func charSigned m p (d + 1 + 1)
  else dump_options_merkle_hash_func charSigned m p d

/-- Lines 536-542, then the rest. -/
def dump_options_swarm_id (charSigned : Bool) (m : Buf) (p : peer) (d : Nat) :
    Option (peer × Int) :=
  if rd8 m d = SWARM_ID then
    let d := d + 1
    let swarm_len := rd16be m d
    let d := d + 2
    dump_options_content_prot_method charSigned m p (d + swarm_len)
  else dump_options_content_prot_method charSigned m p d

/-- Lines 530-534, then the rest. -/
def dump_options_minimum_version (charSigned : Bool) (m : Buf) (p : peer) (d : Nat) :
    Option (peer × Int) :=
  if rd8 m d = MINIMUM_VERSION then dump_options_swarm_id charSigned m p (d + 1 + 1)
  else dump_options_swarm_id charSigned m p d

/-- The function `dump_options` of `ppspp_protocol.c`: the peer after the call
and the returned `int`, or `none` where the call does not return.
`charSigned` says whether `char` is a signed type on the platform. -/
def dump_options (charSigned : Bool) (m : Buf) (p : peer) : Option (peer × Int) :=
  let d := 0
  if rd8 m d = VERSION then
    let d := d + 1
    if rd8 m d ≠ 1 then none
    else dump_options_minimum_version charSigned m p (d + 1)
  else dump_options_minimum_version charSigned m p d

/-! ## `dump_handshake_request`, `dump_handshake_have`, `dump_request` -/

/-- Search for the least `k` with `n ≤ 2 ^ k`, starting at `k`. -/
def order2_from (n : Nat) : Nat → Nat → Nat
  | 0, k => k
  | fuel + 1, k => if n ≤ 2 ^ k then k else order2_from n fuel (k + 1)

/-- Modelled from the spec: `order2` of `mt.c`, which is not among the sources.
The spec has `nl = 1 << ceil(log2(nc))`, so `order2 n` is the least `k` with
`n ≤ 2 ^ k`. -/
def order2 (n : Nat) : Nat := order2_from n n 0

/-- The function `dump_handshake_request`. -/
def dump_handshake_request (charSigned : Bool) (m : Buf) (req_len : Int) (p : peer) :
    Option (peer × Int) :=
  let d := 0
  let dest_chan_id := rd32be m d
  let d := d + 4
  if rd8 m d = HANDSHAKE then
    let d := d + 1
    let src_chan_id := rd32be m d
    let d := d + 4
    match dump_options charSigned (shift m d) p with
    | none => none
    | some (p, opt_len) => some (p, (d : Int) + opt_len)
  else none

/-- The function `dump_handshake_have`. -/
def dump_handshake_have (charSigned : Bool) (m : Buf) (resp_len : Int) (p : peer) :
    Option (peer × Int) :=
  match dump_handshake_request charSigned m resp_len p with
  | none => none
  | some (p, req_len) =>
    let d := req_len.toNat
    if rd8 m d = HAVE then
      let d := d + 1
      let start_chunk := rd32be m d
      let d := d + 4
      let p := { p with start_chunk := start_chunk }
      let end_chunk := rd32be m d
      let d := d + 4
      let p := { p with end_chunk := end_chunk }
      let num_chunks := (end_chunk + 2 ^ 32 - start_chunk + 1) % 2 ^ 32
      let p := { p with nc := num_chunks }
      let p := { p with nl := (1 <<< order2 p.nc) % 2 ^ 32 }
      match p.chunk with
      | none =>
        let p := { p with chunk := some (fun _ => ({} : chunk)) }
        some (p, (d : Int))
      | some _ => none
    else none

/-- The function `dump_request`; the `_assert` aborts for a peer that is not a
leecher. -/
def dump_request (m : Buf) (req_len : Int) (p : peer) : Option (peer × Int) :=
  let d := 0
  let dest_chan_id := rd32be m d
  let d := d + 4
  if rd8 m d = REQUEST then
    let d := d + 1
    let start_chunk := rd32be m d
    let d := d + 4
    let end_chunk := rd32be m d
    let d := d + 4
    if p.type = peer_type.LEECHER then
      let p := if p.type = peer_type.LEECHER then
          { p with start_chunk := start_chunk, end_chunk := end_chunk } else p
      some (p, (d : Int))
    else none
  else none

/-! ## `dump_integrity`, `dump_ack` -/

/-- The `for` loop of `dump_integrity` (lines 861-876) from the state
`(peer, d - ptr, x)`.  `x` is a `uint32_t`; the offset is a product of
`uint32_t` values.  The table `peer->chunk` has `nl` entries (it is allocated
by `dump_handshake_have`, line 755).  `none` when the fuel runs out, when
`peer->chunk` is NULL and an iteration dereferences it, and when an iteration
stores to `chunk[x]` with `x ≥ nl`, outside the table. -/
def dump_integrity_loop (m : Buf) (start_chunk end_chunk : Nat) :
    Nat → peer → Nat → Nat → Option (peer × Nat)
  | 0, _, _, _ => none
  | fuel + 1, p, d, x =>
    if x ≤ end_chunk then
      match p.chunk with
      | none => none
      | some tab =>
        if x < p.nl then
          let c := tab x
          let c := { c with sha := bytes (shift m d) 20 }
          let c := { c with state := chunk_state.CH_ACTIVE }
          let c := { c with offset := ((x + 2 ^ 32 - start_chunk) % 2 ^ 32 * p.chunk_size) % 2 ^ 32 }
          let c := { c with len := p.chunk_size }
          dump_integrity_loop m start_chunk end_chunk fuel
            { p with chunk := some (Function.update tab x c) } (d + 20) ((x + 1) % 2 ^ 32)
        else none
    else some (p, d)

/-- The function `dump_integrity`.  The result is `int ret = d - ptr`: the
length parsed, converted to `int`. -/
def dump_integrity (fuel : Nat) (m : Buf) (req_len : Int) (p : peer) : Option (peer × Int) :=
  let d := 0
  let dest_chan_id := rd32be m d
  let d := d + 4
  if rd8 m d = INTEGRITY then
    let d := d + 1
    let start_chunk := rd32be m d
    let d := d + 4
    let end_chunk := rd32be m d
    let d := d + 4
    match dump_integrity_loop m start_chunk end_chunk fuel p d start_chunk with
    | none => none
    | some (p, d) => some (p, toInt32 d)
  else none

/-- The function `dump_ack`: a kind octet other than ACK is reported and the
parse goes on. -/
def dump_ack (m : Buf) (ack_len : Int) (p : peer) : Int :=
  let d := 0
  let dest_chan_id := rd32be m d
  let d := d + 4
  let d := d + 1
  let start_chunk := rd32be m d
  let d := d + 4
  let end_chunk := rd32be m d
  let d := d + 4
  let delay_sample := rd64be m d
  let d := d + 8
  (d : Int)

/-! ## `make_handshake_finish`, `message_type` -/

/-- The function `make_handshake_finish`; the destination channel id is the
constant the source marks "temporarily". -/
def make_handshake_finish (ptr : Buf) (p : peer) : Buf × Int :=
  let d := 0
  let m := wr32be ptr d 0xfeed1234
  let d := d + 4
  let m := wr8 m d HANDSHAKE
  let d := d + 1
  let m := wr32be m d 0x0
  let d := d + 4
  let m := wr8 m d END_OPTION
  let d := d + 1
  (m, (d : Int))

/-- The function `message_type`: `ptr[4]` as a `uint8_t`. -/
def message_type (m : Buf) : Nat := rd8 m 4

/-! ## The scheduler of `peer.c`

The cursor `o` is a `uint64_t` that is incremented only below `nc`, a
`uint32_t`, so `o++` does not wrap; `o - 1` is taken modulo `2 ^ 64`.  Every
loop takes fuel and returns `none` when it runs out, or when it reads
`p->chunk[o]` through a NULL `p->chunk`. -/

/-- The loop `while ((p->chunk[o].downloaded == CH_YES) && (o < p->nc)) o++;`
(lines 295-297 and 357-359), which reads `chunk[o]` before it tests `o`. -/
def skip_downloaded (tab : Nat → chunk) (nc : Nat) : Nat → Nat → Option Nat
  | 0, _ => none
  | fuel + 1, o =>
    if (tab o).downloaded = chunk_downloaded.CH_YES ∧ o < nc then
      skip_downloaded tab nc fuel (o + 1)
    else some o

/-- The loop of lines 304-311 (and 366-373) from the state `(y, o)`: extend the
run while `y < hashes_per_mtu`, `o < nc`, `o <= end_chunk` and the chunk is not
downloaded. -/
def extend_run (tab : Nat → chunk) (nc end_chunk hashes_per_mtu : Nat) :
    Nat → Nat → Nat → Option Nat
  | 0, _, _ => none
  | fuel + 1, y, o =>
    if y < hashes_per_mtu ∧ o < nc ∧ o ≤ end_chunk then
      if (tab o).downloaded = chunk_downloaded.CH_NO then
        extend_run tab nc end_chunk hashes_per_mtu fuel (y + 1) (o + 1)
      else some o
    else some o

/-- The loop `while ((o < p->nc) && (o <= end_chunk))` of lines 293-318 (and,
with `ec` for `end_chunk`, of lines 355-380) from the state
`(p, o, last_chunk)`.  `inner` is the fuel handed to the two inner loops. -/
def schedule_loop (inner end_chunk : Nat) : Nat → peer → Nat → Nat → Option (peer × Nat × Nat)
  | 0, _, _, _ => none
  | fuel + 1, p, o, last_chunk =>
    if o < p.nc ∧ o ≤ end_chunk then
      match p.chunk with
      | none => none
      | some tab =>
        match skip_downloaded tab p.nc inner o with
        | none => none
        | some o =>
          if o ≥ p.nc then some (p, o, last_chunk)
          else
            let old_o := o
            match extend_run tab p.nc end_chunk p.hashes_per_mtu inner 0 o with
            | none => none
            | some o =>
              let last_chunk := ((o + 2 ^ 64 - 1) % 2 ^ 64) % 2 ^ 32
              let e : schedule_entry := { begin := old_o, end_ := (o + 2 ^ 64 - 1) % 2 ^ 64 }
              let p := { p with
                download_schedule := Function.update p.download_schedule p.download_schedule_len e }
              let p := { p with download_schedule_len := p.download_schedule_len + 1 }
              schedule_loop inner end_chunk fuel p o last_chunk
    else some (p, o, last_chunk)

/-- The function `create_download_schedule_sbs` of `peer.c`: the peer after
the call and the returned `int32_t`. -/
def create_download_schedule_sbs (fuel : Nat) (p : peer) (start_chunk end_chunk : Nat) :
    Option (peer × Int) :=
  let p := { p with download_schedule_len := 0 }
  let o := start_chunk
  let last_chunk := start_chunk
  if start_chunk > p.end_chunk then some (p, -1)
  else
    let p := { p with hashes_per_mtu := 256 }
    match schedule_loop fuel end_chunk fuel p o last_chunk with
    | none => none
    | some (p, _, last_chunk) =>
      some (p, toInt32 (((last_chunk + 2 ^ 32 - start_chunk + 1) % 2 ^ 32 * p.chunk_size) % 2 ^ 32))

/-- The loop `while (hci < p->num_have_cache)` of lines 353-382 from the state
`(p, hci, o, last_chunk)`. -/
def swift_have_loop (inner : Nat) : Nat → peer → Nat → Nat → Nat → Option (peer × Nat)
  | 0, _, _, _, _ => none
  | fuel + 1, p, hci, o, last_chunk =>
    if hci < p.num_have_cache then
      let ec := (p.have_cache hci).end_chunk
      match schedule_loop inner ec inner p o last_chunk with
      | none => none
      | some (p, o, last_chunk) => swift_have_loop inner fuel p (hci + 1) o last_chunk
    else some (p, last_chunk)

/-- The function `swift_create_download_schedule_sbs` of `peer.c`; its
parameter `end_chunk` is used in the error message only.  The `_assert` aborts
when `num_have_cache` is 0. -/
def swift_create_download_schedule_sbs (fuel : Nat) (p : peer) (start_chunk end_chunk : Nat) :
    Option (peer × Int) :=
  let p := { p with download_schedule_len := 0 }
  let o := start_chunk
  let last_chunk := start_chunk
  if start_chunk > p.end_chunk then some (p, -1)
  else
    let p := { p with hashes_per_mtu := 256 }
    if p.num_have_cache > 0 then
      let hci := 0
      match swift_have_loop fuel fuel p hci o last_chunk with
      | none => none
      | some (p, last_chunk) =>
        some (p, toInt32 (((last_chunk + 2 ^ 32 - start_chunk + 1) % 2 ^ 32 * p.chunk_size) % 2 ^ 32))
    else none

/-- The loop of `all_chunks_downloaded` (lines 400-406) from `x`, with
`ret = 1` on entry: the value of `ret` at the end. -/
def all_chunks_downloaded_loop (chunk : Option (Nat → chunk)) (nc : Nat) : Nat → Nat → Option Int
  | 0, _ => none
  | fuel + 1, x =>
    if x < nc then
      match chunk with
      | none => none
      | some tab =>
        if (tab x).downloaded = chunk_downloaded.CH_NO then some 0
        else all_chunks_downloaded_loop chunk nc fuel (x + 1)
    else some 1

/-- The function `all_chunks_downloaded` of `peer.c`: the peer after the call
and the returned `int`. -/
def all_chunks_downloaded (fuel : Nat) (p : peer) : Option (peer × Int) :=
  let x := 0
  match all_chunks_downloaded_loop p.chunk p.nc fuel x with
  | none => none
  | some ret => some (p, ret)

/-- Chunk `i` belongs to the schedule entry `e`. -/
def in_entry (e : schedule_entry) (i : Nat) : Prop := e.begin ≤ i ∧ i ≤ e.end_

/-! ## `create_download_schedule` of `peer.c` -/

/-- How a call of `create_download_schedule` ends: it returns; or one of its
two `_assert` tests fails and the process aborts (`debug.h` has `DEBUG 1`);
or its first `_assert` reads `chunk[o]` with `o ≥ nl`, outside the table of
`nl` entries (`dump_handshake_have`, line 755), where the value tested is not
part of the peer record and the test may pass or abort.  `p` is the peer
record at that point. -/
inductive sched_outcome where
  | done (p : peer)
  | assert_failed (p : peer)
  | read_outside (p : peer)

/-- The peer record with which the call ends. -/
def sched_outcome.peer_at_end : sched_outcome → peer
  | sched_outcome.done p => p
  | sched_outcome.assert_failed p => p
  | sched_outcome.read_outside p => p

/-- The run loop of `create_download_schedule` (lines 245-252) from the state
`(y, o)`: as `extend_run`, without the bound by a requested end chunk. -/
def extend_run_nc (tab : Nat → chunk) (nc hashes_per_mtu : Nat) : Nat → Nat → Nat → Option Nat
  | 0, _, _ => none
  | fuel + 1, y, o =>
    if y < hashes_per_mtu ∧ o < nc then
      if (tab o).downloaded = chunk_downloaded.CH_NO then
        extend_run_nc tab nc hashes_per_mtu fuel (y + 1) (o + 1)
      else some o
    else some o

/-- The outer `while` loop of `create_download_schedule` (lines 233-265) from
the cursor `o`; the skip loop is the one of `create_download_schedule_sbs`,
word for word.  The first `_assert` (line 259) reads `chunk[o]` at the cursor
the run loop left, which can be `nc`: inside the table the two tests of the
source decide, outside it (`o ≥ nl`) the call ends as `read_outside`.  `none`
when the fuel runs out or `p->chunk` is NULL. -/
def create_download_schedule_loop (inner : Nat) : Nat → peer → Nat → Option sched_outcome
  | 0, _, _ => none
  | fuel + 1, p, o =>
    if o < p.nc then
      match p.chunk with
      | none => none
      | some tab =>
        match skip_downloaded tab p.nc inner o with
        | none => none
        | some o =>
          if o ≥ p.nc then some (sched_outcome.done p)
          else
            let old_o := o
            match extend_run_nc tab p.nc p.hashes_per_mtu inner 0 o with
            | none => none
            | some o =>
              let e : schedule_entry := { begin := old_o, end_ := (o + 2 ^ 64 - 1) % 2 ^ 64 }
              let p := { p with
                download_schedule := Function.update p.download_schedule p.download_schedule_len e }
              let p := { p with download_schedule_len := p.download_schedule_len + 1 }
              if p.nl ≤ o then some (sched_outcome.read_outside p)
              else if (tab o).downloaded = chunk_downloaded.CH_NO ∨
                  (tab o).downloaded = chunk_downloaded.CH_YES then
                if p.download_schedule_len ≤ p.nc then
                  create_download_schedule_loop inner fuel p o
                else some (sched_outcome.assert_failed p)
              else some (sched_outcome.assert_failed p)
    else some (sched_outcome.done p)

/-- The function `create_download_schedule` of `peer.c`; `hashes_per_mtu` is
the value the peer record holds when it is called. -/
def create_download_schedule (fuel : Nat) (p : peer) : Option sched_outcome :=
  let p := { p with download_schedule_len := 0 }
  let o := 0
  create_download_schedule_loop fuel fuel p o

/-! ## The indices at which the schedulers read the chunk table

Each definition follows the loop of the same name and lists, in order, the
indices `o` of the reads `p->chunk[o].downloaded`.  The stores to
`download_schedule` change nothing that is read, so the entries are not
kept. -/

/-- The reads of the skip loop: `chunk[o]` is read before `o < p->nc` is
tested, at every evaluation of the condition. -/
def skip_downloaded_reads (tab : Nat → chunk) (nc : Nat) : Nat → Nat → List Nat
  | 0, _ => []
  | fuel + 1, o =>
    o :: (if (tab o).downloaded = chunk_downloaded.CH_YES ∧ o < nc then
      skip_downloaded_reads tab nc fuel (o + 1) else [])

/-- The reads of the run loop of the two `sbs` schedulers: `chunk[o]` is read
in the body, after the bounds are tested. -/
def extend_run_reads (tab : Nat → chunk) (nc end_chunk hashes_per_mtu : Nat) :
    Nat → Nat → Nat → List Nat
  | 0, _, _ => []
  | fuel + 1, y, o =>
    if y < hashes_per_mtu ∧ o < nc ∧ o ≤ end_chunk then
      o :: (if (tab o).downloaded = chunk_downloaded.CH_NO then
        extend_run_reads tab nc end_chunk hashes_per_mtu fuel (y + 1) (o + 1) else [])
    else []

/-- The reads of the run loop of `create_download_schedule`. -/
def extend_run_nc_reads (tab : Nat → chunk) (nc hashes_per_mtu : Nat) :
    Nat → Nat → Nat → List Nat
  | 0, _, _ => []
  | fuel + 1, y, o =>
    if y < hashes_per_mtu ∧ o < nc then
      o :: (if (tab o).downloaded = chunk_downloaded.CH_NO then
        extend_run_nc_reads tab nc hashes_per_mtu fuel (y + 1) (o + 1) else [])
    else []

/-- The reads of the outer loop of `create_download_schedule_sbs`. -/
def schedule_loop_reads (inner end_chunk : Nat) : Nat → peer → Nat → List Nat
  | 0, _, _ => []
  | fuel + 1, p, o =>
    if o < p.nc ∧ o ≤ end_chunk then
      match p.chunk with
      | none => []
      | some tab =>
        skip_downloaded_reads tab p.nc inner o ++
        match skip_downloaded tab p.nc inner o with
        | none => []
        | some o =>
          if o ≥ p.nc then []
          else
            extend_run_reads tab p.nc end_chunk p.hashes_per_mtu inner 0 o ++
            match extend_run tab p.nc end_chunk p.hashes_per_mtu inner 0 o with
            | none => []
            | some o => schedule_loop_reads inner end_chunk fuel p o
    else []

/-- The reads of `create_download_schedule_sbs`. -/
def create_download_schedule_sbs_reads (fuel : Nat) (p : peer) (start_chunk end_chunk : Nat) :
    List Nat :=
  if start_chunk > p.end_chunk then []
  else schedule_loop_reads fuel end_chunk fuel { p with hashes_per_mtu := 256 } start_chunk

/-- The reads of the loop over the have cache of
`swift_create_download_schedule_sbs`; the cursor that `schedule_loop` returns
does not depend on the `last_chunk` it is given. -/
def swift_have_loop_reads (inner : Nat) : Nat → peer → Nat → Nat → List Nat
  | 0, _, _, _ => []
  | fuel + 1, p, hci, o =>
    if hci < p.num_have_cache then
      let ec := (p.have_cache hci).end_chunk
      schedule_loop_reads inner ec inner p o ++
      match schedule_loop inner ec inner p o 0 with
      | none => []
      | some (_, o, _) => swift_have_loop_reads inner fuel p (hci + 1) o
    else []

/-- The reads of `swift_create_download_schedule_sbs`. -/
def swift_create_download_schedule_sbs_reads (fuel : Nat) (p : peer)
    (start_chunk end_chunk : Nat) : List Nat :=
  if start_chunk > p.end_chunk then []
  else if p.num_have_cache > 0 then
    swift_have_loop_reads fuel fuel { p with hashes_per_mtu := 256 } 0 start_chunk
  else []

/-- The reads of the outer loop of `create_download_schedule`; the last read
of an iteration is the one of its first `_assert`, at the cursor the run loop
left.  The entry count is kept, since the loop stops when the second
`_assert` fails. -/
def create_download_schedule_loop_reads (inner : Nat) : Nat → peer → Nat → List Nat
  | 0, _, _ => []
  | fuel + 1, p, o =>
    if o < p.nc then
      match p.chunk with
      | none => []
      | some tab =>
        skip_downloaded_reads tab p.nc inner o ++
        match skip_downloaded tab p.nc inner o with
        | none => []
        | some o =>
          if o ≥ p.nc then []
          else
            extend_run_nc_reads tab p.nc p.hashes_per_mtu inner 0 o ++
            match extend_run_nc tab p.nc p.hashes_per_mtu inner 0 o with
            | none => []
            | some o =>
              let p := { p with download_schedule_len := p.download_schedule_len + 1 }
              o :: (if (tab o).downloaded = chunk_downloaded.CH_NO ∨
                  (tab o).downloaded = chunk_downloaded.CH_YES then
                if p.download_schedule_len ≤ p.nc then
                  create_download_schedule_loop_reads inner fuel p o
                else []
              else [])
    else []

/-- The reads of `create_download_schedule`. -/
def create_download_schedule_reads (fuel : Nat) (p : peer) : List Nat :=
  create_download_schedule_loop_reads fuel fuel { p with download_schedule_len := 0 } 0

/-! ## Wire form of the option list -/

/-- Wire form of one option: the tag and the body when the bit of the option
is set in `opt_map`, nothing otherwise. -/
def opt_enc (opt_map tag : Nat) (body : List Nat) : List Nat :=
  if optSet opt_map tag then tag :: body else []

/-- The option list of section 4.2 of the spec for `pos`: the options present
in `opt_map` in ascending tag order, then END_OPTION. -/
def options_wire (hostLE : Bool) (pos : proto_opt_str) : List Nat :=
  opt_enc pos.opt_map VERSION [1]
  ++ opt_enc pos.opt_map MINIMUM_VERSION [1]
  ++ opt_enc pos.opt_map SWARM_ID (be16 pos.swarm_id_len ++ bytes pos.swarm_id pos.swarm_id_len)
  ++ opt_enc pos.opt_map CONTENT_PROT_METHOD [pos.content_prot_method % 256]
  ++ opt_enc pos.opt_map MERKLE_HASH_FUNC [pos.merkle_hash_func % 256]
  ++ opt_enc pos.opt_map LIVE_SIGNATURE_ALG [pos.live_signature_alg % 256]
  ++ opt_enc pos.opt_map CHUNK_ADDR_METHOD [pos.chunk_addr_method % 256]
  ++ opt_enc pos.opt_map LIVE_DISC_WIND
      (if pos.chunk_addr_method = 0 ∨ pos.chunk_addr_method = 2
       then be32 (ld32host hostLE pos.live_disc_wind)
       else be64 (ld64host hostLE pos.live_disc_wind))
  ++ opt_enc pos.opt_map SUPPORTED_MSGS
      (pos.supported_msgs_len % 256 :: bytes pos.supported_msgs (pos.supported_msgs_len % 256))
  ++ opt_enc pos.opt_map CHUNK_SIZE (be32 pos.chunk_size)
  ++ opt_enc pos.opt_map FILE_SIZE (be64 pos.file_size)
  ++ opt_enc pos.opt_map FILE_NAME
      (pos.file_name_len % 256 :: bytes pos.file_name pos.file_name_len)
  ++ [END_OPTION]

/-- The eight option bits that `make_handshake_options` insists on. -/
def required_bits (opt_map : Nat) : Prop :=
  optSet opt_map VERSION = true ∧ optSet opt_map MINIMUM_VERSION = true ∧
  optSet opt_map CONTENT_PROT_METHOD = true ∧ optSet opt_map CHUNK_ADDR_METHOD = true ∧
  optSet opt_map LIVE_DISC_WIND = true ∧ optSet opt_map CHUNK_SIZE = true ∧
  optSet opt_map FILE_SIZE = true ∧ optSet opt_map FILE_NAME = true

/-- The octets of `L` lie in `m` from offset `d` on. -/
def holds_at (m : Buf) (d : Nat) (L : List Nat) : Prop := bytes (shift m d) L.length = L

/-! ## INTEGRITY payload -/

/-- The 20 octets that `memcpy(d, sha, 20)` takes from a hash field. -/
def sha_octets (sha : List Nat) : List Nat := bytes (ofList sha) 20

/-- A hash field that holds 20 octets. -/
def sha_wf (sha : List Nat) : Prop := sha.length = 20 ∧ ∀ v ∈ sha, v < 256

/-- The hashes of the `n` leaves `tree[2 * x]`, `tree[2 * (x + 1)]`, … in
ascending order, 20 octets each. -/
def leaf_hashes (tree : Nat → node) : Nat → Nat → List Nat
  | _, 0 => []
  | x, n + 1 => sha_octets (tree (2 * x)).sha ++ leaf_hashes tree (x + 1) n

/-! ## Sample inputs -/

/-- A protocol option record with every option present. -/
def sample_options : proto_opt_str :=
  { swarm_id_len := 2, swarm_id := ofList [0xAB, 0xCD], content_prot_method := 1,
    chunk_addr_method := 2, live_disc_wind := ofList [1, 2, 3, 4, 5, 6, 7, 8],
    supported_msgs_len := 2, supported_msgs := ofList [0xFF, 0x0F], chunk_size := 1024,
    file_size := 3072, file_name := ofList [97, 46, 98], file_name_len := 3, opt_map := 0xFFF }

/-- The eight required options and nothing else, with the unassigned chunk
addressing method 5. -/
def options_method5 : proto_opt_str := { chunk_addr_method := 5, opt_map := 3787 }

/-- The eight required options and nothing else, with a file name of 200
octets. -/
def options_long_name : proto_opt_str := { file_name_len := 200, opt_map := 3787 }

/-- A leecher record as `memset` leaves it. -/
def fresh_leecher : peer := {}

/-- A tree whose node `n` carries the hash `n, n, …, n` (20 octets). -/
def sample_tree : Nat → node := fun n => { sha := List.replicate 20 (n % 256) }

/-- A seeder with a tree over four leaves. -/
def sample_seeder : peer := { type := peer_type.SEEDER, nl := 4, nc := 3, tree := sample_tree }

/-- The seeder's record of a leecher that asked for chunks 1..2. -/
def sample_request : peer := { dest_chan_id := 7, start_chunk := 1, end_chunk := 2 }

/-- A leecher past HAVE: four zero-filled chunk entries, chunks of 1024 octets. -/
def sample_leecher : peer :=
  { nl := 4, nc := 3, chunk_size := 1024, chunk := some (fun _ => {}) }

/-- A leecher past HAVE whose negotiated chunk size is `2 ^ 31`. -/
def wide_leecher : peer :=
  { nl := 4, nc := 3, chunk_size := 2 ^ 31, chunk := some (fun _ => {}) }

/-- An INTEGRITY message for chunks 0..2 on channel 0 with all-zero hashes. -/
def integrity_0_2 : Buf := ofList [0, 0, 0, 0, 4, 0, 0, 0, 0, 0, 0, 0, 2]

/-- The seeder's record of a leecher that asked for chunks 0..2 and is being
served chunk 1, with chunks of 4 octets. -/
def data_peer : peer :=
  { dest_chan_id := 7, start_chunk := 0, end_chunk := 2, curr_chunk := 1, chunk_size := 4 }

/-- A file of twelve octets, 10, 11, …, 21. -/
def data_file : file_env := file_env.content [10, 11, 12, 13, 14, 15, 16, 17, 18, 19, 20, 21]

/-- A chunk table with the given downloaded flags (`true` is CH_YES); every
entry past the list is not downloaded. -/
def chunk_table (l : List Bool) : Nat → chunk := fun i =>
  { downloaded := if l.getD i false then chunk_downloaded.CH_YES else chunk_downloaded.CH_NO }

/-- A leecher over ten chunks of 1024 octets of which chunks 1, 2 and 5 are
downloaded. -/
def sched_peer : peer :=
  { nc := 10, nl := 16, end_chunk := 9, chunk_size := 1024,
    chunk := some (chunk_table [false, true, true, false, false, true]) }

/-- A leecher over two chunks, the first downloaded. -/
def two_chunk_peer : peer :=
  { nc := 2, nl := 2, end_chunk := 1, chunk_size := 1024,
    chunk := some (chunk_table [true, false]) }

/-- A leecher over three chunks, the first two downloaded. -/
def three_chunk_peer : peer :=
  { nc := 3, nl := 4, end_chunk := 2, chunk_size := 1024,
    chunk := some (chunk_table [true, true, false]) }

/-- A leecher over ten chunks of 1024 octets, none downloaded, whose have
cache is the single range 0..9. -/
def ten_chunk_peer : peer :=
  { nc := 10, nl := 16, end_chunk := 9, chunk_size := 1024, chunk := some (chunk_table []),
    num_have_cache := 1, have_cache := fun _ => { start_chunk := 0, end_chunk := 9 } }

/-- A leecher over three chunks of `2 ^ 31` octets, none downloaded. -/
def wide_sched_peer : peer :=
  { nc := 3, nl := 4, end_chunk := 2, chunk_size := 2 ^ 31, chunk := some (chunk_table []) }

/-- A leecher over two chunks, both downloaded, with an empty have cache. -/
def done_peer : peer :=
  { nc := 2, nl := 2, end_chunk := 1, chunk_size := 1024,
    chunk := some (chunk_table [true, true]) }

/-- A leecher over two chunks, both downloaded, whose have cache is the single
range 0..1. -/
def done_cache_peer : peer :=
  { nc := 2, nl := 2, end_chunk := 1, chunk_size := 1024,
    chunk := some (chunk_table [true, true]),
    num_have_cache := 1, have_cache := fun _ => { start_chunk := 0, end_chunk := 1 } }

/-- A leecher whose remote channel id is 7. -/
def finish_peer : peer := { dest_chan_id := 7 }

/-- An option list with the tag 13 between MINIMUM_VERSION and CHUNK_SIZE:
VERSION 1, MINIMUM_VERSION 1, tag 13, CHUNK_SIZE 1024, END_OPTION. -/
def unknown_tag_options : Buf := ofList [0, 1, 1, 1, 13, 9, 0, 0, 4, 0, 255]

/-! ## Sample inputs for the option parser -/

/-- Options with the unassigned chunk addressing method 5 and an all-zero
discard window. -/
def method5_options : proto_opt_str := { chunk_addr_method := 5 }

/-- The LIVE_DISC_WIND option that the encoder writes for `method5_options`
into memory filled with END_OPTION octets. -/
def method5_wire : Buf := (put_live_disc_wind true method5_options (fun _ => 255, 0)).1

/-- A FILE_NAME option with the length octet 128 and 128 name octets 'A',
then END_OPTION. -/
def long_name_wire : Buf := fun i =>
  if i = 0 then 11 else if i = 1 then 128 else if i = 130 then 255 else 65

/-- A FILE_NAME option with the length octet 3 and the name "abc", then
END_OPTION. -/
def short_name_wire : Buf := ofList [11, 3, 97, 98, 99, 255]

/-! ## The parsers with the peer record at the point where they stop

The definitions above give `none` for a call that stops in `abort()`.  The
ones below follow the same source lines and keep, for such a call, the peer
record as it is when the call stops. -/

/-- How a call of a parser ends: it returns `r` and leaves the peer record
`p`, or it stops in `abort()`, or in a call that cannot complete, with the
peer record `p`. -/
inductive outcome where
  | returned (p : peer) (r : Int)
  | aborted (p : peer)

/-- The peer record and the returned value of a call that returns. -/
def outcome.result : outcome → Option (peer × Int)
  | outcome.returned p r => some (p, r)
  | outcome.aborted _ => none

/-- The peer record with which a call ends. -/
def outcome.peer_at_end : outcome → peer
  | outcome.returned p _ => p
  | outcome.aborted p => p

/-- The record `q` has the range, the counts, the chunk table and the role of
the record `p`: the fields that the option parser does not store to. -/
def range_kept (p q : peer) : Prop :=
  q.start_chunk = p.start_chunk ∧ q.end_chunk = p.end_chunk ∧ q.nc = p.nc ∧ q.nl = p.nl ∧
  q.chunk = p.chunk ∧ q.type = p.type

/-- Lines 645-656 of `dump_options`. -/
def dump_options_end_run (m : Buf) (p : peer) (d : Nat) : outcome :=
  if rd8 m d = END_OPTION then outcome.returned p ((d + 1 : Nat) : Int) else outcome.aborted p

/-- Lines 635-643, then the rest; `fname_len` is stored before the `memcpy`
that cannot complete for a negative length. -/
def dump_options_file_name_run (charSigned : Bool) (m : Buf) (p : peer) (d : Nat) : outcome :=
  if rd8 m d = FILE_NAME then
    let d := d + 1
    let p := { p with fname_len := toChar charSigned (rd8 m d) }
    let d := d + 1
    if p.fname_len < 0 then outcome.aborted p
    else
      let p := { p with fname := memcpy p.fname 0 (shift m d) p.fname_len.toNat }
      dump_options_end_run m p (d + p.fname_len.toNat)
  else dump_options_end_run m p d

/-- Lines 626-633, then the rest. -/
def dump_options_file_size_run (charSigned : Bool) (m : Buf) (p : peer) (d : Nat) : outcome :=
  if rd8 m d = FILE_SIZE then
    let d := d + 1
    let p := if p.type = peer_type.LEECHER then { p with file_size := rd64be m d } else p
    dump_options_file_name_run charSigned m p (d + 8)
  else dump_options_file_name_run charSigned m p d

/-- Lines 617-624, then the rest. -/
def dump_options_chunk_size_run (charSigned : Bool) (m : Buf) (p : peer) (d : Nat) : outcome :=
  if rd8 m d = CHUNK_SIZE then
    let d := d + 1
    let p := if p.type = peer_type.LEECHER then { p with chunk_size := rd32be m d } else p
    dump_options_file_size_run charSigned m p (d + 4)
  else dump_options_file_size_run charSigned m p d

/-- Lines 606-615, then the rest. -/
def dump_options_supported_msgs_run (charSigned : Bool) (m : Buf) (p : peer) (d : Nat) :
    outcome :=
  if rd8 m d = SUPPORTED_MSGS then
    let d := d + 1
    let supported_msgs_len := rd8 m d
    let d := d + 1
    dump_options_chunk_size_run charSigned m p (d + supported_msgs_len)
  else dump_options_chunk_size_run charSigned m p d

/-- Lines 593-604, then the rest. -/
def dump_options_live_disc_wind_run (charSigned : Bool) (m : Buf) (p : peer)
    (chunk_addr_method d : Nat) : outcome :=
  if rd8 m d = LIVE_DISC_WIND then
    let d := d + 1
    if chunk_addr_method = 0 ∨ chunk_addr_method = 2 then
      dump_options_supported_msgs_run charSigned m p (d + 4)
    else if chunk_addr_method = 1 ∨ chunk_addr_method = 3 ∨ chunk_addr_method = 4 then
      dump_options_supported_msgs_run charSigned m p (d + 8)
    else dump_options_supported_msgs_run charSigned m p d
  else dump_options_supported_msgs_run charSigned m p d

/-- Lines 577-591, then the rest. -/
def dump_options_chunk_addr_method_run (charSigned : Bool) (m : Buf) (p : peer) (d : Nat) :
    outcome :=
  let chunk_addr_method := 255
  if rd8 m d = CHUNK_ADDR_METHOD then
    let d := d + 1
    let chunk_addr_method := rd8 m d
    dump_options_live_disc_wind_run charSigned m p chunk_addr_method (d + 1)
  else dump_options_live_disc_wind_run charSigned m p chunk_addr_method d

/-- Lines 571-575, then the rest. -/
def dump_options_live_signature_alg_run (charSigned : Bool) (m : Buf) (p : peer) (d : Nat) :
    outcome :=
  if rd8 m d = LIVE_SIGNATURE_ALG then
    dump_options_chunk_addr_method_run charSigned m p (d + 1 + 1)
  else dump_options_chunk_addr_method_run charSigned m p d

/-- Lines 557-569, then the rest. -/
def dump_options_merkle_hash_func_run (charSigned : Bool) (m : Buf) (p : peer) (d : Nat) :
    outcome :=
  if rd8 m d = MERKLE_HASH_FUNC then
    dump_options_live_signature_alg_run charSigned m p (d + 1 + 1)
  else dump_options_live_signature_alg_run charSigned m p d

/-- Lines 544-555, then the rest. -/
def dump_options_content_prot_method_run (charSigned : Bool) (m : Buf) (p : peer) (d : Nat) :
    outcome :=
  if rd8 m d = CONTENT_PROT_METHOD then
    dump_options_merkle_hash_func_run charSigned m p (d + 1 + 1)
  else dump_options_merkle_hash_func_run charSigned m p d

/-- Lines 536-542, then the rest. -/
def dump_options_swarm_id_run (charSigned : Bool) (m : Buf) (p : peer) (d : Nat) : outcome :=
  if rd8 m d = SWARM_ID then
    let d := d + 1
    let swarm_len := rd16be m d
    let d := d + 2
    dump_options_content_prot_method_run charSigned m p (d + swarm_len)
  else dump_options_content_prot_method_run charSigned m p d

/-- Lines 530-534, then the rest. -/
def dump_options_minimum_version_run (charSigned : Bool) (m : Buf) (p : peer) (d : Nat) :
    outcome :=
  if rd8 m d = MINIMUM_VERSION then dump_options_swarm_id_run charSigned m p (d + 1 + 1)
  else dump_options_swarm_id_run charSigned m p d

/-- The function `dump_options` with the peer record at its end. -/
def dump_options_run (charSigned : Bool) (m : Buf) (p : peer) : outcome :=
  let d := 0
  if rd8 m d = VERSION then
    let d := d + 1
    if rd8 m d ≠ 1 then outcome.aborted p
    else dump_options_minimum_version_run charSigned m p (d + 1)
  else dump_options_minimum_version_run charSigned m p d

/-- The function `dump_handshake_request` with the peer record at its end. -/
def dump_handshake_request_run (charSigned : Bool) (m : Buf) (req_len : Int) (p : peer) :
    outcome :=
  let d := 0
  let dest_chan_id := rd32be m d
  let d := d + 4
  if rd8 m d = HANDSHAKE then
    let d := d + 1
    let src_chan_id := rd32be m d
    let d := d + 4
    match dump_options_run charSigned (shift m d) p with
    | outcome.aborted p => outcome.aborted p
    | outcome.returned p opt_len => outcome.returned p ((d : Int) + opt_len)
  else outcome.aborted p

/-- The function `dump_handshake_have` with the peer record at its end. -/
def dump_handshake_have_run (charSigned : Bool) (m : Buf) (resp_len : Int) (p : peer) :
    outcome :=
  match dump_handshake_request_run charSigned m resp_len p with
  | outcome.aborted p => outcome.aborted p
  | outcome.returned p req_len =>
    let d := req_len.toNat
    if rd8 m d = HAVE then
      let d := d + 1
      let start_chunk := rd32be m d
      let d := d + 4
      let p := { p with start_chunk := start_chunk }
      let end_chunk := rd32be m d
      let d := d + 4
      let p := { p with end_chunk := end_chunk }
      let num_chunks := (end_chunk + 2 ^ 32 - start_chunk + 1) % 2 ^ 32
      let p := { p with nc := num_chunks }
      let p := { p with nl := (1 <<< order2 p.nc) % 2 ^ 32 }
      match p.chunk with
      | none =>
        let p := { p with chunk := some (fun _ => ({} : chunk)) }
        outcome.returned p (d : Int)
      | some _ => outcome.aborted p
    else outcome.aborted p

/-- The function `dump_request` with the peer record at its end. -/
def dump_request_run (m : Buf) (req_len : Int) (p : peer) : outcome :=
  let d := 0
  let dest_chan_id := rd32be m d
  let d := d + 4
  if rd8 m d = REQUEST then
    let d := d + 1
    let start_chunk := rd32be m d
    let d := d + 4
    let end_chunk := rd32be m d
    let d := d + 4
    if p.type = peer_type.LEECHER then
      let p := if p.type = peer_type.LEECHER then
          { p with start_chunk := start_chunk, end_chunk := end_chunk } else p
      outcome.returned p (d : Int)
    else outcome.aborted p
  else outcome.aborted p

/-- The `for` loop of `dump_integrity` with the peer record at its end: `none`
when the fuel runs out or an iteration stores outside the table of `nl`
entries, `aborted` when `peer->chunk` is NULL and an iteration dereferences
it, `returned` with `d - ptr` as an `int` when the loop ends. -/
def dump_integrity_loop_run (m : Buf) (start_chunk end_chunk : Nat) :
    Nat → peer → Nat → Nat → Option outcome
  | 0, _, _, _ => none
  | fuel + 1, p, d, x =>
    if x ≤ end_chunk then
      match p.chunk with
      | none => some (outcome.aborted p)
      | some tab =>
        if x < p.nl then
          let c := tab x
          let c := { c with sha := bytes (shift m d) 20 }
          let c := { c with state := chunk_state.CH_ACTIVE }
          let c := { c with offset := ((x + 2 ^ 32 - start_chunk) % 2 ^ 32 * p.chunk_size) % 2 ^ 32 }
          let c := { c with len := p.chunk_size }
          dump_integrity_loop_run m start_chunk end_chunk fuel
            { p with chunk := some (Function.update tab x c) } (d + 20) ((x + 1) % 2 ^ 32)
        else none
    else some (outcome.returned p (toInt32 d))

/-- The function `dump_integrity` with the peer record at its end; `none` when
the fuel runs out. -/
def dump_integrity_run (fuel : Nat) (m : Buf) (req_len : Int) (p : peer) : Option outcome :=
  let d := 0
  let dest_chan_id := rd32be m d
  let d := d + 4
  if rd8 m d = INTEGRITY then
    let d := d + 1
    let start_chunk := rd32be m d
    let d := d + 4
    let end_chunk := rd32be m d
    let d := d + 4
    dump_integrity_loop_run m start_chunk end_chunk fuel p d start_chunk
  else some (outcome.aborted p)

/-! ## `make_integrity` with the buffer at the point where it stops

`make_integrity` writes the header before its loop.  The definitions below
follow `make_integrity_loop` and `make_integrity` statement by statement and
keep the buffer also when the fuel is used up while the loop is running. -/

/-- How far a call of `make_integrity` has got: it has returned `r` and `m`
is the buffer, or its loop is still running and `m` is the buffer so far. -/
inductive enc_outcome where
  | returned (m : Buf) (r : Int)
  | running (m : Buf)

/-- The buffer at that point. -/
def enc_outcome.buffer : enc_outcome → Buf
  | enc_outcome.returned m _ => m
  | enc_outcome.running m => m

/-- What the encoder returns, or `none` while the loop is running. -/
def enc_outcome.result : enc_outcome → Option (Buf × Int)
  | enc_outcome.returned m r => some (m, r)
  | enc_outcome.running _ => none

/-- The `for` loop of `make_integrity` with the buffer after at most `fuel`
tests of its condition. -/
def make_integrity_loop_run (we : peer) (end_chunk : Nat) : Nat → Buf → Nat → Nat → enc_outcome
  | 0, m, _, _ => enc_outcome.running m
  | fuel + 1, m, d, x =>
    if x ≤ end_chunk then
      make_integrity_loop_run we end_chunk fuel
        (memcpy m d (ofList (we.tree ((2 * x) % 2 ^ 32)).sha) 20) (d + 20) ((x + 1) % 2 ^ 32)
    else enc_outcome.returned m (toInt32 d)

/-- The function `make_integrity` with the buffer after at most `fuel` tests
of the loop condition. -/
def make_integrity_run (fuel : Nat) (ptr : Buf) (p we : peer) : enc_outcome :=
  let d := 0
  let m := wr32be ptr d p.dest_chan_id
  let d := d + 4
  let m := wr8 m d INTEGRITY
  let d := d + 1
  let m := wr32be m d p.start_chunk
  let d := d + 4
  let m := wr32be m d p.end_chunk
  let d := d + 4
  make_integrity_loop_run we p.end_chunk fuel m d p.start_chunk

/-- A handshake with `dest_chan_id = 0`, `src_chan_id = 7` and the options
VERSION 1, MINIMUM_VERSION 1, CHUNK_SIZE 1024, END_OPTION, followed by the
octet 0 where a HAVE message would start. -/
def handshake_no_have : Buf :=
  ofList [0, 0, 0, 0, 0, 0, 0, 0, 7, 0, 1, 1, 1, 9, 0, 0, 4, 0, 255, 0]

/-! ## `process_file` of `peer.c`: the chunk and leaf counts -/

/-- The counters of `struct file_list_entry` of `peer.h`, all `uint32_t`
there but for `file_size`. -/
structure file_list_entry where
  file_size : Nat := 0
  nl : Nat := 0
  nc : Nat := 0
  start_chunk : Nat := 0
  end_chunk : Nat := 0
  deriving DecidableEq, Repr

/-- The function `process_file` up to line 496, where the counters of the
catalog entry are stored; the rest of the function fills the chunk table and
the tree and stores to none of them.  `fd` is what `open` returns and
`st_size` the size that `fstat` reports, an `off_t` that is not negative.
`none` is `exit(1)` after a failed `open`, or the division by a chunk size of
zero.  `nc` and `nl` are `uint64_t` locals, the fields are `uint32_t`. -/
def process_file (file_entry : file_list_entry) (p : peer) (fd : Int) (st_size : Nat) :
    Option file_list_entry :=
  let chunk_size := p.chunk_size
  if fd < 0 then none
  else if chunk_size = 0 then none
  else
    let nc := st_size / chunk_size
    let nc := if st_size - st_size / chunk_size * chunk_size > 0 then nc + 1 else nc
    let file_entry := { file_entry with nc := nc % 2 ^ 32 }
    let nl := 1 <<< order2 nc
    let file_entry := { file_entry with nl := nl % 2 ^ 32 }
    let file_entry := { file_entry with start_chunk := 0 }
    let file_entry := { file_entry with end_chunk := ((nc + 2 ^ 64 - 1) % 2 ^ 64) % 2 ^ 32 }
    some file_entry

/-! ## `net_swift.h` and the API of `ppspp_swift.c` -/

/-- The constant `BUFSIZE` of `net_swift.h`. -/
def BUFSIZE : Nat := 1500

/-- The constant `ENOENT` of `errno.h`. -/
def ENOENT : Int := 2

/-- The constant `ENOMEM` of `errno.h`. -/
def ENOMEM : Int := 12

/-- The function `swift_seeder_add_seeder`; `malloc_ok` says whether `malloc`
returned an entry.  `SLIST_INSERT_HEAD` puts the new entry first. -/
def swift_seeder_add_seeder (malloc_ok : Bool) (handle : peer) (sa : sockaddr_in) :
    peer × Int :=
  let ret := 0
  if malloc_ok then
    let ss : other_seeders_entry := { sa := sa }
    ({ handle with other_seeders_list_head := ss :: handle.other_seeders_list_head }, ret)
  else
    (handle, -ENOMEM)

/-- The `SLIST_FOREACH` loop of `swift_seeder_remove_seeder` from the entry
`e` on: an entry whose `sin_addr` compares equal to that of `sa` is unlinked
by `SLIST_REMOVE`; it is not freed and keeps its `next` link, so the loop
goes on with the entry after it.  The result is the list from `e` on as the
loop leaves it. -/
def remove_seeder_loop (sa : sockaddr_in) : List other_seeders_entry → List other_seeders_entry
  | [] => []
  | e :: rest =>
    if sa.sin_addr = e.sa.sin_addr then remove_seeder_loop sa rest
    else e :: remove_seeder_loop sa rest

/-- The function `swift_seeder_remove_seeder`. -/
def swift_seeder_remove_seeder (handle : peer) (sa : sockaddr_in) : peer × Int :=
  let ret := 0
  ({ handle with
      other_seeders_list_head := remove_seeder_loop sa handle.other_seeders_list_head }, ret)

/-- Modelled from the spec: the record `ppspp_metadata_t` of `ppspp_swift.h`,
which is not among the sources.  The spec names it only as the `out meta` of
`leecher_get_metadata`; the fields are the five that
`swift_leecher_get_metadata` stores to, each as wide as the peer field it
receives. -/
structure ppspp_metadata_t where
  file_name : Buf := fun _ => 0
  file_size : Nat := 0
  chunk_size : Nat := 0
  start_chunk : Nat := 0
  end_chunk : Nat := 0

/-- The search for the NUL that ends a C string, from index `i` on, in an
array with `fuel` chars left: the index of the first NUL, or `none` when the
array holds none. -/
def strlen_from (src : Buf) : Nat → Nat → Option Nat
  | 0, _ => none
  | fuel + 1, i => if rd8 src i = 0 then some i else strlen_from src fuel (i + 1)

/-- The length of the C string in the array `src` of `size` chars. -/
def strlen_in (src : Buf) (size : Nat) : Option Nat := strlen_from src size 0

/-- The call `strcpy(dst, src)` for an array `src` of `size` chars: the string
and its NUL are copied; `none` when the array holds no NUL and the call runs
past its end. -/
def strcpy (dst src : Buf) (size : Nat) : Option Buf :=
  match strlen_in src size with
  | none => none
  | some n => some (memcpy dst 0 src (n + 1))

/-- The function `swift_leecher_get_metadata`.  `conn` is
`swift_preliminary_connection_sbs` of `net_swift.c`, which is not among the
sources: the leecher's record when that call returns, `none` when it does not.
`meta` is `none` for a NULL pointer.  The result is the leecher's record, the
record `meta` points to and the returned status. -/
def swift_leecher_get_metadata (conn : peer → Option peer) (handle : peer)
    (meta : Option ppspp_metadata_t) : Option (peer × Option ppspp_metadata_t × Int) :=
  match conn handle with
  | none => none
  | some local_leecher =>
    if local_leecher.seeder_has_file = 1 then
      let ret := 0
      match meta with
      | some mt =>
        match strcpy mt.file_name local_leecher.fname 256 with
        | none => none
        | some file_name =>
          let mt := { mt with file_name := file_name }
          let mt := { mt with file_size := local_leecher.file_size }
          let mt := { mt with chunk_size := local_leecher.chunk_size }
          let mt := { mt with start_chunk := local_leecher.start_chunk }
          let mt := { mt with end_chunk := local_leecher.end_chunk }
          some (local_leecher, some mt, ret)
      | none => some (local_leecher, none, ret)
    else
      some (local_leecher, meta, -ENOENT)

/-! ## Sample inputs for the parsers, the counters and the API -/

/-- A leecher over 75 chunks of 1024 octets, none downloaded, whose have cache
is the single range 0..74. -/
def mtu_peer : peer :=
  { nc := 75, nl := 128, end_chunk := 74, chunk_size := 1024, chunk := some (chunk_table []),
    num_have_cache := 1, have_cache := fun _ => { start_chunk := 0, end_chunk := 74 } }

/-- The seeder's record of a leecher that asked for chunks 0..74. -/
def mtu_request : peer := { dest_chan_id := 7, start_chunk := 0, end_chunk := 74 }

/-- A seeder with chunks of 1024 octets. -/
def catalog_seeder : peer := { type := peer_type.SEEDER, chunk_size := 1024 }

/-- A seeder with chunks of one octet. -/
def octet_seeder : peer := { type := peer_type.SEEDER, chunk_size := 1 }

/-- The address 10.0.0.1, port 2000. -/
def seeder_a : sockaddr_in := { sin_addr := 0x0a000001, sin_port := 2000 }

/-- The address 10.0.0.1, port 3000. -/
def seeder_b : sockaddr_in := { sin_addr := 0x0a000001, sin_port := 3000 }

/-- The address 10.0.0.2, port 2000. -/
def seeder_c : sockaddr_in := { sin_addr := 0x0a000002, sin_port := 2000 }

/-- A seeder whose list of alternatives holds 10.0.0.2:2000 and then
10.0.0.1:3000. -/
def alt_seeder : peer :=
  { type := peer_type.SEEDER,
    other_seeders_list_head := [{ sa := seeder_c }, { sa := seeder_b }] }

/-- A leecher's record after a handshake reply for the file "abc" of 2500
octets in chunks of 1024. -/
def found_leecher : peer :=
  { seeder_has_file := 1, fname := ofList [97, 98, 99], fname_len := 3, file_size := 2500,
    chunk_size := 1024, start_chunk := 0, end_chunk := 2, nc := 3, nl := 4 }

/-- A handshake with the options VERSION 1, MINIMUM_VERSION 1, END_OPTION
followed by HAVE for the chunks `0 .. 2 ^ 31`, that is `2 ^ 31 + 1` chunks. -/
def have_wide : Buf :=
  ofList [0, 0, 0, 0, 0, 0, 0, 0, 7, 0, 1, 1, 1, 255, 3, 0, 0, 0, 0, 0x80, 0, 0, 0]

/-- A handshake with the same options followed by HAVE for the chunks 0..2. -/
def have_three : Buf :=
  ofList [0, 0, 0, 0, 0, 0, 0, 0, 7, 0, 1, 1, 1, 255, 3, 0, 0, 0, 0, 0, 0, 0, 2]

/-! ## Sample inputs for the schedulers -/

/-- A leecher over one chunk of `2 ^ 32 - 1` octets, not downloaded, with the
allowed range 0..0 and a table of one entry. -/
def odd_chunk_peer : peer :=
  { nc := 1, nl := 1, start_chunk := 0, end_chunk := 0, chunk_size := 2 ^ 32 - 1,
    chunk := some (chunk_table [false]) }

/-- A leecher over one chunk, not downloaded, with `hashes_per_mtu = 256`. -/
def one_chunk_peer : peer :=
  { nc := 1, nl := 1, end_chunk := 0, chunk_size := 1024, hashes_per_mtu := 256,
    chunk := some (chunk_table [false]) }

/-- A leecher over two chunks, both downloaded, with `hashes_per_mtu = 256`
and a table of two entries. -/
def done_mtu_peer : peer :=
  { nc := 2, nl := 2, end_chunk := 1, chunk_size := 1024, hashes_per_mtu := 256,
    chunk := some (chunk_table [true, true]) }

/-! ## Sample inputs for the bounds of the INTEGRITY codec -/

/-- The seeder's record of a leecher that asked for the chunks
`0 .. 107374181`, that is for 107374182 hashes. -/
def bulk_request : peer := { dest_chan_id := 7, start_chunk := 0, end_chunk := 107374181 }

/-- A seeder with a tree over `2 ^ 27` leaves. -/
def bulk_seeder : peer :=
  { type := peer_type.SEEDER, nl := 134217728, nc := 107374182, tree := sample_tree }

/-- A leecher past HAVE with `2 ^ 27` zero-filled chunk entries, chunks of
1024 octets. -/
def bulk_leecher : peer :=
  { nl := 134217728, nc := 107374182, chunk_size := 1024, chunk := some (fun _ => {}) }

/-- The header of an INTEGRITY message for the chunks `0 .. 107374181` on
channel 0; the memory after it holds zeros. -/
def integrity_bulk : Buf := ofList [0, 0, 0, 0, 4, 0, 0, 0, 0, 6, 102, 102, 101]

/-- A leecher past HAVE whose chunk table has two entries. -/
def two_entry_leecher : peer :=
  { nl := 2, nc := 2, chunk_size := 1024, chunk := some (fun _ => {}) }

/-- The seeder's record of a leecher that asked for the chunks
`0 .. 2 ^ 32 - 1`. -/
def endless_request : peer := { dest_chan_id := 7, start_chunk := 0, end_chunk := 2 ^ 32 - 1 }

/-! ## Theorems -/

theorem rd8_lt (m : Buf) (i : Nat) : rd8 m i < 256 := Nat.mod_lt _ (by norm_num)

theorem rd8_mod (m : Buf) (i : Nat) : rd8 m i % 256 = rd8 m i := Nat.mod_eq_of_lt (rd8_lt m i)

theorem rd8_wr8_same (m : Buf) (i v : Nat) : rd8 (wr8 m i v) i = v % 256 := by
  simp [rd8, wr8]

theorem rd8_wr8_ne (m : Buf) (i v j : Nat) (h : j ≠ i) : rd8 (wr8 m i v) j = rd8 m j := by
  simp [rd8, wr8, h]

theorem bytes_length (m : Buf) (n : Nat) : (bytes m n).length = n := by
  simp [bytes]

theorem bytes_succ (m : Buf) (n : Nat) : bytes m (n + 1) = bytes m n ++ [rd8 m n] := by
  simp [bytes, List.range_succ]

theorem bytes_congr (m m' : Buf) (n : Nat) (h : ∀ i, i < n → rd8 m i = rd8 m' i) :
    bytes m n = bytes m' n := by
  unfold bytes
  apply List.map_congr_left
  intro i hi
  exact h i (List.mem_range.mp hi)

theorem bytes_add (m : Buf) (a b : Nat) : bytes m (a + b) = bytes m a ++ bytes (shift m a) b := by
  induction b with
  | zero => simp [bytes]
  | succ b ih =>
    rw [← Nat.add_assoc, bytes_succ, ih, bytes_succ, List.append_assoc]
    simp [rd8, shift]

/-- Appending one octet at the cursor. -/
theorem app_wr8 (m : Buf) (d v : Nat) (L : List Nat) (h : bytes m d = L) :
    bytes (wr8 m d v) (d + 1) = L ++ [v % 256] := by
  rw [bytes_succ, rd8_wr8_same, ← h]
  congr 1
  apply bytes_congr
  intro i hi
  exact rd8_wr8_ne m d v i (by omega)

theorem app_wr16be (m : Buf) (d v : Nat) (L : List Nat) (h : bytes m d = L) :
    bytes (wr16be m d v) (d + 2) = L ++ be16 v := by
  have h1 := app_wr8 _ _ v _ (app_wr8 m d (v / 2 ^ 8) L h)
  simpa [wr16be, be16] using h1

theorem app_wr32be (m : Buf) (d v : Nat) (L : List Nat) (h : bytes m d = L) :
    bytes (wr32be m d v) (d + 4) = L ++ be32 v := by
  have h1 := app_wr8 _ _ v _ (app_wr8 _ _ (v / 2 ^ 8) _
    (app_wr8 _ _ (v / 2 ^ 16) _ (app_wr8 m d (v / 2 ^ 24) L h)))
  simpa [wr32be, be32] using h1

theorem app_wr64be (m : Buf) (d v : Nat) (L : List Nat) (h : bytes m d = L) :
    bytes (wr64be m d v) (d + 8) = L ++ be64 v := by
  have h1 := app_wr32be _ _ v _ (app_wr32be m d (v / 2 ^ 32) L h)
  simpa [wr64be, be64, List.append_assoc] using h1

theorem app_memcpy (m : Buf) (d : Nat) (src : Buf) (n : Nat) (L : List Nat) (h : bytes m d = L) :
    bytes (memcpy m d src n) (d + n) = L ++ bytes src n := by
  rw [bytes_add, ← h]
  congr 1
  · apply bytes_congr
    intro i hi
    simp only [rd8, memcpy]
    rw [if_neg (by omega)]
  · apply bytes_congr
    intro i hi
    simp [rd8, memcpy, shift, hi]

theorem frame_memset (m : Buf) (d v n : Nat) (L : List Nat) (h : bytes m d = L) :
    bytes (memset m d v n) d = L := by
  rw [← h]
  apply bytes_congr
  intro i hi
  simp only [rd8, memset]
  rw [if_neg (by omega)]

/-- The encoder returns -1 exactly when a required bit is missing, and a
positive count otherwise. -/
theorem mho_ret_cases (hostLE : Bool) (ptr : Buf) (pos : proto_opt_str) :
    ((make_handshake_options hostLE ptr pos).2 = -1 ↔ ¬ required_bits pos.opt_map) ∧
    ((make_handshake_options hostLE ptr pos).2 = -1 ∨
      0 < (make_handshake_options hostLE ptr pos).2) := by
  unfold make_handshake_options required_bits
  by_cases h0 : optSet pos.opt_map VERSION = true <;>
  by_cases h1 : optSet pos.opt_map MINIMUM_VERSION = true <;>
  by_cases h3 : optSet pos.opt_map CONTENT_PROT_METHOD = true <;>
  by_cases h6 : optSet pos.opt_map CHUNK_ADDR_METHOD = true <;>
  by_cases h7 : optSet pos.opt_map LIVE_DISC_WIND = true <;>
  by_cases h9 : optSet pos.opt_map CHUNK_SIZE = true <;>
  by_cases h10 : optSet pos.opt_map FILE_SIZE = true <;>
  by_cases h11 : optSet pos.opt_map FILE_NAME = true <;>
  simp only [h0, h1, h3, h6, h7, h9, h10, h11, if_true, if_false, and_self, and_true, and_false,
    false_and, not_true_eq_false, not_false_eq_true, ne_eq, iff_true, iff_false, true_and,
    Bool.false_eq_true, IsEmpty.forall_iff, true_or] <;>
  omega

theorem be16_mod (v : Nat) : be16 (v % 2 ^ 16) = be16 v := by
  simp only [be16]
  norm_num
  omega

theorem be32_mod (v : Nat) : be32 (v % 2 ^ 32) = be32 v := by
  simp only [be32]
  norm_num
  omega

theorem put_version_spec (c : Buf × Nat) (L : List Nat) (h : bytes c.1 c.2 = L) :
    bytes (put_version c).1 (put_version c).2 = L ++ [VERSION, 1] := by
  have h1 := app_wr8 _ _ 1 _ (app_wr8 c.1 c.2 VERSION L h)
  simpa [put_version, VERSION] using h1

theorem put_minimum_version_spec (c : Buf × Nat) (L : List Nat) (h : bytes c.1 c.2 = L) :
    bytes (put_minimum_version c).1 (put_minimum_version c).2 = L ++ [MINIMUM_VERSION, 1] := by
  have h1 := app_wr8 _ _ 1 _ (app_wr8 c.1 c.2 MINIMUM_VERSION L h)
  simpa [put_minimum_version, MINIMUM_VERSION] using h1

theorem put_swarm_id_spec (pos : proto_opt_str) (c : Buf × Nat) (L : List Nat)
    (h : bytes c.1 c.2 = L) :
    bytes (put_swarm_id pos c).1 (put_swarm_id pos c).2 =
      L ++ (SWARM_ID :: (be16 pos.swarm_id_len ++ bytes pos.swarm_id pos.swarm_id_len)) := by
  have h1 := app_memcpy _ _ pos.swarm_id pos.swarm_id_len _
    (app_wr16be _ _ (pos.swarm_id_len % 2 ^ 16) _ (app_wr8 c.1 c.2 SWARM_ID L h))
  rw [be16_mod] at h1
  simpa [put_swarm_id, SWARM_ID, Nat.add_assoc] using h1

theorem put_content_prot_method_spec (pos : proto_opt_str) (c : Buf × Nat) (L : List Nat)
    (h : bytes c.1 c.2 = L) :
    bytes (put_content_prot_method pos c).1 (put_content_prot_method pos c).2 =
      L ++ [CONTENT_PROT_METHOD, pos.content_prot_method % 256] := by
  have h1 := app_wr8 _ _ (pos.content_prot_method % 256) _ (app_wr8 c.1 c.2 CONTENT_PROT_METHOD L h)
  simpa [put_content_prot_method, CONTENT_PROT_METHOD] using h1

theorem put_merkle_hash_func_spec (pos : proto_opt_str) (c : Buf × Nat) (L : List Nat)
    (h : bytes c.1 c.2 = L) :
    bytes (put_merkle_hash_func pos c).1 (put_merkle_hash_func pos c).2 =
      L ++ [MERKLE_HASH_FUNC, pos.merkle_hash_func % 256] := by
  have h1 := app_wr8 _ _ (pos.merkle_hash_func % 256) _ (app_wr8 c.1 c.2 MERKLE_HASH_FUNC L h)
  simpa [put_merkle_hash_func, MERKLE_HASH_FUNC] using h1

theorem put_live_signature_alg_spec (pos : proto_opt_str) (c : Buf × Nat) (L : List Nat)
    (h : bytes c.1 c.2 = L) :
    bytes (put_live_signature_alg pos c).1 (put_live_signature_alg pos c).2 =
      L ++ [LIVE_SIGNATURE_ALG, pos.live_signature_alg % 256] := by
  have h1 := app_wr8 _ _ (pos.live_signature_alg % 256) _ (app_wr8 c.1 c.2 LIVE_SIGNATURE_ALG L h)
  simpa [put_live_signature_alg, LIVE_SIGNATURE_ALG] using h1

theorem put_chunk_addr_method_spec (pos : proto_opt_str) (c : Buf × Nat) (L : List Nat)
    (h : bytes c.1 c.2 = L) :
    bytes (put_chunk_addr_method pos c).1 (put_chunk_addr_method pos c).2 =
      L ++ [CHUNK_ADDR_METHOD, pos.chunk_addr_method % 256] := by
  have h1 := app_wr8 _ _ (pos.chunk_addr_method % 256) _ (app_wr8 c.1 c.2 CHUNK_ADDR_METHOD L h)
  simpa [put_chunk_addr_method, CHUNK_ADDR_METHOD] using h1

theorem put_live_disc_wind_spec (hostLE : Bool) (pos : proto_opt_str) (c : Buf × Nat)
    (L : List Nat) (h : bytes c.1 c.2 = L) :
    bytes (put_live_disc_wind hostLE pos c).1 (put_live_disc_wind hostLE pos c).2 =
      L ++ (LIVE_DISC_WIND ::
        (if pos.chunk_addr_method = 0 ∨ pos.chunk_addr_method = 2
         then be32 (ld32host hostLE pos.live_disc_wind)
         else be64 (ld64host hostLE pos.live_disc_wind))) := by
  by_cases hc : pos.chunk_addr_method = 0 ∨ pos.chunk_addr_method = 2
  · have h1 := app_wr32be _ _ (ld32host hostLE pos.live_disc_wind) _
      (app_wr8 c.1 c.2 LIVE_DISC_WIND L h)
    simpa [put_live_disc_wind, hc, LIVE_DISC_WIND] using h1
  · have h1 := app_wr64be _ _ (ld64host hostLE pos.live_disc_wind) _
      (app_wr8 c.1 c.2 LIVE_DISC_WIND L h)
    simpa [put_live_disc_wind, hc, LIVE_DISC_WIND] using h1

theorem put_supported_msgs_spec (pos : proto_opt_str) (c : Buf × Nat) (L : List Nat)
    (h : bytes c.1 c.2 = L) :
    bytes (put_supported_msgs pos c).1 (put_supported_msgs pos c).2 =
      L ++ (SUPPORTED_MSGS :: pos.supported_msgs_len % 256 ::
        bytes pos.supported_msgs (pos.supported_msgs_len % 256)) := by
  have h1 := app_memcpy _ _ pos.supported_msgs (pos.supported_msgs_len % 256) _
    (app_wr8 _ _ (pos.supported_msgs_len % 256) _ (app_wr8 c.1 c.2 SUPPORTED_MSGS L h))
  simpa [put_supported_msgs, SUPPORTED_MSGS] using h1

theorem put_chunk_size_spec (pos : proto_opt_str) (c : Buf × Nat) (L : List Nat)
    (h : bytes c.1 c.2 = L) :
    bytes (put_chunk_size pos c).1 (put_chunk_size pos c).2 =
      L ++ (CHUNK_SIZE :: be32 pos.chunk_size) := by
  have h1 := app_wr32be _ _ (pos.chunk_size % 2 ^ 32) _ (app_wr8 c.1 c.2 CHUNK_SIZE L h)
  rw [be32_mod] at h1
  simpa [put_chunk_size, CHUNK_SIZE] using h1

theorem put_file_size_spec (pos : proto_opt_str) (c : Buf × Nat) (L : List Nat)
    (h : bytes c.1 c.2 = L) :
    bytes (put_file_size pos c).1 (put_file_size pos c).2 =
      L ++ (FILE_SIZE :: be64 pos.file_size) := by
  have h1 := app_wr64be _ _ pos.file_size _ (app_wr8 c.1 c.2 FILE_SIZE L h)
  simpa [put_file_size, FILE_SIZE] using h1

theorem put_file_name_spec (pos : proto_opt_str) (c : Buf × Nat) (L : List Nat)
    (h : bytes c.1 c.2 = L) :
    bytes (put_file_name pos c).1 (put_file_name pos c).2 =
      L ++ (FILE_NAME :: pos.file_name_len % 256 :: bytes pos.file_name pos.file_name_len) := by
  have h1 := app_memcpy _ _ pos.file_name pos.file_name_len _
    (frame_memset _ _ 0 255 _
      (app_wr8 _ _ (pos.file_name_len % 256) _ (app_wr8 c.1 c.2 FILE_NAME L h)))
  simpa [put_file_name, FILE_NAME] using h1

/-- An optional stage appends the wire form of its option. -/
theorem opt_stage (opt_map tag : Nat) (f : Buf × Nat → Buf × Nat) (body : List Nat)
    (c : Buf × Nat) (L : List Nat)
    (hf : bytes (f c).1 (f c).2 = L ++ (tag :: body)) (h : bytes c.1 c.2 = L) :
    bytes (if optSet opt_map tag = true then f c else c).1
      (if optSet opt_map tag = true then f c else c).2 = L ++ opt_enc opt_map tag body := by
  unfold opt_enc
  by_cases hb : optSet opt_map tag = true
  · simp only [hb, if_true]; exact hf
  · simp only [hb, if_false, Bool.false_eq_true, List.append_nil]; exact h

theorem mho_success (hostLE : Bool) (ptr : Buf) (pos : proto_opt_str)
    (hreq : required_bits pos.opt_map) :
    ∃ (m : Buf) (d : Nat), make_handshake_options hostLE ptr pos = (m, (d : Int)) ∧
      bytes m d = options_wire hostLE pos := by
  obtain ⟨h0, h1, h3, h6, h7, h9, h10, h11⟩ := hreq
  have s0 : bytes (ptr, 0).1 (ptr, 0).2 = [] := rfl
  have s1 := put_minimum_version_spec _ _ (put_version_spec _ _ s0)
  have s2 := opt_stage pos.opt_map SWARM_ID (put_swarm_id pos) _ _ _
    (put_swarm_id_spec pos _ _ s1) s1
  have s3 := put_content_prot_method_spec pos _ _ s2
  have s4 := opt_stage pos.opt_map MERKLE_HASH_FUNC (put_merkle_hash_func pos) _ _ _
    (put_merkle_hash_func_spec pos _ _ s3) s3
  have s5 := opt_stage pos.opt_map LIVE_SIGNATURE_ALG (put_live_signature_alg pos) _ _ _
    (put_live_signature_alg_spec pos _ _ s4) s4
  have s6 := put_live_disc_wind_spec hostLE pos _ _ (put_chunk_addr_method_spec pos _ _ s5)
  have s7 := opt_stage pos.opt_map SUPPORTED_MSGS (put_supported_msgs pos) _ _ _
    (put_supported_msgs_spec pos _ _ s6) s6
  have s8 := put_file_name_spec pos _ _ (put_file_size_spec pos _ _ (put_chunk_size_spec pos _ _ s7))
  have s9 := app_wr8 _ _ END_OPTION _ s8
  have s10 := s9.trans (show _ = options_wire hostLE pos from by
    simp [options_wire, opt_enc, h0, h1, h3, h6, h7, h9, h10, h11, END_OPTION])
  refine ⟨_, _, ?_, s10⟩
  simp only [make_handshake_options, h0, h1, h3, h6, h7, h9, h10, h11, if_true]

theorem shift_shift (m : Buf) (a b : Nat) : shift (shift m a) b = shift m (a + b) := by
  funext i
  simp [shift, Nat.add_assoc]

theorem rd8_shift (m : Buf) (a i : Nat) : rd8 (shift m a) i = rd8 m (a + i) := rfl

theorem holds_at_of_bytes (m : Buf) (n : Nat) (A B : List Nat) (h : bytes m n = A ++ B) :
    holds_at m A.length B := by
  have hn : n = A.length + B.length := by
    have := congrArg List.length h
    simpa [bytes_length] using this
  subst hn
  rw [bytes_add] at h
  exact (List.append_inj h (by simp [bytes_length])).2

theorem holds_at_append (m : Buf) (d : Nat) (A B : List Nat) (h : holds_at m d (A ++ B)) :
    holds_at m d A ∧ holds_at m (d + A.length) B := by
  unfold holds_at at h ⊢
  rw [List.length_append, bytes_add, shift_shift] at h
  have := List.append_inj h (by simp [bytes_length])
  exact this

theorem holds_at_cons (m : Buf) (d x : Nat) (L : List Nat) (h : holds_at m d (x :: L)) :
    rd8 m d = x ∧ holds_at m (d + 1) L := by
  have h1 := holds_at_append m d [x] L (by simpa using h)
  refine ⟨?_, by simpa using h1.2⟩
  have h2 := h1.1
  simp [holds_at, bytes, List.range_succ, rd8_shift] at h2
  exact h2

theorem holds_at_shift (m : Buf) (a d : Nat) (L : List Nat) :
    holds_at (shift m a) d L ↔ holds_at m (a + d) L := by
  unfold holds_at
  rw [shift_shift]

theorem holds_at_be16 (m : Buf) (d v : Nat) (L : List Nat) (h : holds_at m d (be16 v ++ L)) :
    rd16be m d = v % 2 ^ 16 ∧ holds_at m (d + 2) L := by
  simp only [be16, List.cons_append, List.nil_append] at h
  obtain ⟨h0, h⟩ := holds_at_cons _ _ _ _ h
  obtain ⟨h1, h⟩ := holds_at_cons _ _ _ _ h
  refine ⟨?_, h⟩
  simp only [rd16be, h0, h1]
  norm_num
  omega

theorem holds_at_be32 (m : Buf) (d v : Nat) (L : List Nat) (h : holds_at m d (be32 v ++ L)) :
    rd32be m d = v % 2 ^ 32 ∧ holds_at m (d + 4) L := by
  simp only [be32, List.cons_append, List.nil_append] at h
  obtain ⟨h0, h⟩ := holds_at_cons _ _ _ _ h
  obtain ⟨h1, h⟩ := holds_at_cons _ _ _ _ h
  obtain ⟨h2, h⟩ := holds_at_cons _ _ _ _ h
  obtain ⟨h3, h⟩ := holds_at_cons _ _ _ _ h
  refine ⟨?_, h⟩
  simp only [rd32be, h0, h1, h2, h3]
  norm_num
  omega

theorem holds_at_be64 (m : Buf) (d v : Nat) (L : List Nat) (h : holds_at m d (be64 v ++ L)) :
    rd64be m d = v % 2 ^ 64 ∧ holds_at m (d + 8) L := by
  simp only [be64, List.append_assoc] at h
  obtain ⟨h0, h⟩ := holds_at_be32 _ _ _ _ h
  obtain ⟨h1, h⟩ := holds_at_be32 _ _ _ _ h
  refine ⟨?_, h⟩
  simp only [rd64be, h0, h1]
  norm_num
  omega

theorem holds_at_bytes (m : Buf) (d : Nat) (src : Buf) (n : Nat) (L : List Nat)
    (h : holds_at m d (bytes src n ++ L)) :
    bytes (shift m d) n = bytes src n ∧ holds_at m (d + n) L := by
  obtain ⟨h1, h2⟩ := holds_at_append _ _ _ _ h
  rw [bytes_length] at h2
  refine ⟨?_, h2⟩
  simpa [holds_at, bytes_length] using h1

theorem opt_enc_set (opt_map tag : Nat) (body : List Nat) (h : optSet opt_map tag = true) :
    opt_enc opt_map tag body = tag :: body := by
  simp [opt_enc, h]

theorem opt_enc_unset (opt_map tag : Nat) (body : List Nat) (h : ¬ optSet opt_map tag = true) :
    opt_enc opt_map tag body = [] := by
  simp [opt_enc, h]

theorem do_version (cs : Bool) (m : Buf) (p : peer) (R : List Nat)
    (h : holds_at m 0 (VERSION :: 1 :: R)) :
    dump_options cs m p = dump_options_minimum_version cs m p 2 ∧ holds_at m 2 R := by
  obtain ⟨h0, h⟩ := holds_at_cons _ _ _ _ h
  obtain ⟨h1, h⟩ := holds_at_cons _ _ _ _ h
  refine ⟨?_, h⟩
  simp only [Nat.zero_add] at h1
  simp [dump_options, h0, h1]

theorem do_minimum_version (cs : Bool) (m : Buf) (p : peer) (d v : Nat) (R : List Nat)
    (h : holds_at m d (MINIMUM_VERSION :: v :: R)) :
    dump_options_minimum_version cs m p d = dump_options_swarm_id cs m p (d + 2) ∧
      holds_at m (d + 2) R := by
  obtain ⟨h0, h⟩ := holds_at_cons _ _ _ _ h
  obtain ⟨h1, h⟩ := holds_at_cons _ _ _ _ h
  refine ⟨?_, h⟩
  simp [dump_options_minimum_version, h0]

theorem do_swarm_id (cs : Bool) (m : Buf) (p : peer) (d opt_map n : Nat) (src : Buf)
    (R : List Nat) (hn : n < 2 ^ 16)
    (h : holds_at m d (opt_enc opt_map SWARM_ID (be16 n ++ bytes src n) ++
      (CONTENT_PROT_METHOD :: R))) :
    dump_options_swarm_id cs m p d = dump_options_content_prot_method cs m p
        (d + (opt_enc opt_map SWARM_ID (be16 n ++ bytes src n)).length) ∧
      holds_at m (d + (opt_enc opt_map SWARM_ID (be16 n ++ bytes src n)).length)
        (CONTENT_PROT_METHOD :: R) := by
  by_cases hb : optSet opt_map SWARM_ID = true
  · rw [opt_enc_set _ _ _ hb] at h ⊢
    have h' := h
    rw [List.cons_append, List.append_assoc] at h'
    obtain ⟨h0, h1⟩ := holds_at_cons _ _ _ _ h'
    obtain ⟨h2, h3⟩ := holds_at_be16 _ _ _ _ h1
    obtain ⟨_, h4⟩ := holds_at_bytes _ _ _ _ _ h3
    have hl : d + (SWARM_ID :: (be16 n ++ bytes src n)).length = d + 1 + 2 + n := by
      simp [be16, bytes_length]; omega
    rw [hl]
    refine ⟨?_, h4⟩
    have hn' : n % 65536 = n := by omega
    simp [dump_options_swarm_id, h0, h2, hn']
  · rw [opt_enc_unset _ _ _ hb] at h ⊢
    simp only [List.nil_append, List.length_nil, Nat.add_zero] at h ⊢
    refine ⟨?_, h⟩
    obtain ⟨h0, _⟩ := holds_at_cons _ _ _ _ h
    simp [dump_options_swarm_id, h0, CONTENT_PROT_METHOD, SWARM_ID]

theorem do_content_prot_method (cs : Bool) (m : Buf) (p : peer) (d v : Nat) (R : List Nat)
    (h : holds_at m d (CONTENT_PROT_METHOD :: v :: R)) :
    dump_options_content_prot_method cs m p d = dump_options_merkle_hash_func cs m p (d + 2) ∧
      holds_at m (d + 2) R := by
  obtain ⟨h0, h⟩ := holds_at_cons _ _ _ _ h
  obtain ⟨h1, h⟩ := holds_at_cons _ _ _ _ h
  refine ⟨?_, h⟩
  simp [dump_options_content_prot_method, h0]

theorem do_merkle_hash_func (cs : Bool) (m : Buf) (p : peer) (d opt_map v w : Nat)
    (R : List Nat)
    (h : holds_at m d (opt_enc opt_map MERKLE_HASH_FUNC [v] ++
      (opt_enc opt_map LIVE_SIGNATURE_ALG [w] ++ (CHUNK_ADDR_METHOD :: R)))) :
    dump_options_merkle_hash_func cs m p d = dump_options_live_signature_alg cs m p
        (d + (opt_enc opt_map MERKLE_HASH_FUNC [v]).length) ∧
      holds_at m (d + (opt_enc opt_map MERKLE_HASH_FUNC [v]).length)
        (opt_enc opt_map LIVE_SIGNATURE_ALG [w] ++ (CHUNK_ADDR_METHOD :: R)) := by
  by_cases hb : optSet opt_map MERKLE_HASH_FUNC = true
  · rw [opt_enc_set _ _ _ hb] at h ⊢
    obtain ⟨h0, h1⟩ := holds_at_cons _ _ _ _ h
    obtain ⟨_, h2⟩ := holds_at_cons _ _ _ _ h1
    refine ⟨?_, h2⟩
    simp [dump_options_merkle_hash_func, h0]
  · rw [opt_enc_unset _ _ _ hb] at h ⊢
    simp only [List.nil_append, List.length_nil, Nat.add_zero] at h ⊢
    refine ⟨?_, h⟩
    have hne : rd8 m d ≠ MERKLE_HASH_FUNC := by
      by_cases hl : optSet opt_map LIVE_SIGNATURE_ALG = true
      · rw [opt_enc_set _ _ _ hl] at h
        rw [(holds_at_cons _ _ _ _ h).1]; decide
      · rw [opt_enc_unset _ _ _ hl] at h
        rw [(holds_at_cons _ _ _ _ h).1]; decide
    simp [dump_options_merkle_hash_func, hne]

theorem do_live_signature_alg (cs : Bool) (m : Buf) (p : peer) (d opt_map w : Nat)
    (R : List Nat)
    (h : holds_at m d (opt_enc opt_map LIVE_SIGNATURE_ALG [w] ++ (CHUNK_ADDR_METHOD :: R))) :
    dump_options_live_signature_alg cs m p d = dump_options_chunk_addr_method cs m p
        (d + (opt_enc opt_map LIVE_SIGNATURE_ALG [w]).length) ∧
      holds_at m (d + (opt_enc opt_map LIVE_SIGNATURE_ALG [w]).length)
        (CHUNK_ADDR_METHOD :: R) := by
  by_cases hb : optSet opt_map LIVE_SIGNATURE_ALG = true
  · rw [opt_enc_set _ _ _ hb] at h ⊢
    obtain ⟨h0, h1⟩ := holds_at_cons _ _ _ _ h
    obtain ⟨_, h2⟩ := holds_at_cons _ _ _ _ h1
    refine ⟨?_, h2⟩
    simp [dump_options_live_signature_alg, h0]
  · rw [opt_enc_unset _ _ _ hb] at h ⊢
    simp only [List.nil_append, List.length_nil, Nat.add_zero] at h ⊢
    refine ⟨?_, h⟩
    have hne : rd8 m d ≠ LIVE_SIGNATURE_ALG := by
      rw [(holds_at_cons _ _ _ _ h).1]; decide
    simp [dump_options_live_signature_alg, hne]

theorem do_chunk_addr_method (cs : Bool) (m : Buf) (p : peer) (d v : Nat) (R : List Nat)
    (h : holds_at m d (CHUNK_ADDR_METHOD :: v :: R)) :
    dump_options_chunk_addr_method cs m p d = dump_options_live_disc_wind cs m p v (d + 2) ∧
      holds_at m (d + 2) R := by
  obtain ⟨h0, h⟩ := holds_at_cons _ _ _ _ h
  obtain ⟨h1, h⟩ := holds_at_cons _ _ _ _ h
  refine ⟨?_, h⟩
  simp [dump_options_chunk_addr_method, h0, h1]

theorem do_live_disc_wind (cs : Bool) (m : Buf) (p : peer) (d cam : Nat) (body R : List Nat)
    (hcam : cam ≤ 4) (hlen : body.length = if cam = 0 ∨ cam = 2 then 4 else 8)
    (h : holds_at m d (LIVE_DISC_WIND :: (body ++ R))) :
    dump_options_live_disc_wind cs m p cam d =
        dump_options_supported_msgs cs m p (d + 1 + body.length) ∧
      holds_at m (d + 1 + body.length) R := by
  obtain ⟨h0, h1⟩ := holds_at_cons _ _ _ _ h
  obtain ⟨_, h2⟩ := holds_at_append _ _ _ _ h1
  refine ⟨?_, h2⟩
  by_cases hc : cam = 0 ∨ cam = 2
  · rw [if_pos hc] at hlen
    simp [dump_options_live_disc_wind, h0, hc, hlen]
  · rw [if_neg hc] at hlen
    have hc' : cam = 1 ∨ cam = 3 ∨ cam = 4 := by omega
    simp [dump_options_live_disc_wind, h0, hc, hc', hlen]

theorem do_supported_msgs (cs : Bool) (m : Buf) (p : peer) (d opt_map k : Nat) (src : Buf)
    (R : List Nat) (hk : k < 256)
    (h : holds_at m d (opt_enc opt_map SUPPORTED_MSGS (k :: bytes src k) ++ (CHUNK_SIZE :: R))) :
    dump_options_supported_msgs cs m p d = dump_options_chunk_size cs m p
        (d + (opt_enc opt_map SUPPORTED_MSGS (k :: bytes src k)).length) ∧
      holds_at m (d + (opt_enc opt_map SUPPORTED_MSGS (k :: bytes src k)).length)
        (CHUNK_SIZE :: R) := by
  by_cases hb : optSet opt_map SUPPORTED_MSGS = true
  · rw [opt_enc_set _ _ _ hb] at h ⊢
    have h' := h
    rw [List.cons_append, List.cons_append] at h'
    obtain ⟨h0, h1⟩ := holds_at_cons _ _ _ _ h'
    obtain ⟨h2, h3⟩ := holds_at_cons _ _ _ _ h1
    obtain ⟨_, h4⟩ := holds_at_bytes _ _ _ _ _ h3
    have hl : d + (SUPPORTED_MSGS :: k :: bytes src k).length = d + 1 + 1 + k := by
      simp [bytes_length]; omega
    rw [hl]
    refine ⟨?_, h4⟩
    simp [dump_options_supported_msgs, h0, h2]
  · rw [opt_enc_unset _ _ _ hb] at h ⊢
    simp only [List.nil_append, List.length_nil, Nat.add_zero] at h ⊢
    refine ⟨?_, h⟩
    have hne : rd8 m d ≠ SUPPORTED_MSGS := by
      rw [(holds_at_cons _ _ _ _ h).1]; decide
    simp [dump_options_supported_msgs, hne]

theorem do_chunk_size (cs : Bool) (m : Buf) (p : peer) (d v : Nat) (R : List Nat)
    (hp : p.type = peer_type.LEECHER)
    (h : holds_at m d (CHUNK_SIZE :: (be32 v ++ R))) :
    dump_options_chunk_size cs m p d =
        dump_options_file_size cs m { p with chunk_size := v % 2 ^ 32 } (d + 5) ∧
      holds_at m (d + 5) R := by
  obtain ⟨h0, h1⟩ := holds_at_cons _ _ _ _ h
  obtain ⟨h2, h3⟩ := holds_at_be32 _ _ _ _ h1
  refine ⟨?_, h3⟩
  simp [dump_options_chunk_size, h0, h2, hp]

theorem do_file_size (cs : Bool) (m : Buf) (p : peer) (d v : Nat) (R : List Nat)
    (hp : p.type = peer_type.LEECHER)
    (h : holds_at m d (FILE_SIZE :: (be64 v ++ R))) :
    dump_options_file_size cs m p d =
        dump_options_file_name cs m { p with file_size := v % 2 ^ 64 } (d + 9) ∧
      holds_at m (d + 9) R := by
  obtain ⟨h0, h1⟩ := holds_at_cons _ _ _ _ h
  obtain ⟨h2, h3⟩ := holds_at_be64 _ _ _ _ h1
  refine ⟨?_, h3⟩
  simp [dump_options_file_size, h0, h2, hp]

theorem toChar_small (cs : Bool) (n : Nat) (hn : n < 256) (hc : cs = false ∨ n < 128) :
    toChar cs (n % 256) = (n : Int) := by
  unfold toChar
  have h1 : n % 256 % 256 = n := by omega
  rw [h1]
  rcases hc with hc | hc
  · simp [hc]
    omega
  · rw [if_neg (by omega)]
    omega

theorem do_file_name (cs : Bool) (m : Buf) (p : peer) (d n : Nat) (src : Buf)
    (hn : n < 256) (hc : cs = false ∨ n < 128)
    (h : holds_at m d (FILE_NAME :: n % 256 :: (bytes src n ++ [END_OPTION]))) :
    ∃ p', dump_options_file_name cs m p d = some (p', ((d + 2 + n + 1 : Nat) : Int)) ∧
      p'.fname_len = (n : Int) ∧ bytes p'.fname n = bytes src n ∧
      p'.chunk_size = p.chunk_size ∧ p'.file_size = p.file_size := by
  obtain ⟨h0, h1⟩ := holds_at_cons _ _ _ _ h
  obtain ⟨h2, h3⟩ := holds_at_cons _ _ _ _ h1
  obtain ⟨h4, h5⟩ := holds_at_bytes _ _ _ _ _ h3
  obtain ⟨h6, _⟩ := holds_at_cons _ _ _ _ h5
  refine ⟨{ p with fname_len := (n : Int),
                   fname := memcpy p.fname 0 (shift m (d + 1 + 1)) n }, ?_, rfl, ?_, rfl, rfl⟩
  · simp [dump_options_file_name, dump_options_end, h0, h2, toChar_small cs n hn hc, h6]
    omega
  · have := app_memcpy p.fname 0 (shift m (d + 1 + 1)) n [] rfl
    simpa [h4] using this

theorem frame_end (m : Buf) (p : peer) (d : Nat) (p1 : peer) (r : Int)
    (h : dump_options_end m p d = some (p1, r)) : p1.chunk = p.chunk := by
  simp only [dump_options_end] at h
  split_ifs at h
  simp only [Option.some.injEq, Prod.mk.injEq] at h
  rw [← h.1]

theorem frame_file_name (cs : Bool) (m : Buf) (p : peer) (d : Nat) (p1 : peer) (r : Int)
    (h : dump_options_file_name cs m p d = some (p1, r)) : p1.chunk = p.chunk := by
  simp only [dump_options_file_name] at h
  split_ifs at h
  · (have h2 := frame_end _ _ _ _ _ h; exact h2)
  · (have h2 := frame_end _ _ _ _ _ h; exact h2)

theorem frame_file_size (cs : Bool) (m : Buf) (p : peer) (d : Nat) (p1 : peer) (r : Int)
    (h : dump_options_file_size cs m p d = some (p1, r)) : p1.chunk = p.chunk := by
  simp only [dump_options_file_size] at h
  split_ifs at h
  · (have h2 := frame_file_name _ _ _ _ _ _ h; exact h2)
  · (have h2 := frame_file_name _ _ _ _ _ _ h; exact h2)
  · (have h2 := frame_file_name _ _ _ _ _ _ h; exact h2)

theorem frame_chunk_size (cs : Bool) (m : Buf) (p : peer) (d : Nat) (p1 : peer) (r : Int)
    (h : dump_options_chunk_size cs m p d = some (p1, r)) : p1.chunk = p.chunk := by
  simp only [dump_options_chunk_size] at h
  split_ifs at h
  · (have h2 := frame_file_size _ _ _ _ _ _ h; exact h2)
  · (have h2 := frame_file_size _ _ _ _ _ _ h; exact h2)
  · (have h2 := frame_file_size _ _ _ _ _ _ h; exact h2)

theorem frame_supported_msgs (cs : Bool) (m : Buf) (p : peer) (d : Nat) (p1 : peer) (r : Int)
    (h : dump_options_supported_msgs cs m p d = some (p1, r)) : p1.chunk = p.chunk := by
  simp only [dump_options_supported_msgs] at h
  split_ifs at h <;> (have h2 := frame_chunk_size _ _ _ _ _ _ h; exact h2)

theorem frame_live_disc_wind (cs : Bool) (m : Buf) (p : peer) (cam d : Nat) (p1 : peer)
    (r : Int) (h : dump_options_live_disc_wind cs m p cam d = some (p1, r)) :
    p1.chunk = p.chunk := by
  simp only [dump_options_live_disc_wind] at h
  split_ifs at h <;> (have h2 := frame_supported_msgs _ _ _ _ _ _ h; exact h2)

theorem frame_chunk_addr_method (cs : Bool) (m : Buf) (p : peer) (d : Nat) (p1 : peer)
    (r : Int) (h : dump_options_chunk_addr_method cs m p d = some (p1, r)) :
    p1.chunk = p.chunk := by
  simp only [dump_options_chunk_addr_method] at h
  split_ifs at h <;> (have h2 := frame_live_disc_wind _ _ _ _ _ _ _ h; exact h2)

theorem frame_live_signature_alg (cs : Bool) (m : Buf) (p : peer) (d : Nat) (p1 : peer)
    (r : Int) (h : dump_options_live_signature_alg cs m p d = some (p1, r)) :
    p1.chunk = p.chunk := by
  simp only [dump_options_live_signature_alg] at h
  split_ifs at h <;> (have h2 := frame_chunk_addr_method _ _ _ _ _ _ h; exact h2)

theorem frame_merkle_hash_func (cs : Bool) (m : Buf) (p : peer) (d : Nat) (p1 : peer)
    (r : Int) (h : dump_options_merkle_hash_func cs m p d = some (p1, r)) :
    p1.chunk = p.chunk := by
  simp only [dump_options_merkle_hash_func] at h
  split_ifs at h <;> (have h2 := frame_live_signature_alg _ _ _ _ _ _ h; exact h2)

theorem frame_content_prot_method (cs : Bool) (m : Buf) (p : peer) (d : Nat) (p1 : peer)
    (r : Int) (h : dump_options_content_prot_method cs m p d = some (p1, r)) :
    p1.chunk = p.chunk := by
  simp only [dump_options_content_prot_method] at h
  split_ifs at h <;> (have h2 := frame_merkle_hash_func _ _ _ _ _ _ h; exact h2)

theorem frame_swarm_id (cs : Bool) (m : Buf) (p : peer) (d : Nat) (p1 : peer)
    (r : Int) (h : dump_options_swarm_id cs m p d = some (p1, r)) :
    p1.chunk = p.chunk := by
  simp only [dump_options_swarm_id] at h
  split_ifs at h <;> (have h2 := frame_content_prot_method _ _ _ _ _ _ h; exact h2)

theorem frame_minimum_version (cs : Bool) (m : Buf) (p : peer) (d : Nat) (p1 : peer)
    (r : Int) (h : dump_options_minimum_version cs m p d = some (p1, r)) :
    p1.chunk = p.chunk := by
  simp only [dump_options_minimum_version] at h
  split_ifs at h <;> (have h2 := frame_swarm_id _ _ _ _ _ _ h; exact h2)

/-- The option parser leaves `peer->chunk` as it found it. -/
theorem dump_options_chunk (cs : Bool) (m : Buf) (p p1 : peer) (r : Int)
    (h : dump_options cs m p = some (p1, r)) : p1.chunk = p.chunk := by
  simp only [dump_options] at h
  split_ifs at h <;> (have h2 := frame_minimum_version _ _ _ _ _ _ h; exact h2)
theorem wr8_frame (m : Buf) (i v j : Nat) (h : j ≠ i) : wr8 m i v j = m j := by
  simp [wr8, h]

theorem wr32be_frame (m : Buf) (i v j : Nat) (h : j < i ∨ i + 4 ≤ j) : wr32be m i v j = m j := by
  unfold wr32be
  rw [wr8_frame _ _ _ _ (by omega), wr8_frame _ _ _ _ (by omega), wr8_frame _ _ _ _ (by omega),
    wr8_frame _ _ _ _ (by omega)]

theorem wr64be_frame (m : Buf) (i v j : Nat) (h : j < i ∨ i + 8 ≤ j) : wr64be m i v j = m j := by
  unfold wr64be
  rw [wr32be_frame _ _ _ _ (by omega), wr32be_frame _ _ _ _ (by omega)]

theorem memcpy_frame (m : Buf) (d : Nat) (src : Buf) (n j : Nat) (h : j < d ∨ d + n ≤ j) :
    memcpy m d src n j = m j := by
  unfold memcpy
  rw [if_neg (by omega)]

theorem holds_at_zero (m : Buf) (n : Nat) (L : List Nat) (h : bytes m n = L) :
    holds_at m 0 L := holds_at_of_bytes m n [] L (by simpa using h)

theorem make_request_bytes (ptr : Buf) (dest a b : Nat) :
    bytes (make_request ptr dest a b).1 14 =
      be32 dest ++ [REQUEST] ++ be32 a ++ be32 b ++ [PEX_REQ] := by
  have s0 : bytes ptr 0 = [] := rfl
  have s := app_wr8 _ _ PEX_REQ _ (app_wr32be _ _ b _ (app_wr32be _ _ a _
    (app_wr8 _ _ REQUEST _ (app_wr32be _ _ dest _ s0))))
  simpa [make_request, REQUEST, PEX_REQ] using s
theorem make_ack_bytes (ptr : Buf) (p : peer) :
    bytes (make_ack ptr p).1 21 =
      be32 p.dest_chan_id ++ [ACK] ++ be32 p.curr_chunk ++ be32 p.curr_chunk ++
        be64 0x12345678ABCDEF := by
  have s0 : bytes ptr 0 = [] := rfl
  have s := app_wr64be _ _ 0x12345678ABCDEF _ (app_wr32be _ _ p.curr_chunk _
    (app_wr32be _ _ p.curr_chunk _ (app_wr8 _ _ ACK _ (app_wr32be _ _ p.dest_chan_id _ s0))))
  simpa [make_ack, ACK] using s

theorem sha_octets_length (sha : List Nat) : (sha_octets sha).length = 20 := by
  simp [sha_octets, bytes_length]

theorem sha_octets_of_wf (sha : List Nat) (h : sha_wf sha) : sha_octets sha = sha := by
  obtain ⟨hl, hb⟩ := h
  apply List.ext_getElem
  · simp [sha_octets, bytes_length, hl]
  · intro i h1 h2
    have hlt : sha[i] < 256 := hb _ (List.getElem_mem _)
    simp [sha_octets, bytes, rd8, ofList, List.getElem?_eq_getElem h2, Nat.mod_eq_of_lt hlt]

theorem leaf_hashes_length (tree : Nat → node) (x n : Nat) :
    (leaf_hashes tree x n).length = 20 * n := by
  induction n generalizing x with
  | zero => simp [leaf_hashes]
  | succ n ih => simp [leaf_hashes, sha_octets_length, ih]; omega

/-- The loop of `make_integrity` appends the leaf hashes of `x..end_chunk`. -/
theorem make_integrity_loop_spec (we : peer) (b : Nat) (hb : b < 2 ^ 31) :
    ∀ (n fuel : Nat) (m : Buf) (d x : Nat) (L : List Nat), x + n = b + 1 → n + 1 ≤ fuel →
      bytes m d = L →
      ∃ m', make_integrity_loop we b fuel m d x = some (m', d + 20 * n) ∧
        bytes m' (d + 20 * n) = L ++ leaf_hashes we.tree x n ∧
        ∀ j, d + 20 * n ≤ j → m' j = m j := by
  intro n
  induction n with
  | zero =>
    intro fuel m d x L hx hf hL
    obtain ⟨f, rfl⟩ : ∃ f, fuel = f + 1 := ⟨fuel - 1, by omega⟩
    refine ⟨m, ?_, by simpa [leaf_hashes] using hL, fun _ _ => rfl⟩
    simp only [make_integrity_loop]
    rw [if_neg (by omega)]
    rfl
  | succ n ih =>
    intro fuel m d x L hx hf hL
    obtain ⟨f, rfl⟩ : ∃ f, fuel = f + 1 := ⟨fuel - 1, by omega⟩
    have h2x : (2 * x) % 2 ^ 32 = 2 * x := Nat.mod_eq_of_lt (by omega)
    have hx1 : (x + 1) % 2 ^ 32 = x + 1 := Nat.mod_eq_of_lt (by omega)
    have hstep := app_memcpy m d (ofList (we.tree (2 * x)).sha) 20 L hL
    obtain ⟨m', e, hbytes, hframe⟩ := ih f _ (d + 20) (x + 1) _ (by omega) (by omega) hstep
    refine ⟨m', ?_, ?_, ?_⟩
    · simp only [make_integrity_loop]
      rw [if_pos (by omega), h2x, hx1, e]
      congr 2
      omega
    · have e2 : d + 20 * (n + 1) = d + 20 + 20 * n := by omega
      rw [e2, hbytes]
      simp [leaf_hashes, sha_octets]
    · intro j hj
      rw [hframe j (by omega), memcpy_frame _ _ _ _ _ (by omega)]

theorem make_integrity_bytes (fuel : Nat) (ptr : Buf) (p we : peer)
    (hab : p.start_chunk ≤ p.end_chunk) (hb : p.end_chunk < 2 ^ 31)
    (hfuel : p.end_chunk - p.start_chunk + 2 ≤ fuel) :
    ∃ m', make_integrity fuel ptr p we =
        some (m', toInt32 (13 + 20 * (p.end_chunk - p.start_chunk + 1))) ∧
      bytes m' (13 + 20 * (p.end_chunk - p.start_chunk + 1)) =
        be32 p.dest_chan_id ++ [INTEGRITY] ++ be32 p.start_chunk ++ be32 p.end_chunk ++
          leaf_hashes we.tree p.start_chunk (p.end_chunk - p.start_chunk + 1) ∧
      ∀ j, 13 + 20 * (p.end_chunk - p.start_chunk + 1) ≤ j → m' j = ptr j := by
  have s0 : bytes ptr 0 = [] := rfl
  have s := app_wr32be _ _ p.end_chunk _ (app_wr32be _ _ p.start_chunk _
    (app_wr8 _ _ INTEGRITY _ (app_wr32be _ _ p.dest_chan_id _ s0)))
  obtain ⟨m', e, hbytes, hframe⟩ := make_integrity_loop_spec we p.end_chunk hb
    (p.end_chunk - p.start_chunk + 1) fuel _ _ p.start_chunk _ (by omega) (by omega) s
  refine ⟨m', ?_, ?_, ?_⟩
  · simp only [make_integrity, Nat.zero_add] at e ⊢
    rw [e]
  · have e2 : 0 + 4 + 1 + 4 + 4 + 20 * (p.end_chunk - p.start_chunk + 1) =
        13 + 20 * (p.end_chunk - p.start_chunk + 1) := by omega
    rw [e2] at hbytes
    simpa using hbytes
  · intro j hj
    rw [hframe j (by omega), wr32be_frame _ _ _ _ (by omega), wr32be_frame _ _ _ _ (by omega),
      wr8_frame _ _ _ _ (by omega), wr32be_frame _ _ _ _ (by omega)]
theorem leaf_hashes_at (m : Buf) (tree : Nat → node) :
    ∀ (n d x : Nat), holds_at m d (leaf_hashes tree x n) →
      ∀ k, k < n → bytes (shift m (d + 20 * k)) 20 = sha_octets (tree (2 * (x + k))).sha := by
  intro n
  induction n with
  | zero => intro d x _ k hk; omega
  | succ n ih =>
    intro d x h k hk
    simp only [leaf_hashes] at h
    obtain ⟨h1, h2⟩ := holds_at_append _ _ _ _ h
    rw [sha_octets_length] at h2
    cases k with
    | zero =>
      simpa [holds_at, sha_octets_length] using h1
    | succ k =>
      have := ih (d + 20) (x + 1) h2 k (by omega)
      have e1 : d + 20 * (k + 1) = d + 20 + 20 * k := by omega
      have e2 : x + (k + 1) = x + 1 + k := by omega
      rw [e1, e2]
      exact this

/-- The loop of `dump_integrity` rewrites the table entries `x..end_chunk` and
nothing else, when they are inside the table. -/
theorem dump_integrity_loop_spec (m : Buf) (a b : Nat) (hb : b < 2 ^ 32 - 1) :
    ∀ (n fuel : Nat) (p : peer) (d x : Nat) (tab : Nat → chunk), p.chunk = some tab →
      b < p.nl → x + n = b + 1 → n + 1 ≤ fuel → a ≤ x →
      ∃ tab', dump_integrity_loop m a b fuel p d x =
          some ({ p with chunk := some tab' }, d + 20 * n) ∧
        (∀ i, x ≤ i → i ≤ b → tab' i =
          { offset := ((i - a) * p.chunk_size) % 2 ^ 32, len := p.chunk_size,
            sha := bytes (shift m (d + 20 * (i - x))) 20, state := chunk_state.CH_ACTIVE,
            downloaded := (tab i).downloaded }) ∧
        ∀ i, (i < x ∨ b < i) → tab' i = tab i := by
  intro n
  induction n with
  | zero =>
    intro fuel p d x tab htab hnl hx hf hax
    obtain ⟨f, rfl⟩ : ∃ f, fuel = f + 1 := ⟨fuel - 1, by omega⟩
    refine ⟨tab, ?_, fun i h1 h2 => by omega, fun _ _ => rfl⟩
    simp only [dump_integrity_loop]
    rw [if_neg (by omega), ← htab]
    rfl
  | succ n ih =>
    intro fuel p d x tab htab hnl hx hf hax
    obtain ⟨f, rfl⟩ : ∃ f, fuel = f + 1 := ⟨fuel - 1, by omega⟩
    have hx1 : (x + 1) % 2 ^ 32 = x + 1 := Nat.mod_eq_of_lt (by omega)
    have hxa : (x + 2 ^ 32 - a) % 2 ^ 32 = x - a := by omega
    have hxnl : x < p.nl := by omega
    obtain ⟨tab', e, hin, hout⟩ := ih f
      { p with chunk := some (Function.update tab x
        { offset := ((x - a) * p.chunk_size) % 2 ^ 32, len := p.chunk_size,
          sha := bytes (shift m d) 20, state := chunk_state.CH_ACTIVE,
          downloaded := (tab x).downloaded }) }
      (d + 20) (x + 1) _ rfl hnl (by omega) (by omega) (by omega)
    refine ⟨tab', ?_, ?_, ?_⟩
    · simp only [dump_integrity_loop]
      rw [if_pos (by omega)]
      simp only [htab, hx1, hxa]
      rw [if_pos hxnl, e]
      congr 2
      omega
    · intro i h1 h2
      by_cases hix : i = x
      · subst hix
        rw [hout i (by omega)]
        simp
      · rw [hin i (by omega) h2, Function.update_noteq hix]
        have e1 : d + 20 + 20 * (i - (x + 1)) = d + 20 * (i - x) := by omega
        simp only [e1]
    · intro i hi
      rw [hout i (by omega), Function.update_noteq (by omega)]
/-- In a buffer that holds an INTEGRITY message, the `k`-th hash lies at offset
`13 + 20 * k`. -/
theorem integrity_leaf_at (m : Buf) (dest a b : Nat) (tree : Nat → node) (n : Nat)
    (hbytes : bytes m (13 + 20 * n) =
      be32 dest ++ [INTEGRITY] ++ be32 a ++ be32 b ++ leaf_hashes tree a n) :
    ∀ k, k < n → bytes (shift m (13 + 20 * k)) 20 = sha_octets (tree (2 * (a + k))).sha := by
  have H := holds_at_zero _ _ _ hbytes
  simp only [List.append_assoc, List.cons_append, List.nil_append] at H
  obtain ⟨_, H⟩ := holds_at_be32 _ _ _ _ H
  obtain ⟨_, H⟩ := holds_at_cons _ _ _ _ H
  obtain ⟨_, H⟩ := holds_at_be32 _ _ _ _ H
  obtain ⟨_, H⟩ := holds_at_be32 _ _ _ _ H
  exact leaf_hashes_at m tree _ _ _ H
theorem downloaded_cases (c : chunk) :
    c.downloaded = chunk_downloaded.CH_YES ∨ c.downloaded = chunk_downloaded.CH_NO := by
  cases c.downloaded
  · exact Or.inr rfl
  · exact Or.inl rfl

theorem yes_ne_no (c : chunk) (h : c.downloaded = chunk_downloaded.CH_YES) :
    c.downloaded ≠ chunk_downloaded.CH_NO := by
  rw [h]; decide

/-- The skip loop stops at the first chunk from `o` on that is not downloaded,
or at `nc`. -/
theorem skip_downloaded_spec (tab : Nat → chunk) (nc : Nat) :
    ∀ (fuel o : Nat), o ≤ nc → nc + 1 ≤ fuel + o →
      ∃ o1, skip_downloaded tab nc fuel o = some o1 ∧ o ≤ o1 ∧ o1 ≤ nc ∧
        (∀ i, o ≤ i → i < o1 → (tab i).downloaded = chunk_downloaded.CH_YES) ∧
        (o1 < nc → (tab o1).downloaded = chunk_downloaded.CH_NO) := by
  intro fuel
  induction fuel with
  | zero => intro o h1 h2; omega
  | succ f ih =>
    intro o h1 h2
    by_cases hc : (tab o).downloaded = chunk_downloaded.CH_YES ∧ o < nc
    · obtain ⟨o1, e, h3, h4, h5, h6⟩ := ih (o + 1) (by omega) (by omega)
      refine ⟨o1, ?_, by omega, h4, ?_, h6⟩
      · simp only [skip_downloaded]
        rw [if_pos hc, e]
      · intro i hi1 hi2
        by_cases hio : i = o
        · rw [hio]; exact hc.1
        · exact h5 i (by omega) hi2
    · refine ⟨o, ?_, Nat.le_refl o, h1, fun i a b => by omega, ?_⟩
      · simp only [skip_downloaded]
        rw [if_neg hc]
      · intro hlt
        rcases downloaded_cases (tab o) with h | h
        · exact absurd ⟨h, hlt⟩ hc
        · exact h

/-- The run loop advances over chunks that are not downloaded, inside
`[o, end_chunk]` and below `nc`, at most `hashes_per_mtu - y` of them, and at
least one when the first chunk qualifies. -/
theorem extend_run_spec (tab : Nat → chunk) (nc e hpm : Nat) :
    ∀ (fuel y o : Nat), o ≤ nc → nc + 1 ≤ fuel + o → y ≤ hpm →
      ∃ o2, extend_run tab nc e hpm fuel y o = some o2 ∧ o ≤ o2 ∧ o2 ≤ nc ∧
        o2 + y ≤ o + hpm ∧
        (∀ i, o ≤ i → i < o2 → i ≤ e ∧ (tab i).downloaded = chunk_downloaded.CH_NO) ∧
        (y < hpm → o < nc → o ≤ e → (tab o).downloaded = chunk_downloaded.CH_NO → o + 1 ≤ o2) := by
  intro fuel
  induction fuel with
  | zero => intro y o h1 h2; omega
  | succ f ih =>
    intro y o h1 h2 hy
    by_cases hc : y < hpm ∧ o < nc ∧ o ≤ e
    · by_cases hn : (tab o).downloaded = chunk_downloaded.CH_NO
      · obtain ⟨o2, e2, h3, h4, h5, h6, _⟩ := ih (y + 1) (o + 1) (by omega) (by omega) (by omega)
        refine ⟨o2, ?_, by omega, h4, by omega, ?_, fun _ _ _ _ => h3⟩
        · simp only [extend_run]
          rw [if_pos hc, if_pos hn, e2]
        · intro i hi1 hi2
          by_cases hio : i = o
          · rw [hio]; exact ⟨hc.2.2, hn⟩
          · exact h6 i (by omega) hi2
      · refine ⟨o, ?_, Nat.le_refl o, h1, by omega, fun i a b => by omega,
          fun _ _ _ h => absurd h hn⟩
        simp only [extend_run]
        rw [if_pos hc, if_neg hn]
    · refine ⟨o, ?_, Nat.le_refl o, h1, by omega, fun i a b => by omega, ?_⟩
      · simp only [extend_run]
        rw [if_neg hc]
      · intro a b c _
        exact absurd ⟨a, b, c⟩ hc

/-- Over a stretch of chunks that are not downloaded and fit the batch, the
run loop goes to its end. -/
theorem extend_run_all_no (tab : Nat → chunk) (nc e hpm : Nat) (he : e < nc) :
    ∀ (n fuel y o : Nat), o + n = e + 1 → n + 1 ≤ fuel → y + n ≤ hpm →
      (∀ i, o ≤ i → i ≤ e → (tab i).downloaded = chunk_downloaded.CH_NO) →
      extend_run tab nc e hpm fuel y o = some (e + 1) := by
  intro n
  induction n with
  | zero =>
    intro fuel y o h1 h2 h3 h4
    obtain ⟨f, rfl⟩ : ∃ f, fuel = f + 1 := ⟨fuel - 1, by omega⟩
    simp only [extend_run]
    rw [if_neg (by omega)]
    have ho : o = e + 1 := by omega
    rw [ho]
  | succ n ih =>
    intro fuel y o h1 h2 h3 h4
    obtain ⟨f, rfl⟩ : ∃ f, fuel = f + 1 := ⟨fuel - 1, by omega⟩
    simp only [extend_run]
    rw [if_pos (by omega), if_pos (h4 o (Nat.le_refl o) (by omega))]
    exact ih f (y + 1) (o + 1) (by omega) (by omega) (by omega)
      (fun i a b => h4 i (by omega) b)
/-- The outer loop of the scheduler: what it appends to the schedule from the
cursor `o`. -/
theorem schedule_loop_spec (inner e : Nat) (tab : Nat → chunk) :
    ∀ (fuel : Nat) (p : peer) (o last : Nat), p.chunk = some tab → p.hashes_per_mtu = 256 →
      p.nc < 2 ^ 32 → p.nc + 1 ≤ inner → 1 ≤ fuel → p.nc + 1 ≤ fuel + o →
      ∃ (sched : Nat → schedule_entry) (len o' last' : Nat),
        schedule_loop inner e fuel p o last =
          some ({ p with download_schedule := sched, download_schedule_len := len }, o', last') ∧
        p.download_schedule_len ≤ len ∧
        (∀ k, k < p.download_schedule_len → sched k = p.download_schedule k) ∧
        o ≤ o' ∧
        (¬ (o' < p.nc ∧ o' ≤ e) ∨
          ∀ i, o' ≤ i → i < p.nc → (tab i).downloaded = chunk_downloaded.CH_YES) ∧
        (∀ k, p.download_schedule_len ≤ k → k < len →
          o ≤ (sched k).begin ∧ o ≤ (sched k).end_ ∧ (sched k).end_ < p.nc ∧
          (sched k).begin < p.nc ∧ (tab (sched k).begin).downloaded = chunk_downloaded.CH_NO ∧
          (sched k).end_ + 1 - (sched k).begin ≤ 256 ∧ (sched k).end_ < o' ∧
          ∀ i, in_entry (sched k) i → i ≤ e ∧ (tab i).downloaded = chunk_downloaded.CH_NO) ∧
        (∀ k1 k2, p.download_schedule_len ≤ k1 → k1 < k2 → k2 < len →
          (sched k1).end_ < (sched k2).begin) ∧
        (∀ i, o ≤ i → i < o' → i ≤ e → (tab i).downloaded = chunk_downloaded.CH_NO →
          ∃ k, p.download_schedule_len ≤ k ∧ k < len ∧ in_entry (sched k) i) ∧
        ((len = p.download_schedule_len ∧ last' = last) ∨
          (p.download_schedule_len < len ∧ last' = (sched (len - 1)).end_ % 2 ^ 32)) := by
  intro fuel
  induction fuel with
  | zero => intro p o last _ _ _ _ h; omega
  | succ f ih =>
    intro p o last htab hhpm hnc hin _ hfuel
    by_cases hc : o < p.nc ∧ o ≤ e
    · obtain ⟨o1, e1, a1, a2, a3, a4⟩ := skip_downloaded_spec tab p.nc inner o (by omega) (by omega)
      by_cases hbrk : o1 ≥ p.nc
      · refine ⟨p.download_schedule, p.download_schedule_len, o1, last, ?_, Nat.le_refl _,
          fun _ _ => rfl, a1, Or.inl (by omega), fun k h1 h2 => by omega,
          fun k1 k2 h1 h2 h3 => by omega, ?_, Or.inl ⟨rfl, rfl⟩⟩
        · simp only [schedule_loop]
          rw [if_pos hc]
          simp only [htab, e1]
          rw [if_pos hbrk, ← htab]
        · intro i h1 h2 _ h4
          exact absurd h4 (yes_ne_no _ (a3 i h1 h2))
      · have ho1 : o1 < p.nc := by omega
        have hno := a4 ho1
        obtain ⟨o2, e2, b1, b2, b3, b4, b5⟩ :=
          extend_run_spec tab p.nc e 256 inner 0 o1 a2 (by omega) (by omega)
        have ho2 : o + 1 ≤ o2 := by
          by_cases h : o1 ≤ e
          · have := b5 (by omega) ho1 h hno
            omega
          · omega
        have hm1 : (o2 + 2 ^ 64 - 1) % 2 ^ 64 = o2 - 1 := by omega
        obtain ⟨sched, len, o', last', e3, c1, c2, c3, c4, c5, c6, c7, c8⟩ := ih
          { p with
            download_schedule := Function.update p.download_schedule p.download_schedule_len
              { begin := o1, end_ := o2 - 1 },
            download_schedule_len := p.download_schedule_len + 1 }
          o2 ((o2 - 1) % 2 ^ 32) htab hhpm hnc hin (by omega)
          (show p.nc + 1 ≤ f + o2 from by omega)
        simp only at c1 c2 c5 c6 c7 c8
        have hk0 : sched p.download_schedule_len = { begin := o1, end_ := o2 - 1 } := by
          rw [c2 _ (by omega)]
          simp
        refine ⟨sched, len, o', last', ?_, by omega, ?_, by omega, c4, ?_, ?_, ?_, ?_⟩
        · simp only [schedule_loop]
          rw [if_pos hc]
          simp only [htab, e1]
          rw [if_neg hbrk]
          have e2' : extend_run tab p.nc e p.hashes_per_mtu inner 0 o1 = some o2 := by
            rw [hhpm]; exact e2
          simp only [e2', hm1]
          rw [← htab]
          exact e3
        · intro k hk
          rw [c2 k (by omega), Function.update_noteq (by omega)]
        · intro k h1 h2
          by_cases hk : k = p.download_schedule_len
          · rw [hk, hk0]
            refine ⟨a1, by simp only; omega, by simp only; omega, ho1, hno, by simp only; omega,
              by simp only; omega, ?_⟩
            intro i hi
            simp only [in_entry] at hi
            exact b4 i hi.1 (by omega)
          · obtain ⟨d1, d2, d3, d4, d5, d6, d7, d8⟩ := c5 k (by omega) h2
            exact ⟨by omega, by omega, d3, d4, d5, d6, d7, d8⟩
        · intro k1 k2 h1 h2 h3
          by_cases hk : k1 = p.download_schedule_len
          · obtain ⟨d1, _⟩ := c5 k2 (by omega) h3
            rw [hk, hk0]
            simp only
            omega
          · exact c6 k1 k2 (by omega) h2 h3
        · intro i h1 h2 h3 h4
          by_cases hi1 : i < o1
          · exact absurd h4 (yes_ne_no _ (a3 i h1 hi1))
          · by_cases hi2 : i < o2
            · refine ⟨p.download_schedule_len, Nat.le_refl _, by omega, ?_⟩
              rw [hk0]
              simp only [in_entry]
              omega
            · obtain ⟨k, g1, g2, g3⟩ := c7 i (by omega) h2 h3 h4
              exact ⟨k, by omega, g2, g3⟩
        · right
          refine ⟨by omega, ?_⟩
          rcases c8 with ⟨g1, g2⟩ | ⟨g1, g2⟩
          · rw [g2, g1]
            simp only [Nat.add_sub_cancel]
            rw [hk0]
          · exact g2
    · refine ⟨p.download_schedule, p.download_schedule_len, o, last, ?_, Nat.le_refl _,
        fun _ _ => rfl, Nat.le_refl _, Or.inl hc, fun k h1 h2 => by omega,
        fun k1 k2 h1 h2 h3 => by omega, fun i h1 h2 => by omega, Or.inl ⟨rfl, rfl⟩⟩
      simp only [schedule_loop]
      rw [if_neg hc]

theorem toInt32_small (v : Nat) (h : v < 2 ^ 31) : toInt32 v = (v : Int) := by
  unfold toInt32
  have h1 : v % 2 ^ 32 = v := Nat.mod_eq_of_lt (by omega)
  rw [h1, if_pos h]
  omega

theorem all_loop_spec (tab : Nat → chunk) (nc : Nat) :
    ∀ (fuel x : Nat), nc + 1 ≤ fuel + x → 1 ≤ fuel →
      ∃ r, all_chunks_downloaded_loop (some tab) nc fuel x = some r ∧
        (r = 1 ↔ ∀ i, x ≤ i → i < nc → (tab i).downloaded = chunk_downloaded.CH_YES) ∧
        (r = 1 ∨ r = 0) := by
  intro fuel
  induction fuel with
  | zero => intro x _ h; omega
  | succ f ih =>
    intro x hf _
    by_cases hx : x < nc
    · by_cases hno : (tab x).downloaded = chunk_downloaded.CH_NO
      · refine ⟨0, ?_, ?_, Or.inr rfl⟩
        · simp only [all_chunks_downloaded_loop]
          rw [if_pos hx, if_pos hno]
        · constructor
          · intro h; exact absurd h (by decide)
          · intro h
            have := h x (Nat.le_refl x) hx
            rw [hno] at this
            exact absurd this (by decide)
      · obtain ⟨r, e, h1, h2⟩ := ih (x + 1) (by omega) (by omega)
        refine ⟨r, ?_, ?_, h2⟩
        · simp only [all_chunks_downloaded_loop]
          rw [if_pos hx, if_neg hno, e]
        · rw [h1]
          constructor
          · intro h i hi1 hi2
            by_cases hix : i = x
            · rcases downloaded_cases (tab x) with hy | hy
              · rw [hix]; exact hy
              · exact absurd hy hno
            · exact h i (by omega) hi2
          · intro h i hi1 hi2
            exact h i (by omega) hi2
    · refine ⟨1, ?_, ?_, Or.inl rfl⟩
      · simp only [all_chunks_downloaded_loop]
        rw [if_neg hx]
      · constructor
        · intro _ i h1 h2; omega
        · intro _; rfl

theorem all_loop_one (chunk : Option (Nat → chunk)) (nc : Nat) :
    ∀ (fuel x : Nat), all_chunks_downloaded_loop chunk nc fuel x = some 1 →
      (∀ tab, chunk = some tab → ∀ i, x ≤ i → i < nc →
        (tab i).downloaded = chunk_downloaded.CH_YES) ∧
      (chunk = none → nc ≤ x) := by
  intro fuel
  induction fuel with
  | zero => intro x h; simp [all_chunks_downloaded_loop] at h
  | succ f ih =>
    intro x h
    simp only [all_chunks_downloaded_loop] at h
    by_cases hx : x < nc
    · rw [if_pos hx] at h
      cases hch : chunk with
      | none => rw [hch] at h; simp at h
      | some tab =>
        rw [hch] at h
        simp only at h
        by_cases hno : (tab x).downloaded = chunk_downloaded.CH_NO
        · rw [if_pos hno] at h
          simp at h
        · rw [if_neg hno, ← hch] at h
          obtain ⟨h1, _⟩ := ih (x + 1) h
          refine ⟨?_, fun hn => by simp at hn⟩
          intro tab' ht i hi1 hi2
          have ht' : tab' = tab := by
            simp only [Option.some.injEq] at ht
            exact ht.symm
          by_cases hix : i = x
          · rcases downloaded_cases (tab x) with hy | hy
            · rw [hix, ht']; exact hy
            · exact absurd hy hno
          · exact h1 tab' (by rw [hch, ht']) i (by omega) hi2
    · exact ⟨fun tab _ i h1 h2 => by omega, fun _ => by omega⟩

/-- With every chunk below `nc` downloaded the outer loop of the scheduler
leaves the peer as it is. -/
theorem schedule_loop_all_yes (inner e : Nat) (p : peer) (o last : Nat) (fuel : Nat)
    (hall : ∀ tab, p.chunk = some tab → ∀ i, i < p.nc →
      (tab i).downloaded = chunk_downloaded.CH_YES)
    (hnone : p.chunk = none → p.nc = 0) (hin : p.nc + 1 ≤ inner) (hfuel : 1 ≤ fuel) :
    ∃ o', schedule_loop inner e fuel p o last = some (p, o', last) := by
  obtain ⟨f, rfl⟩ : ∃ f, fuel = f + 1 := ⟨fuel - 1, by omega⟩
  by_cases hc : o < p.nc ∧ o ≤ e
  · cases hch : p.chunk with
    | none => have := hnone hch; omega
    | some tab =>
      obtain ⟨o1, e1, a1, a2, a3, a4⟩ :=
        skip_downloaded_spec tab p.nc inner o (by omega) (by omega)
      have hge : o1 ≥ p.nc := by
        by_contra hlt
        exact yes_ne_no _ (hall tab hch o1 (by omega)) (a4 (by omega))
      refine ⟨o1, ?_⟩
      simp only [schedule_loop]
      rw [if_pos hc]
      simp only [hch, e1]
      rw [if_pos hge]
  · refine ⟨o, ?_⟩
    simp only [schedule_loop]
    rw [if_neg hc]

theorem swift_have_loop_all_yes (inner : Nat) (p : peer)
    (hall : ∀ tab, p.chunk = some tab → ∀ i, i < p.nc →
      (tab i).downloaded = chunk_downloaded.CH_YES)
    (hnone : p.chunk = none → p.nc = 0) (hin : p.nc + 1 ≤ inner) (hin1 : 1 ≤ inner) :
    ∀ (fuel hci o last : Nat), p.num_have_cache + 1 ≤ fuel + hci → 1 ≤ fuel →
      swift_have_loop inner fuel p hci o last = some (p, last) := by
  intro fuel
  induction fuel with
  | zero => intro hci o last _ h; omega
  | succ f ih =>
    intro hci o last hf _
    by_cases hc : hci < p.num_have_cache
    · obtain ⟨o', e⟩ := schedule_loop_all_yes inner (p.have_cache hci).end_chunk p o last inner
        hall hnone hin hin1
      simp only [swift_have_loop]
      rw [if_pos hc, e]
      exact ih (hci + 1) o' last (by omega) (by omega)
    · simp only [swift_have_loop]
      rw [if_neg hc]

/-- A buffer that agrees on its first five octets with the result of writing
`dest_chan_id` and the kind `K` starts with those five octets. -/
theorem header_of_frame (ptr m' : Buf) (dest K : Nat) (hK : K < 256)
    (h : ∀ j, j < 5 → m' j = wr8 (wr32be ptr 0 dest) 4 K j) :
    bytes m' 5 = be32 dest ++ [K] ∧ message_type m' = K := by
  have s0 : bytes ptr 0 = [] := rfl
  have s := app_wr8 _ _ K _ (app_wr32be _ _ dest _ s0)
  rw [Nat.mod_eq_of_lt hK] at s
  constructor
  · rw [← List.nil_append (be32 dest), ← s]
    apply bytes_congr
    intro i hi
    simp only [rd8]
    rw [h i hi]
  · simp only [message_type, rd8]
    rw [h 4 (by omega)]
    have := rd8_wr8_same (wr32be ptr 0 dest) 4 K
    simp only [rd8] at this
    rw [this, Nat.mod_eq_of_lt hK]

/-- The loop of `make_integrity` writes at its cursor and after it only. -/
theorem make_integrity_loop_frame (we : peer) (b : Nat) :
    ∀ (fuel : Nat) (m : Buf) (d x : Nat) (m' : Buf) (d' : Nat),
      make_integrity_loop we b fuel m d x = some (m', d') → ∀ j, j < d → m' j = m j := by
  intro fuel
  induction fuel with
  | zero => intro m d x m' d' h; simp [make_integrity_loop] at h
  | succ f ih =>
    intro m d x m' d' h j hj
    simp only [make_integrity_loop] at h
    by_cases hx : x ≤ b
    · rw [if_pos hx] at h
      rw [ih _ _ _ _ _ h j (by omega), memcpy_frame _ _ _ _ _ (by omega)]
    · rw [if_neg hx] at h
      simp only [Option.some.injEq, Prod.mk.injEq] at h
      rw [← h.1]

/-- The loop of `make_integrity` ends when `end_chunk` is below the largest
`uint32_t`. -/
theorem make_integrity_loop_returns (we : peer) (b : Nat) (hb : b < 2 ^ 32 - 1) :
    ∀ (fuel : Nat) (m : Buf) (d x : Nat), b + 2 ≤ fuel + x → 1 ≤ fuel →
      ∃ r, make_integrity_loop we b fuel m d x = some r := by
  intro fuel
  induction fuel with
  | zero => intro m d x _ h; omega
  | succ f ih =>
    intro m d x hf _
    by_cases hx : x ≤ b
    · have hx1 : (x + 1) % 2 ^ 32 = x + 1 := Nat.mod_eq_of_lt (by omega)
      obtain ⟨r, e⟩ := ih (memcpy m d (ofList (we.tree ((2 * x) % 2 ^ 32)).sha) 20) (d + 20)
        (x + 1) (by omega) (by omega)
      refine ⟨r, ?_⟩
      simp only [make_integrity_loop]
      rw [if_pos hx, hx1, e]
    · refine ⟨(m, d), ?_⟩
      simp only [make_integrity_loop]
      rw [if_neg hx]

theorem dump_options_end_run_result (m : Buf) (p : peer) (d : Nat) :
    (dump_options_end_run m p d).result = dump_options_end m p d := by
  simp only [dump_options_end_run, dump_options_end]
  split_ifs <;> rfl

theorem dump_options_file_name_run_result (cs : Bool) (m : Buf) (p : peer) (d : Nat) :
    (dump_options_file_name_run cs m p d).result = dump_options_file_name cs m p d := by
  simp only [dump_options_file_name_run, dump_options_file_name]
  split_ifs
  · rfl
  · exact dump_options_end_run_result _ _ _
  · exact dump_options_end_run_result _ _ _

theorem dump_options_file_size_run_result (cs : Bool) (m : Buf) (p : peer) (d : Nat) :
    (dump_options_file_size_run cs m p d).result = dump_options_file_size cs m p d := by
  simp only [dump_options_file_size_run, dump_options_file_size]
  split_ifs <;> exact dump_options_file_name_run_result _ _ _ _

theorem dump_options_chunk_size_run_result (cs : Bool) (m : Buf) (p : peer) (d : Nat) :
    (dump_options_chunk_size_run cs m p d).result = dump_options_chunk_size cs m p d := by
  simp only [dump_options_chunk_size_run, dump_options_chunk_size]
  split_ifs <;> exact dump_options_file_size_run_result _ _ _ _

theorem dump_options_supported_msgs_run_result (cs : Bool) (m : Buf) (p : peer) (d : Nat) :
    (dump_options_supported_msgs_run cs m p d).result =
      dump_options_supported_msgs cs m p d := by
  simp only [dump_options_supported_msgs_run, dump_options_supported_msgs]
  split_ifs <;> exact dump_options_chunk_size_run_result _ _ _ _

theorem dump_options_live_disc_wind_run_result (cs : Bool) (m : Buf) (p : peer) (cam d : Nat) :
    (dump_options_live_disc_wind_run cs m p cam d).result =
      dump_options_live_disc_wind cs m p cam d := by
  simp only [dump_options_live_disc_wind_run, dump_options_live_disc_wind]
  split_ifs <;> exact dump_options_supported_msgs_run_result _ _ _ _

theorem dump_options_chunk_addr_method_run_result (cs : Bool) (m : Buf) (p : peer) (d : Nat) :
    (dump_options_chunk_addr_method_run cs m p d).result =
      dump_options_chunk_addr_method cs m p d := by
  simp only [dump_options_chunk_addr_method_run, dump_options_chunk_addr_method]
  split_ifs <;> exact dump_options_live_disc_wind_run_result _ _ _ _ _

theorem dump_options_live_signature_alg_run_result (cs : Bool) (m : Buf) (p : peer) (d : Nat) :
    (dump_options_live_signature_alg_run cs m p d).result =
      dump_options_live_signature_alg cs m p d := by
  simp only [dump_options_live_signature_alg_run, dump_options_live_signature_alg]
  split_ifs <;> exact dump_options_chunk_addr_method_run_result _ _ _ _

theorem dump_options_merkle_hash_func_run_result (cs : Bool) (m : Buf) (p : peer) (d : Nat) :
    (dump_options_merkle_hash_func_run cs m p d).result =
      dump_options_merkle_hash_func cs m p d := by
  simp only [dump_options_merkle_hash_func_run, dump_options_merkle_hash_func]
  split_ifs <;> exact dump_options_live_signature_alg_run_result _ _ _ _

theorem dump_options_content_prot_method_run_result (cs : Bool) (m : Buf) (p : peer)
    (d : Nat) :
    (dump_options_content_prot_method_run cs m p d).result =
      dump_options_content_prot_method cs m p d := by
  simp only [dump_options_content_prot_method_run, dump_options_content_prot_method]
  split_ifs <;> exact dump_options_merkle_hash_func_run_result _ _ _ _

theorem dump_options_swarm_id_run_result (cs : Bool) (m : Buf) (p : peer) (d : Nat) :
    (dump_options_swarm_id_run cs m p d).result = dump_options_swarm_id cs m p d := by
  simp only [dump_options_swarm_id_run, dump_options_swarm_id]
  split_ifs <;> exact dump_options_content_prot_method_run_result _ _ _ _

theorem dump_options_minimum_version_run_result (cs : Bool) (m : Buf) (p : peer) (d : Nat) :
    (dump_options_minimum_version_run cs m p d).result =
      dump_options_minimum_version cs m p d := by
  simp only [dump_options_minimum_version_run, dump_options_minimum_version]
  split_ifs <;> exact dump_options_swarm_id_run_result _ _ _ _

/-- The two embeddings of `dump_options` agree on the calls that return. -/
theorem dump_options_run_result (cs : Bool) (m : Buf) (p : peer) :
    (dump_options_run cs m p).result = dump_options cs m p := by
  simp only [dump_options_run, dump_options]
  split_ifs
  · rfl
  · exact dump_options_minimum_version_run_result _ _ _ _
  · exact dump_options_minimum_version_run_result _ _ _ _

theorem dump_handshake_request_run_result (cs : Bool) (m : Buf) (req_len : Int) (p : peer) :
    (dump_handshake_request_run cs m req_len p).result =
      dump_handshake_request cs m req_len p := by
  simp only [dump_handshake_request_run, dump_handshake_request]
  split_ifs
  · rw [← dump_options_run_result]
    cases dump_options_run cs (shift m (0 + 4 + 1 + 4)) p <;> rfl
  · rfl

theorem dump_handshake_have_run_result (cs : Bool) (m : Buf) (resp_len : Int) (p : peer) :
    (dump_handshake_have_run cs m resp_len p).result = dump_handshake_have cs m resp_len p := by
  simp only [dump_handshake_have_run, dump_handshake_have]
  rw [← dump_handshake_request_run_result]
  cases dump_handshake_request_run cs m resp_len p with
  | aborted q => rfl
  | returned q r =>
    simp only [outcome.result]
    split_ifs
    · cases q.chunk <;> rfl
    · rfl

theorem dump_request_run_result (m : Buf) (req_len : Int) (p : peer) :
    (dump_request_run m req_len p).result = dump_request m req_len p := by
  simp only [dump_request_run, dump_request]
  split_ifs <;> rfl

theorem dump_integrity_loop_run_result (m : Buf) (a b : Nat) :
    ∀ (fuel : Nat) (p : peer) (d x : Nat),
      (dump_integrity_loop_run m a b fuel p d x).bind outcome.result =
        (dump_integrity_loop m a b fuel p d x).map (fun r => (r.1, toInt32 r.2)) := by
  intro fuel
  induction fuel with
  | zero => intro p d x; rfl
  | succ f ih =>
    intro p d x
    simp only [dump_integrity_loop_run, dump_integrity_loop]
    by_cases hx : x ≤ b
    · rw [if_pos hx, if_pos hx]
      cases p.chunk with
      | none => rfl
      | some tab =>
        by_cases hnl : x < p.nl
        · simp only [if_pos hnl]
          exact ih _ _ _
        · simp only [if_neg hnl]
          rfl
    · rw [if_neg hx, if_neg hx]
      rfl

theorem dump_integrity_run_result (fuel : Nat) (m : Buf) (req_len : Int) (p : peer) :
    (dump_integrity_run fuel m req_len p).bind outcome.result =
      dump_integrity fuel m req_len p := by
  simp only [dump_integrity_run, dump_integrity]
  split_ifs
  · rw [dump_integrity_loop_run_result]
    cases dump_integrity_loop m (rd32be m (0 + 4 + 1)) (rd32be m (0 + 4 + 1 + 4)) fuel p
      (0 + 4 + 1 + 4 + 4) (rd32be m (0 + 4 + 1)) <;> rfl
  · rfl

theorem order2_from_spec (n : Nat) :
    ∀ (fuel k : Nat), (∀ j, j < k → ¬ n ≤ 2 ^ j) → n ≤ 2 ^ (k + fuel) →
      n ≤ 2 ^ order2_from n fuel k ∧ ∀ j, n ≤ 2 ^ j → order2_from n fuel k ≤ j := by
  intro fuel
  induction fuel with
  | zero =>
    intro k hlow hup
    simp only [order2_from]
    refine ⟨by simpa using hup, ?_⟩
    intro j hj
    by_contra hlt
    exact hlow j (by omega) hj
  | succ f ih =>
    intro k hlow hup
    simp only [order2_from]
    by_cases hk : n ≤ 2 ^ k
    · rw [if_pos hk]
      refine ⟨hk, ?_⟩
      intro j hj
      by_contra hlt
      exact hlow j (by omega) hj
    · rw [if_neg hk]
      apply ih (k + 1)
      · intro j hj
        by_cases hjk : j = k
        · rw [hjk]; exact hk
        · exact hlow j (by omega)
      · have e : k + 1 + f = k + (f + 1) := by omega
        rw [e]
        exact hup

/-- The model of `order2`: the least exponent `k` with `n ≤ 2 ^ k`. -/
theorem order2_spec (n : Nat) :
    n ≤ 2 ^ order2 n ∧ ∀ j, n ≤ 2 ^ j → order2 n ≤ j := by
  unfold order2
  apply order2_from_spec n n 0
  · intro j hj; omega
  · rw [Nat.zero_add]
    exact Nat.le_of_lt (Nat.lt_two_pow n)

/-- For `n ≤ 2 ^ 30` the shift `1 << order2(n)` stays inside `int` and
`uint32_t`. -/
theorem order2_shift (n : Nat) (hn : n ≤ 2 ^ 30) :
    order2 n ≤ 30 ∧ (1 <<< order2 n) % 2 ^ 32 = 2 ^ order2 n := by
  have hk : order2 n ≤ 30 := (order2_spec n).2 30 hn
  refine ⟨hk, ?_⟩
  rw [Nat.one_shiftLeft]
  apply Nat.mod_eq_of_lt
  calc 2 ^ order2 n ≤ 2 ^ 30 := Nat.pow_le_pow_right (by norm_num) hk
    _ < 2 ^ 32 := by norm_num

/-- The chunk count of `process_file` is the quotient rounded up. -/
theorem ceil_div_cases (s c : Nat) (hc : 0 < c) :
    (if s - s / c * c > 0 then s / c + 1 else s / c) = (s + c - 1) / c ∧
    s ≤ (s + c - 1) / c * c ∧ (s + c - 1) / c * c < s + c := by
  have hm := Nat.div_add_mod s c
  have hl := Nat.mod_lt s hc
  have ht : c * (s / c) = s / c * c := Nat.mul_comm _ _
  have hsucc : (s / c + 1) * c = s / c * c + c := by rw [Nat.add_mul, Nat.one_mul]
  by_cases h : s - s / c * c > 0
  · have e : (s + c - 1) / c = s / c + 1 := by
      apply Nat.div_eq_of_lt_le
      · rw [hsucc]; omega
      · rw [Nat.add_mul, Nat.one_mul, hsucc]; omega
    rw [if_pos h, e, hsucc]
    exact ⟨rfl, by omega, by omega⟩
  · have e : (s + c - 1) / c = s / c := by
      apply Nat.div_eq_of_lt_le
      · omega
      · rw [hsucc]; omega
    rw [if_neg h, e]
    exact ⟨rfl, by omega, by omega⟩

/-- The counters that `process_file` stores, in terms of the rounded-up
quotient. -/
theorem process_file_eq (fe : file_list_entry) (p : peer) (fd : Int) (s : Nat)
    (hfd : 0 ≤ fd) (hc : 0 < p.chunk_size) :
    process_file fe p fd s = some
      { fe with
        nc := ((s + p.chunk_size - 1) / p.chunk_size) % 2 ^ 32,
        nl := (1 <<< order2 ((s + p.chunk_size - 1) / p.chunk_size)) % 2 ^ 32,
        start_chunk := 0,
        end_chunk := (((s + p.chunk_size - 1) / p.chunk_size + 2 ^ 64 - 1) % 2 ^ 64) % 2 ^ 32 } := by
  have h := (ceil_div_cases s p.chunk_size hc).1
  simp only [process_file]
  rw [if_neg (by omega), if_neg (by omega), h]

/-- A call of `dump_handshake_have` that returns has stored
`nl = 1 << order2(nc)`. -/
theorem dump_handshake_have_nl (cs : Bool) (m : Buf) (resp_len : Int) (p p' : peer) (r : Int)
    (h : dump_handshake_have cs m resp_len p = some (p', r)) :
    p'.nl = (1 <<< order2 p'.nc) % 2 ^ 32 := by
  simp only [dump_handshake_have] at h
  cases hq : dump_handshake_request cs m resp_len p with
  | none => rw [hq] at h; simp at h
  | some q =>
    obtain ⟨q1, n⟩ := q
    rw [hq] at h
    simp only at h
    split_ifs at h with hv
    cases hch : q1.chunk with
    | none =>
      rw [hch] at h
      simp only [Option.some.injEq, Prod.mk.injEq] at h
      rw [← h.1]
    | some t =>
      rw [hch] at h
      simp at h

theorem strlen_from_spec (src : Buf) :
    ∀ (fuel i : Nat), (∃ n, i ≤ n ∧ n < i + fuel ∧ rd8 src n = 0) →
      ∃ n, strlen_from src fuel i = some n ∧ i ≤ n ∧ n < i + fuel ∧ rd8 src n = 0 ∧
        ∀ j, i ≤ j → j < n → rd8 src j ≠ 0 := by
  intro fuel
  induction fuel with
  | zero => rintro i ⟨n, h1, h2, _⟩; omega
  | succ f ih =>
    rintro i ⟨n, h1, h2, h3⟩
    by_cases hi : rd8 src i = 0
    · refine ⟨i, ?_, Nat.le_refl i, by omega, hi, fun j h4 h5 => by omega⟩
      simp only [strlen_from]
      rw [if_pos hi]
    · have hne : n ≠ i := fun e => hi (e ▸ h3)
      obtain ⟨k, e, k1, k2, k3, k4⟩ := ih (i + 1) ⟨n, by omega, by omega, h3⟩
      refine ⟨k, ?_, by omega, by omega, k3, ?_⟩
      · simp only [strlen_from]
        rw [if_neg hi, e]
      · intro j h4 h5
        by_cases hj : j = i
        · rw [hj]; exact hi
        · exact k4 j (by omega) h5

/-- The call `strcpy` on an array that holds a NUL: the string and its NUL are
copied and nothing after them is written. -/
theorem strcpy_spec (dst src : Buf) (size : Nat) (h : ∃ n, n < size ∧ rd8 src n = 0) :
    ∃ out n, strcpy dst src size = some out ∧ n < size ∧ rd8 src n = 0 ∧
      (∀ j, j < n → rd8 src j ≠ 0) ∧ (∀ j, j ≤ n → rd8 out j = rd8 src j) ∧
      (∀ j, n < j → out j = dst j) := by
  obtain ⟨n0, h1, h2⟩ := h
  obtain ⟨n, e, _, k2, k3, k4⟩ := strlen_from_spec src size 0 ⟨n0, Nat.zero_le _, by omega, h2⟩
  refine ⟨memcpy dst 0 src (n + 1), n, ?_, by omega, k3, fun j hj => k4 j (Nat.zero_le j) hj,
    ?_, ?_⟩
  · simp only [strcpy, strlen_in, e]
  · intro j hj
    simp only [rd8, memcpy]
    rw [if_pos ⟨Nat.zero_le j, by omega⟩, Nat.sub_zero, Nat.mod_mod]
  · intro j hj
    simp only [memcpy]
    rw [if_neg (by omega)]

/-- The FILE_NAME block of `dump_options` for a length octet `L` that
`char fname_len` holds (0..255 where `char` is unsigned, 0..127 where it is
signed): `fname_len` becomes `L`, the `L` name octets go to `fname[0..L)`,
nothing else changes, and the parse goes on at offset `2 + L` after the tag. -/
theorem dump_options_file_name_spec (cs : Bool) (m : Buf) (p : peer) (d : Nat)
    (htag : rd8 m d = FILE_NAME) (hc : cs = false ∨ rd8 m (d + 1) < 128) :
    dump_options_file_name cs m p d =
      dump_options_end m
        { p with fname_len := (rd8 m (d + 1) : Int),
                 fname := memcpy p.fname 0 (shift m (d + 1 + 1)) (rd8 m (d + 1)) }
        (d + 2 + rd8 m (d + 1)) ∧
    (rd8 m (d + 2 + rd8 m (d + 1)) = END_OPTION →
      ∃ p', dump_options_file_name cs m p d =
          some (p', ((d + 2 + rd8 m (d + 1) + 1 : Nat) : Int)) ∧
        p'.fname_len = (rd8 m (d + 1) : Int) ∧
        (∀ i, i < rd8 m (d + 1) → rd8 p'.fname i = rd8 m (d + 2 + i)) ∧
        (∀ i, rd8 m (d + 1) ≤ i → p'.fname i = p.fname i) ∧
        p'.chunk_size = p.chunk_size ∧ p'.file_size = p.file_size ∧
        p'.start_chunk = p.start_chunk ∧ p'.end_chunk = p.end_chunk ∧ p'.nc = p.nc ∧
        p'.nl = p.nl ∧ p'.chunk = p.chunk) := by
  have hlen : toChar cs (rd8 m (d + 1)) = (rd8 m (d + 1) : Int) := by
    have := toChar_small cs (rd8 m (d + 1)) (rd8_lt m (d + 1)) hc
    rw [rd8_mod] at this
    exact this
  have hrun : dump_options_file_name cs m p d =
      dump_options_end m
        { p with fname_len := (rd8 m (d + 1) : Int),
                 fname := memcpy p.fname 0 (shift m (d + 1 + 1)) (rd8 m (d + 1)) }
        (d + 2 + rd8 m (d + 1)) := by
    simp only [dump_options_file_name]
    rw [if_pos htag, hlen, if_neg (by omega)]
    simp only [Int.toNat_ofNat]
  refine ⟨hrun, ?_⟩
  intro hend
  refine ⟨{ p with fname_len := (rd8 m (d + 1) : Int),
                   fname := memcpy p.fname 0 (shift m (d + 1 + 1)) (rd8 m (d + 1)) },
    ?_, rfl, ?_, ?_, rfl, rfl, rfl, rfl, rfl, rfl, rfl⟩
  · rw [hrun]
    simp only [dump_options_end]
    rw [if_pos hend]
  · intro i hi
    simp only [rd8, memcpy, shift] at hi ⊢
    rw [if_pos ⟨Nat.zero_le i, by omega⟩]
    have e : d + 1 + 1 + (i - 0) = d + 2 + i := by omega
    rw [e, Nat.mod_mod]
  · intro i hi
    simp only [memcpy]
    rw [if_neg (by omega)]

theorem range_kept_refl (p : peer) : range_kept p p := ⟨rfl, rfl, rfl, rfl, rfl, rfl⟩

theorem range_kept_trans (p q r : peer) (h1 : range_kept p q) (h2 : range_kept q r) :
    range_kept p r :=
  ⟨h2.1.trans h1.1, h2.2.1.trans h1.2.1, h2.2.2.1.trans h1.2.2.1,
    h2.2.2.2.1.trans h1.2.2.2.1, h2.2.2.2.2.1.trans h1.2.2.2.2.1,
    h2.2.2.2.2.2.trans h1.2.2.2.2.2⟩

theorem dump_options_end_run_kept (m : Buf) (p : peer) (d : Nat) :
    range_kept p (dump_options_end_run m p d).peer_at_end := by
  simp only [dump_options_end_run]
  split_ifs <;> exact range_kept_refl p

theorem dump_options_file_name_run_kept (cs : Bool) (m : Buf) (p : peer) (d : Nat) :
    range_kept p (dump_options_file_name_run cs m p d).peer_at_end := by
  simp only [dump_options_file_name_run]
  split_ifs
  · exact ⟨rfl, rfl, rfl, rfl, rfl, rfl⟩
  · exact range_kept_trans _ _ _ ⟨rfl, rfl, rfl, rfl, rfl, rfl⟩ (dump_options_end_run_kept _ _ _)
  · exact dump_options_end_run_kept _ _ _

theorem dump_options_file_size_run_kept (cs : Bool) (m : Buf) (p : peer) (d : Nat) :
    range_kept p (dump_options_file_size_run cs m p d).peer_at_end := by
  simp only [dump_options_file_size_run]
  split_ifs
  · exact range_kept_trans _ _ _ ⟨rfl, rfl, rfl, rfl, rfl, rfl⟩
      (dump_options_file_name_run_kept _ _ _ _)
  · exact dump_options_file_name_run_kept _ _ _ _
  · exact dump_options_file_name_run_kept _ _ _ _

theorem dump_options_chunk_size_run_kept (cs : Bool) (m : Buf) (p : peer) (d : Nat) :
    range_kept p (dump_options_chunk_size_run cs m p d).peer_at_end := by
  simp only [dump_options_chunk_size_run]
  split_ifs
  · exact range_kept_trans _ _ _ ⟨rfl, rfl, rfl, rfl, rfl, rfl⟩
      (dump_options_file_size_run_kept _ _ _ _)
  · exact dump_options_file_size_run_kept _ _ _ _
  · exact dump_options_file_size_run_kept _ _ _ _

theorem dump_options_supported_msgs_run_kept (cs : Bool) (m : Buf) (p : peer) (d : Nat) :
    range_kept p (dump_options_supported_msgs_run cs m p d).peer_at_end := by
  simp only [dump_options_supported_msgs_run]
  split_ifs <;> exact dump_options_chunk_size_run_kept _ _ _ _

theorem dump_options_live_disc_wind_run_kept (cs : Bool) (m : Buf) (p : peer) (cam d : Nat) :
    range_kept p (dump_options_live_disc_wind_run cs m p cam d).peer_at_end := by
  simp only [dump_options_live_disc_wind_run]
  split_ifs <;> exact dump_options_supported_msgs_run_kept _ _ _ _

theorem dump_options_chunk_addr_method_run_kept (cs : Bool) (m : Buf) (p : peer) (d : Nat) :
    range_kept p (dump_options_chunk_addr_method_run cs m p d).peer_at_end := by
  simp only [dump_options_chunk_addr_method_run]
  split_ifs <;> exact dump_options_live_disc_wind_run_kept _ _ _ _ _

theorem dump_options_live_signature_alg_run_kept (cs : Bool) (m : Buf) (p : peer) (d : Nat) :
    range_kept p (dump_options_live_signature_alg_run cs m p d).peer_at_end := by
  simp only [dump_options_live_signature_alg_run]
  split_ifs <;> exact dump_options_chunk_addr_method_run_kept _ _ _ _

theorem dump_options_merkle_hash_func_run_kept (cs : Bool) (m : Buf) (p : peer) (d : Nat) :
    range_kept p (dump_options_merkle_hash_func_run cs m p d).peer_at_end := by
  simp only [dump_options_merkle_hash_func_run]
  split_ifs <;> exact dump_options_live_signature_alg_run_kept _ _ _ _

theorem dump_options_content_prot_method_run_kept (cs : Bool) (m : Buf) (p : peer) (d : Nat) :
    range_kept p (dump_options_content_prot_method_run cs m p d).peer_at_end := by
  simp only [dump_options_content_prot_method_run]
  split_ifs <;> exact dump_options_merkle_hash_func_run_kept _ _ _ _

theorem dump_options_swarm_id_run_kept (cs : Bool) (m : Buf) (p : peer) (d : Nat) :
    range_kept p (dump_options_swarm_id_run cs m p d).peer_at_end := by
  simp only [dump_options_swarm_id_run]
  split_ifs <;> exact dump_options_content_prot_method_run_kept _ _ _ _

theorem dump_options_minimum_version_run_kept (cs : Bool) (m : Buf) (p : peer) (d : Nat) :
    range_kept p (dump_options_minimum_version_run cs m p d).peer_at_end := by
  simp only [dump_options_minimum_version_run]
  split_ifs <;> exact dump_options_swarm_id_run_kept _ _ _ _

/-- The option parser leaves the range, the counts, the chunk table and the
role of the peer as they were, however it ends. -/
theorem dump_options_run_kept (cs : Bool) (m : Buf) (p : peer) :
    range_kept p (dump_options_run cs m p).peer_at_end := by
  simp only [dump_options_run]
  split_ifs
  · exact range_kept_refl p
  · exact dump_options_minimum_version_run_kept _ _ _ _
  · exact dump_options_minimum_version_run_kept _ _ _ _

theorem dump_handshake_request_run_kept (cs : Bool) (m : Buf) (req_len : Int) (p : peer) :
    range_kept p (dump_handshake_request_run cs m req_len p).peer_at_end := by
  simp only [dump_handshake_request_run]
  split_ifs
  · have h := dump_options_run_kept cs (shift m (0 + 4 + 1 + 4)) p
    cases hq : dump_options_run cs (shift m (0 + 4 + 1 + 4)) p with
    | returned q r => rw [hq] at h; exact h
    | aborted q => rw [hq] at h; exact h
  · exact range_kept_refl p

theorem make_handshake_finish_bytes (ptr : Buf) (p : peer) :
    bytes (make_handshake_finish ptr p).1 10 =
      be32 0xfeed1234 ++ [HANDSHAKE] ++ be32 0 ++ [END_OPTION] := by
  have s0 : bytes ptr 0 = [] := rfl
  have s := app_wr8 _ _ END_OPTION _ (app_wr32be _ _ 0 _ (app_wr8 _ _ HANDSHAKE _
    (app_wr32be _ _ 0xfeed1234 _ s0)))
  simpa [make_handshake_finish, HANDSHAKE, END_OPTION] using s

/-- The option parser and the header parse before it leave `peer.chunk` as it
was. -/
theorem dump_handshake_request_chunk (cs : Bool) (m : Buf) (req_len : Int) (p q : peer)
    (n : Int) (h : dump_handshake_request cs m req_len p = some (q, n)) :
    q.chunk = p.chunk := by
  simp only [dump_handshake_request] at h
  split_ifs at h
  cases ho : dump_options cs (shift m (0 + 4 + 1 + 4)) p with
  | none => rw [ho] at h; simp at h
  | some r =>
    obtain ⟨q1, k⟩ := r
    rw [ho] at h
    simp only [Option.some.injEq, Prod.mk.injEq] at h
    rw [← h.1]
    exact dump_options_chunk _ _ _ _ _ ho

/-- The loop of `make_integrity` for `end_chunk < 2 ^ 32 - 1`: it tests its
condition `end_chunk + 1 - x` times with success and once without, and each
iteration moves the cursor by 20. -/
theorem make_integrity_loop_iter (we : peer) (b : Nat) (hb : b < 2 ^ 32 - 1) :
    ∀ (fuel : Nat) (m : Buf) (d x : Nat),
      (b + 1 - x + 1 ≤ fuel →
        ∃ m', make_integrity_loop we b fuel m d x = some (m', d + 20 * (b + 1 - x))) ∧
      (fuel ≤ b + 1 - x → make_integrity_loop we b fuel m d x = none) := by
  intro fuel
  induction fuel with
  | zero =>
    intro m d x
    exact ⟨fun h => by omega, fun _ => rfl⟩
  | succ f ih =>
    intro m d x
    by_cases hx : x ≤ b
    · have hx1 : (x + 1) % 2 ^ 32 = x + 1 := Nat.mod_eq_of_lt (by omega)
      obtain ⟨i1, i2⟩ := ih (memcpy m d (ofList (we.tree ((2 * x) % 2 ^ 32)).sha) 20) (d + 20)
        (x + 1)
      constructor
      · intro hf
        obtain ⟨m', e⟩ := i1 (by omega)
        refine ⟨m', ?_⟩
        simp only [make_integrity_loop]
        rw [if_pos hx, hx1, e]
        congr 2
        omega
      · intro hf
        simp only [make_integrity_loop]
        rw [if_pos hx, hx1]
        exact i2 (by omega)
    · constructor
      · intro _
        refine ⟨m, ?_⟩
        simp only [make_integrity_loop]
        rw [if_neg hx]
        congr 2
        omega
      · intro hf
        omega

/-- The loop of `dump_integrity` for `end_chunk < 2 ^ 32 - 1` and a peer with
a chunk table that has an entry for every chunk of the range. -/
theorem dump_integrity_loop_iter (m : Buf) (a b : Nat) (hb : b < 2 ^ 32 - 1) :
    ∀ (fuel : Nat) (p : peer) (d x : Nat), (∃ tab, p.chunk = some tab) →
      (b < p.nl ∨ b < x) →
      (b + 1 - x + 1 ≤ fuel →
        ∃ p', dump_integrity_loop m a b fuel p d x = some (p', d + 20 * (b + 1 - x))) ∧
      (fuel ≤ b + 1 - x → dump_integrity_loop m a b fuel p d x = none) := by
  intro fuel
  induction fuel with
  | zero =>
    intro p d x _ _
    exact ⟨fun h => by omega, fun _ => rfl⟩
  | succ f ih =>
    intro p d x htab hnl
    obtain ⟨tab, htab⟩ := htab
    by_cases hx : x ≤ b
    · have hx1 : (x + 1) % 2 ^ 32 = x + 1 := Nat.mod_eq_of_lt (by omega)
      have e20 : d + 20 * (b + 1 - x) = d + 20 + 20 * (b + 1 - (x + 1)) := by omega
      have hxnl : x < p.nl := by omega
      have hnl' : b < p.nl := by omega
      constructor
      · intro hf
        simp only [dump_integrity_loop]
        rw [if_pos hx]
        simp only [htab, hx1]
        rw [if_pos hxnl, e20]
        refine (ih _ _ _ ⟨_, rfl⟩ ?_).1 (by omega)
        exact Or.inl hnl'
      · intro hf
        simp only [dump_integrity_loop]
        rw [if_pos hx]
        simp only [htab, hx1]
        rw [if_pos hxnl]
        refine (ih _ _ _ ⟨_, rfl⟩ ?_).2 (by omega)
        exact Or.inl hnl'
    · constructor
      · intro _
        refine ⟨p, ?_⟩
        simp only [dump_integrity_loop]
        rw [if_neg hx]
        congr 2
        omega
      · intro hf
        omega

/-- With `end_chunk = 2 ^ 32 - 1` the condition `x <= end_chunk` holds for
every `uint32_t`: no amount of fuel ends the loop of `make_integrity`. -/
theorem make_integrity_loop_never (we : peer) :
    ∀ (fuel : Nat) (m : Buf) (d x : Nat), x < 2 ^ 32 →
      make_integrity_loop we (2 ^ 32 - 1) fuel m d x = none := by
  intro fuel
  induction fuel with
  | zero => intro m d x _; rfl
  | succ f ih =>
    intro m d x hx
    simp only [make_integrity_loop]
    rw [if_pos (by omega)]
    exact ih _ _ _ (Nat.mod_lt _ (by norm_num))

/-- The same for the loop of `dump_integrity`, which in addition leaves the
table when the counter reaches `nl`. -/
theorem dump_integrity_loop_never (m : Buf) (a : Nat) :
    ∀ (fuel : Nat) (p : peer) (d x : Nat), x < 2 ^ 32 →
      dump_integrity_loop m a (2 ^ 32 - 1) fuel p d x = none := by
  intro fuel
  induction fuel with
  | zero => intro p d x _; rfl
  | succ f ih =>
    intro p d x hx
    simp only [dump_integrity_loop]
    rw [if_pos (by omega)]
    cases hch : p.chunk with
    | none => rfl
    | some tab =>
      by_cases hnl : x < p.nl
      · simp only [if_pos hnl]
        exact ih _ _ _ (Nat.mod_lt _ (by norm_num))
      · simp only [if_neg hnl]

/-- A range that is not empty and ends at `nl` or above takes the loop of
`dump_integrity` out of the chunk table: no amount of fuel gives a result. -/
theorem dump_integrity_loop_outside (m : Buf) (a b : Nat) (hb : b < 2 ^ 32) :
    ∀ (fuel : Nat) (p : peer) (d x : Nat), x ≤ b → p.nl ≤ b →
      dump_integrity_loop m a b fuel p d x = none := by
  intro fuel
  induction fuel with
  | zero => intro p d x _ _; rfl
  | succ f ih =>
    intro p d x hx hnl
    simp only [dump_integrity_loop]
    rw [if_pos hx]
    cases hch : p.chunk with
    | none => rfl
    | some tab =>
      by_cases hxnl : x < p.nl
      · have hx1 : (x + 1) % 2 ^ 32 = x + 1 := Nat.mod_eq_of_lt (by omega)
        simp only [if_pos hxnl, hx1]
        exact ih _ _ _ (by omega) hnl
      · simp only [if_neg hxnl]

/-- The result of `make_integrity` is the one of its twin that keeps the
buffer. -/
theorem make_integrity_loop_run_result (we : peer) (b : Nat) :
    ∀ (fuel : Nat) (m : Buf) (d x : Nat),
      (make_integrity_loop_run we b fuel m d x).result =
        (make_integrity_loop we b fuel m d x).map (fun r => (r.1, toInt32 r.2)) := by
  intro fuel
  induction fuel with
  | zero => intro m d x; rfl
  | succ f ih =>
    intro m d x
    simp only [make_integrity_loop_run, make_integrity_loop]
    by_cases hx : x ≤ b
    · rw [if_pos hx, if_pos hx]
      exact ih _ _ _
    · rw [if_neg hx, if_neg hx]
      rfl

theorem make_integrity_run_result (fuel : Nat) (ptr : Buf) (p we : peer) :
    (make_integrity_run fuel ptr p we).result = make_integrity fuel ptr p we := by
  simp only [make_integrity_run, make_integrity]
  rw [make_integrity_loop_run_result]
  cases make_integrity_loop we p.end_chunk fuel
    (wr32be (wr32be (wr8 (wr32be ptr 0 p.dest_chan_id) (0 + 4) INTEGRITY) (0 + 4 + 1)
      p.start_chunk) (0 + 4 + 1 + 4) p.end_chunk) (0 + 4 + 1 + 4 + 4) p.start_chunk <;> rfl

/-- The loop of `make_integrity` writes at its cursor and after it only, at
every point of its run. -/
theorem make_integrity_loop_run_frame (we : peer) (b : Nat) :
    ∀ (fuel : Nat) (m : Buf) (d x : Nat) (j : Nat), j < d →
      (make_integrity_loop_run we b fuel m d x).buffer j = m j := by
  intro fuel
  induction fuel with
  | zero => intro m d x j _; rfl
  | succ f ih =>
    intro m d x j hj
    simp only [make_integrity_loop_run]
    by_cases hx : x ≤ b
    · rw [if_pos hx, ih _ _ _ j (by omega), memcpy_frame _ _ _ _ _ (by omega)]
    · rw [if_neg hx]
      rfl

/-- The run loop of `create_download_schedule` is the one of the `sbs`
scheduler when the requested end chunk bounds nothing below `nc`. -/
theorem extend_run_nc_eq (tab : Nat → chunk) (nc e hpm : Nat) (he : nc ≤ e + 1) :
    ∀ (fuel y o : Nat), extend_run_nc tab nc hpm fuel y o = extend_run tab nc e hpm fuel y o := by
  intro fuel
  induction fuel with
  | zero => intro y o; rfl
  | succ f ih =>
    intro y o
    by_cases hc : y < hpm ∧ o < nc
    · have hc' : y < hpm ∧ o < nc ∧ o ≤ e := ⟨hc.1, hc.2, by omega⟩
      simp only [extend_run_nc, extend_run]
      rw [if_pos hc, if_pos hc', ih]
    · have hc' : ¬ (y < hpm ∧ o < nc ∧ o ≤ e) := fun h => hc ⟨h.1, h.2.1⟩
      simp only [extend_run_nc, extend_run]
      rw [if_neg hc, if_neg hc']

/-- With `hashes_per_mtu ≥ 1`, at most `o` entries written so far and a table
with an entry `chunk[nc]` (`nc < nl`), the outer loop of
`create_download_schedule` never fails an assertion and does what the outer
loop of `create_download_schedule_sbs` does for a requested end chunk of
`nc - 1` or more. -/
theorem create_download_schedule_loop_eq (inner e : Nat) (tab : Nat → chunk) :
    ∀ (fuel : Nat) (p : peer) (o last : Nat), p.chunk = some tab → 1 ≤ p.hashes_per_mtu →
      p.download_schedule_len ≤ o → o ≤ p.nc → p.nc ≤ e + 1 → p.nc + 1 ≤ inner →
      p.nc < p.nl →
      create_download_schedule_loop inner fuel p o =
        (schedule_loop inner e fuel p o last).map (fun r => sched_outcome.done r.1) := by
  intro fuel
  induction fuel with
  | zero => intro p o last _ _ _ _ _ _ _; rfl
  | succ f ih =>
    intro p o last htab hhpm hlen ho he hin hnl
    by_cases hc : o < p.nc
    · have hc' : o < p.nc ∧ o ≤ e := ⟨hc, by omega⟩
      obtain ⟨o1, e1, a1, a2, a3, a4⟩ :=
        skip_downloaded_spec tab p.nc inner o ho (by omega)
      by_cases hbrk : o1 ≥ p.nc
      · simp only [create_download_schedule_loop, schedule_loop]
        rw [if_pos hc, if_pos hc']
        simp only [htab, e1]
        rw [if_pos hbrk, if_pos hbrk]
        rfl
      · have ho1 : o1 < p.nc := by omega
        obtain ⟨o2, e2, b1, b2, _, _, b5⟩ :=
          extend_run_spec tab p.nc e p.hashes_per_mtu inner 0 o1 a2 (by omega) (Nat.zero_le _)
        have ho2 : o1 + 1 ≤ o2 := b5 (by omega) ho1 (by omega) (a4 ho1)
        have e2' : extend_run_nc tab p.nc p.hashes_per_mtu inner 0 o1 = some o2 := by
          rw [extend_run_nc_eq tab p.nc e p.hashes_per_mtu he]; exact e2
        have hassert : (tab o2).downloaded = chunk_downloaded.CH_NO ∨
            (tab o2).downloaded = chunk_downloaded.CH_YES :=
          (downloaded_cases (tab o2)).symm
        have hstep := ih
          { p with
            download_schedule := Function.update p.download_schedule p.download_schedule_len
              { begin := o1, end_ := (o2 + 2 ^ 64 - 1) % 2 ^ 64 },
            download_schedule_len := p.download_schedule_len + 1 }
          o2 (((o2 + 2 ^ 64 - 1) % 2 ^ 64) % 2 ^ 32) htab hhpm
          (show p.download_schedule_len + 1 ≤ o2 from by omega) b2 he hin hnl
        have lhs : create_download_schedule_loop inner (f + 1) p o =
            create_download_schedule_loop inner f
              { p with
                download_schedule := Function.update p.download_schedule p.download_schedule_len
                  { begin := o1, end_ := (o2 + 2 ^ 64 - 1) % 2 ^ 64 },
                download_schedule_len := p.download_schedule_len + 1 } o2 := by
          simp only [create_download_schedule_loop]
          rw [if_pos hc]
          simp only [htab, e1]
          rw [if_neg hbrk]
          simp only [e2']
          rw [if_neg (show ¬ p.nl ≤ o2 from by omega), if_pos hassert,
            if_pos (show p.download_schedule_len + 1 ≤ p.nc from by omega)]
        have rhs : schedule_loop inner e (f + 1) p o last =
            schedule_loop inner e f
              { p with
                download_schedule := Function.update p.download_schedule p.download_schedule_len
                  { begin := o1, end_ := (o2 + 2 ^ 64 - 1) % 2 ^ 64 },
                download_schedule_len := p.download_schedule_len + 1 } o2
              (((o2 + 2 ^ 64 - 1) % 2 ^ 64) % 2 ^ 32) := by
          simp only [schedule_loop]
          rw [if_pos hc']
          simp only [htab, e1]
          rw [if_neg hbrk]
          simp only [e2]
        rw [lhs, rhs]
        exact hstep
    · simp only [create_download_schedule_loop, schedule_loop]
      rw [if_neg hc, if_neg (fun h => hc h.1)]
      rfl

/-- The outer loop of `create_download_schedule` for `hashes_per_mtu ≥ 1`: it
returns, or it stops in its first assertion at a cursor `o2 ≥ nl` outside the
table, which the run loop reached over chunks that are not downloaded; no
test of an assertion fails.  Either way the schedule has at most `nc` entries
and has gained none exactly when every chunk from the cursor on is
downloaded. -/
theorem create_download_schedule_loop_spec (inner : Nat) (tab : Nat → chunk) :
    ∀ (fuel : Nat) (p : peer) (o : Nat), p.chunk = some tab → 1 ≤ p.hashes_per_mtu →
      p.download_schedule_len ≤ o → o ≤ p.nc → p.nc + 1 ≤ inner → p.nc + 1 ≤ fuel + o →
      1 ≤ fuel →
      ∃ (sched : Nat → schedule_entry) (len : Nat),
        (create_download_schedule_loop inner fuel p o = some (sched_outcome.done
            { p with download_schedule := sched, download_schedule_len := len }) ∨
          (create_download_schedule_loop inner fuel p o = some (sched_outcome.read_outside
              { p with download_schedule := sched, download_schedule_len := len }) ∧
            ∃ o2, o < o2 ∧ p.nl ≤ o2 ∧ o2 ≤ p.nc ∧
              (tab (o2 - 1)).downloaded = chunk_downloaded.CH_NO)) ∧
        p.download_schedule_len ≤ len ∧ len ≤ p.nc ∧
        (len = p.download_schedule_len ↔
          ∀ i, o ≤ i → i < p.nc → (tab i).downloaded = chunk_downloaded.CH_YES) := by
  intro fuel
  induction fuel with
  | zero => intro p o _ _ _ _ _ _ h; omega
  | succ f ih =>
    intro p o htab hhpm hlen ho hin hfuel _
    by_cases hc : o < p.nc
    · obtain ⟨o1, e1, a1, a2, a3, a4⟩ :=
        skip_downloaded_spec tab p.nc inner o ho (by omega)
      by_cases hbrk : o1 ≥ p.nc
      · refine ⟨p.download_schedule, p.download_schedule_len, Or.inl ?_, Nat.le_refl _,
          by omega, ⟨fun _ i h1 h2 => a3 i h1 (by omega), fun _ => rfl⟩⟩
        simp only [create_download_schedule_loop]
        rw [if_pos hc]
        simp only [htab, e1]
        rw [if_pos hbrk, ← htab]
      · have ho1 : o1 < p.nc := by omega
        obtain ⟨o2, e2, b1, b2, _, b4, b5⟩ :=
          extend_run_spec tab p.nc p.nc p.hashes_per_mtu inner 0 o1 a2 (by omega)
            (Nat.zero_le _)
        have ho2 : o1 + 1 ≤ o2 := b5 (by omega) ho1 (by omega) (a4 ho1)
        have e2' : extend_run_nc tab p.nc p.hashes_per_mtu inner 0 o1 = some o2 := by
          rw [extend_run_nc_eq tab p.nc p.nc p.hashes_per_mtu (by omega)]; exact e2
        have hassert : (tab o2).downloaded = chunk_downloaded.CH_NO ∨
            (tab o2).downloaded = chunk_downloaded.CH_YES :=
          (downloaded_cases (tab o2)).symm
        by_cases hout : p.nl ≤ o2
        · refine ⟨Function.update p.download_schedule p.download_schedule_len
              { begin := o1, end_ := (o2 + 2 ^ 64 - 1) % 2 ^ 64 },
            p.download_schedule_len + 1, Or.inr ⟨?_, o2, by omega, hout, b2,
              (b4 (o2 - 1) (by omega) (by omega)).2⟩, by omega, by omega,
            ⟨fun h => by omega, fun h => ?_⟩⟩
          · simp only [create_download_schedule_loop]
            rw [if_pos hc]
            simp only [htab, e1]
            rw [if_neg hbrk]
            simp only [e2']
            rw [if_pos hout, ← htab]
          · exact absurd (a4 ho1) (yes_ne_no _ (h o1 a1 ho1))
        · obtain ⟨sched, len, hres, c1, c2, _⟩ := ih
            { p with
              download_schedule := Function.update p.download_schedule p.download_schedule_len
                { begin := o1, end_ := (o2 + 2 ^ 64 - 1) % 2 ^ 64 },
              download_schedule_len := p.download_schedule_len + 1 }
            o2 htab hhpm (show p.download_schedule_len + 1 ≤ o2 from by omega) b2 hin
            (show p.nc + 1 ≤ f + o2 from by omega) (by omega)
          simp only at c1 c2 hres
          have hstep : create_download_schedule_loop inner (f + 1) p o =
              create_download_schedule_loop inner f
                { p with
                  download_schedule := Function.update p.download_schedule
                    p.download_schedule_len
                    { begin := o1, end_ := (o2 + 2 ^ 64 - 1) % 2 ^ 64 },
                  download_schedule_len := p.download_schedule_len + 1 } o2 := by
            simp only [create_download_schedule_loop]
            rw [if_pos hc]
            simp only [htab, e1]
            rw [if_neg hbrk]
            simp only [e2']
            rw [if_neg hout, if_pos hassert,
              if_pos (show p.download_schedule_len + 1 ≤ p.nc from by omega), ← htab]
          refine ⟨sched, len, ?_, by omega, c2, ⟨fun h => by omega, fun h => ?_⟩⟩
          · rcases hres with e3 | ⟨e3, o3, h1, h2, h3, h4⟩
            · left
              rw [hstep]
              exact e3
            · right
              refine ⟨?_, o3, by omega, h2, h3, h4⟩
              rw [hstep]
              exact e3
          · exact absurd (a4 ho1) (yes_ne_no _ (h o1 a1 ho1))
    · refine ⟨p.download_schedule, p.download_schedule_len, Or.inl ?_, Nat.le_refl _, by omega,
        ⟨fun _ i h1 h2 => by omega, fun _ => rfl⟩⟩
      simp only [create_download_schedule_loop]
      rw [if_neg hc]

/-- The call `dump_integrity` on a message whose range `a ≤ b` lies inside the
chunk table: the result and the table it leaves. -/
theorem dump_integrity_returns (fuel : Nat) (m : Buf) (req_len : Int) (p : peer)
    (tab : Nat → chunk) (a b : Nat) (hk : rd8 m 4 = INTEGRITY) (ha : rd32be m 5 = a)
    (hb : rd32be m 9 = b) (hab : a ≤ b) (hnl : b < p.nl) (hb32 : b < 2 ^ 32 - 1)
    (htab : p.chunk = some tab) (hfuel : b - a + 2 ≤ fuel) :
    ∃ tab', dump_integrity fuel m req_len p =
        some ({ p with chunk := some tab' }, toInt32 (13 + 20 * (b - a + 1))) ∧
      (∀ i, a ≤ i → i ≤ b → tab' i =
        { offset := ((i - a) * p.chunk_size) % 2 ^ 32, len := p.chunk_size,
          sha := bytes (shift m (13 + 20 * (i - a))) 20, state := chunk_state.CH_ACTIVE,
          downloaded := (tab i).downloaded }) ∧
      ∀ i, (i < a ∨ b < i) → tab' i = tab i := by
  obtain ⟨tab', e, hin, hout⟩ := dump_integrity_loop_spec m a b hb32 (b - a + 1) fuel p 13 a
    tab htab hnl (by omega) (by omega) (Nat.le_refl a)
  refine ⟨tab', ?_, hin, hout⟩
  simp only [dump_integrity, Nat.zero_add, hk, if_true, ha, hb]
  rw [e]

theorem rd32be_lt (m : Buf) (i : Nat) : rd32be m i < 2 ^ 32 := by
  have h0 := rd8_lt m i
  have h1 := rd8_lt m (i + 1)
  have h2 := rd8_lt m (i + 2)
  have h3 := rd8_lt m (i + 3)
  simp only [rd32be]
  omega

/-- The call `dump_integrity` on a message whose range `a ≤ b` reaches `nl` or
beyond: an iteration stores outside the chunk table, no amount of fuel gives
a result. -/
theorem dump_integrity_outside (fuel : Nat) (m : Buf) (req_len : Int) (p : peer)
    (hab : rd32be m 5 ≤ rd32be m 9) (hnl : p.nl ≤ rd32be m 9) :
    dump_integrity fuel m req_len p = none := by
  simp only [dump_integrity, Nat.zero_add]
  by_cases hk : rd8 m 4 = INTEGRITY
  · rw [if_pos hk, dump_integrity_loop_outside m _ _ (rd32be_lt m 9) fuel p 13 _ hab hnl]
  · rw [if_neg hk]

/-- With a table that has an entry `chunk[nc]`, `create_download_schedule` run
with `hashes_per_mtu = 256` and `create_download_schedule_sbs(p, 0, e)` for a
requested end chunk `e` of `nc - 1` or more both return, given fuel for
`nc + 1` iterations, and leave the same peer record. -/
theorem create_download_schedule_sbs_agree (fuel : Nat) (p : peer) (tab : Nat → chunk) (e : Nat)
    (htab : p.chunk = some tab) (hnc : p.nc < 2 ^ 32) (he : p.nc ≤ e + 1) (hnl : p.nc < p.nl)
    (hfuel : p.nc + 1 ≤ fuel) :
    ∃ q ret, create_download_schedule fuel { p with hashes_per_mtu := 256 } =
        some (sched_outcome.done q) ∧
      create_download_schedule_sbs fuel p 0 e = some (q, ret) := by
  obtain ⟨sched, len, o', last', e1, _⟩ :=
    schedule_loop_spec fuel e tab fuel
      { p with download_schedule_len := 0, hashes_per_mtu := 256 } 0 0
      htab rfl hnc hfuel (by omega) (show p.nc + 1 ≤ fuel + 0 from by omega)
  have heq := create_download_schedule_loop_eq fuel e tab fuel
    { p with download_schedule_len := 0, hashes_per_mtu := 256 } 0 0 htab
    (show 1 ≤ 256 from by decide) (Nat.le_refl 0) (Nat.zero_le _) he hfuel hnl
  rw [e1] at heq
  simp only [Option.map_some'] at heq
  refine ⟨{ p with download_schedule := sched, download_schedule_len := len,
                   hashes_per_mtu := 256 },
    toInt32 (((last' + 2 ^ 32 - 0 + 1) % 2 ^ 32 * p.chunk_size) % 2 ^ 32), ?_, ?_⟩
  · simp only [create_download_schedule]
    exact heq
  · simp only [create_download_schedule_sbs]
    rw [if_neg (by omega), e1]

/-! ### Claims -/

/-- C1: on every buffer whose kind octet (offset 4) is HANDSHAKE,
`handshake_type` returns, whatever the initial content of `ret`:
HANDSHAKE_INIT exactly when dest = 0 and src ≠ 0, HANDSHAKE_FINISH exactly
when dest ≠ 0 and src = 0, and HANDSHAKE_ERROR in the two remaining cases,
where dest and src are the big-endian values of octets 0..3 and 5..8. -/
theorem handshake_type_classifies (m : Buf) (ret0 : Nat) (hk : rd8 m 4 = HANDSHAKE) :
    ∃ r, handshake_type m ret0 = some r ∧
      (r = HANDSHAKE_INIT ↔ (rd32be m 0 = 0 ∧ rd32be m 5 ≠ 0)) ∧
      (r = HANDSHAKE_FINISH ↔ (rd32be m 0 ≠ 0 ∧ rd32be m 5 = 0)) ∧
      (r = HANDSHAKE_ERROR ↔
        ¬ (rd32be m 0 = 0 ∧ rd32be m 5 ≠ 0) ∧ ¬ (rd32be m 0 ≠ 0 ∧ rd32be m 5 = 0)) := by
  simp only [handshake_type, hk, if_true]
  by_cases hd : rd32be m 0 = 0 <;> by_cases hs : rd32be m 5 = 0 <;>
    simp [hd, hs, HANDSHAKE_INIT, HANDSHAKE_FINISH, HANDSHAKE_ERROR]

/-- Witness for C1: the nine octets `00 00 00 00 | 00 | 00 00 00 07` (dest = 0,
src = 7) form an opening handshake. -/
theorem handshake_type_classifies_witness :
    rd8 (ofList [0, 0, 0, 0, 0, 0, 0, 0, 7]) 4 = HANDSHAKE ∧
    ∃ r, handshake_type (ofList [0, 0, 0, 0, 0, 0, 0, 0, 7]) 99 = some r ∧
      (r = HANDSHAKE_INIT ↔ (rd32be (ofList [0, 0, 0, 0, 0, 0, 0, 0, 7]) 0 = 0 ∧
        rd32be (ofList [0, 0, 0, 0, 0, 0, 0, 0, 7]) 5 ≠ 0)) ∧
      (r = HANDSHAKE_FINISH ↔ (rd32be (ofList [0, 0, 0, 0, 0, 0, 0, 0, 7]) 0 ≠ 0 ∧
        rd32be (ofList [0, 0, 0, 0, 0, 0, 0, 0, 7]) 5 = 0)) ∧
      (r = HANDSHAKE_ERROR ↔
        ¬ (rd32be (ofList [0, 0, 0, 0, 0, 0, 0, 0, 7]) 0 = 0 ∧
            rd32be (ofList [0, 0, 0, 0, 0, 0, 0, 0, 7]) 5 ≠ 0) ∧
        ¬ (rd32be (ofList [0, 0, 0, 0, 0, 0, 0, 0, 7]) 0 ≠ 0 ∧
            rd32be (ofList [0, 0, 0, 0, 0, 0, 0, 0, 7]) 5 = 0)) :=
  ⟨by decide, handshake_type_classifies _ 99 (by decide)⟩

/-- C2, counterexample: with the eight required options and chunk addressing
method 5 the encoder emits 8 octets of LIVE_DISC_WIND that the parser does not
skip, and `dump_options` aborts on the encoder output, whatever the signedness
of `char`; and where `char` is signed, a file name of 200 octets gives
`fname_len` a negative value and the parse does not complete either. -/
theorem options_round_trip_counterexample :
    required_bits options_method5.opt_map ∧ options_method5.wf ∧
    options_method5.chunk_addr_method ≤ 255 ∧
    dump_options true (make_handshake_options true (fun _ => 0) options_method5).1
      fresh_leecher = none ∧
    dump_options false (make_handshake_options true (fun _ => 0) options_method5).1
      fresh_leecher = none ∧
    required_bits options_long_name.opt_map ∧ options_long_name.wf ∧
    options_long_name.file_name_len ≤ 255 ∧
    dump_options true (make_handshake_options true (fun _ => 0) options_long_name).1
      fresh_leecher = none := by
  refine ⟨?_, ?_, ?_, ?_, ?_, ?_, ?_, ?_, ?_⟩
  · exact ⟨rfl, rfl, rfl, rfl, rfl, rfl, rfl, rfl⟩
  · exact ⟨by decide, by decide, by decide, by decide⟩
  · decide
  · rfl
  · rfl
  · exact ⟨rfl, rfl, rfl, rfl, rfl, rfl, rfl, rfl⟩
  · exact ⟨by decide, by decide, by decide, by decide⟩
  · decide
  · rfl

/-- C2, amended: for every option record with the eight required bits set, a
chunk addressing method in 0..4 and a file name length that `char fname_len`
can hold (0..255 where `char` is unsigned, 0..127 where it is signed), with
any optional options, `dump_options` applied to a LEECHER peer and the buffer
written by `make_handshake_options` succeeds, returns the byte count the
encoder returned, and leaves `chunk_size`, `file_size`, `fname_len` and the
first `fname_len` octets of `fname` equal to the encoded values. -/
theorem options_round_trip (hostLE charSigned : Bool) (ptr : Buf) (pos : proto_opt_str)
    (p : peer) (hreq : required_bits pos.opt_map) (hwf : pos.wf)
    (hcam : pos.chunk_addr_method ≤ 4)
    (hname : charSigned = false ∨ pos.file_name_len < 128)
    (hp : p.type = peer_type.LEECHER) :
    ∃ p', dump_options charSigned (make_handshake_options hostLE ptr pos).1 p =
        some (p', (make_handshake_options hostLE ptr pos).2) ∧
      p'.chunk_size = pos.chunk_size ∧ p'.file_size = pos.file_size ∧
      p'.fname_len = (pos.file_name_len : Int) ∧
      bytes p'.fname pos.file_name_len = bytes pos.file_name pos.file_name_len := by
  obtain ⟨m, d, hm, hb⟩ := mho_success hostLE ptr pos hreq
  obtain ⟨hw1, hw2, hw3, hw4⟩ := hwf
  have hd : d = (options_wire hostLE pos).length := by
    have := congrArg List.length hb
    simpa [bytes_length] using this
  have H0 : holds_at m 0 (options_wire hostLE pos) := holds_at_of_bytes m d [] _ (by simpa using hb)
  rw [hm]
  simp only
  rw [hd]
  obtain ⟨h0, h1, h3, h6, h7, h9, h10, h11⟩ := hreq
  have hv : pos.chunk_addr_method % 256 = pos.chunk_addr_method := by omega
  unfold options_wire at H0 ⊢
  rw [opt_enc_set _ _ _ h0, opt_enc_set _ _ _ h1, opt_enc_set _ _ _ h3, opt_enc_set _ _ _ h6,
    opt_enc_set _ _ _ h7, opt_enc_set _ _ _ h9, opt_enc_set _ _ _ h10, opt_enc_set _ _ _ h11, hv]
    at H0 ⊢
  simp only [List.append_assoc, List.cons_append, List.nil_append] at H0
  obtain ⟨e1, H1⟩ := do_version charSigned m p _ H0
  obtain ⟨e2, H2⟩ := do_minimum_version charSigned m p _ _ _ H1
  obtain ⟨e3, H3⟩ := do_swarm_id charSigned m p _ _ _ _ _ hw1 H2
  obtain ⟨e4, H4⟩ := do_content_prot_method charSigned m p _ _ _ H3
  obtain ⟨e5, H5⟩ := do_merkle_hash_func charSigned m p _ _ _ _ _ H4
  obtain ⟨e6, H6⟩ := do_live_signature_alg charSigned m p _ _ _ _ H5
  obtain ⟨e7, H7⟩ := do_chunk_addr_method charSigned m p _ _ _ H6
  obtain ⟨e8, H8⟩ := do_live_disc_wind charSigned m p _ _ _ _ hcam (by split_ifs <;> simp [be32, be64]) H7
  obtain ⟨e9, H9⟩ := do_supported_msgs charSigned m p _ _ _ _ _ (Nat.mod_lt _ (by norm_num)) H8
  obtain ⟨e10, H10⟩ := do_chunk_size charSigned m p _ _ _ hp H9
  obtain ⟨e11, H11⟩ := do_file_size charSigned m { p with chunk_size := pos.chunk_size % 2 ^ 32 } _ _ _ hp H10
  obtain ⟨p', e12, q1, q2, q3, q4⟩ := do_file_name charSigned m _ _ _ _ hw2 hname H11
  refine ⟨p', ?_, ?_, ?_, q1, q2⟩
  · rw [e1, e2, e3, e4, e5, e6, e7, e8, e9, e10, e11, e12]
    simp only [List.length_append, List.length_cons, List.length_nil, bytes_length,
      Option.some.injEq, Prod.mk.injEq, true_and]
    have hb32 : ∀ v, (be32 v).length = 4 := fun v => rfl
    have hb64 : ∀ v, (be64 v).length = 8 := fun v => rfl
    rw [hb32, hb64]
    congr 1
    omega
  · rw [q3]; exact Nat.mod_eq_of_lt hw3
  · rw [q4]; exact Nat.mod_eq_of_lt hw4

/-- Witness for C2: the sample record, with all twelve options, on a platform
with signed `char`. -/
theorem options_round_trip_witness :
    required_bits sample_options.opt_map ∧ sample_options.wf ∧
    sample_options.chunk_addr_method ≤ 4 ∧
    (true = false ∨ sample_options.file_name_len < 128) ∧
    fresh_leecher.type = peer_type.LEECHER ∧
    ∃ p', dump_options true (make_handshake_options true (fun _ => 0) sample_options).1
          fresh_leecher =
        some (p', (make_handshake_options true (fun _ => 0) sample_options).2) ∧
      p'.chunk_size = sample_options.chunk_size ∧ p'.file_size = sample_options.file_size ∧
      p'.fname_len = (sample_options.file_name_len : Int) ∧
      bytes p'.fname sample_options.file_name_len =
        bytes sample_options.file_name sample_options.file_name_len :=
  ⟨⟨rfl, rfl, rfl, rfl, rfl, rfl, rfl, rfl⟩, ⟨by decide, by decide, by decide, by decide⟩,
    by decide, Or.inr (by decide), rfl,
    options_round_trip true true (fun _ => 0) sample_options fresh_leecher
      ⟨rfl, rfl, rfl, rfl, rfl, rfl, rfl, rfl⟩ ⟨by decide, by decide, by decide, by decide⟩
      (by decide) (Or.inr (by decide)) rfl⟩

/-- C3: `make_handshake_options` returns -1 if and only if `opt_map` lacks at
least one of the bits VERSION, MINIMUM_VERSION, CONTENT_PROT_METHOD,
CHUNK_ADDR_METHOD, LIVE_DISC_WIND, CHUNK_SIZE, FILE_SIZE, FILE_NAME, and in
every other case it returns a positive byte count. -/
theorem make_handshake_options_required (hostLE : Bool) (ptr : Buf) (pos : proto_opt_str) :
    ((make_handshake_options hostLE ptr pos).2 = -1 ↔
      ¬ (optSet pos.opt_map VERSION = true ∧ optSet pos.opt_map MINIMUM_VERSION = true ∧
         optSet pos.opt_map CONTENT_PROT_METHOD = true ∧
         optSet pos.opt_map CHUNK_ADDR_METHOD = true ∧
         optSet pos.opt_map LIVE_DISC_WIND = true ∧ optSet pos.opt_map CHUNK_SIZE = true ∧
         optSet pos.opt_map FILE_SIZE = true ∧ optSet pos.opt_map FILE_NAME = true)) ∧
    ((make_handshake_options hostLE ptr pos).2 = -1 ∨
      0 < (make_handshake_options hostLE ptr pos).2) := by
  have h := mho_ret_cases hostLE ptr pos
  simpa only [required_bits] using h

/-- C4: when `make_handshake_options` succeeds (does not return -1), the value
it returns is the length of `options_wire pos` and the octets of the buffer in
`[0, ret)` are `options_wire pos`: the encodings, in ascending tag order, of
the options whose bit is set in `opt_map`, followed by one END_OPTION octet. -/
theorem make_handshake_options_layout (hostLE : Bool) (ptr : Buf) (pos : proto_opt_str)
    (hok : (make_handshake_options hostLE ptr pos).2 ≠ -1) :
    (make_handshake_options hostLE ptr pos).2 = ((options_wire hostLE pos).length : Int) ∧
    bytes (make_handshake_options hostLE ptr pos).1 (options_wire hostLE pos).length =
      options_wire hostLE pos := by
  have hreq : required_bits pos.opt_map := by
    by_contra hn
    exact hok ((mho_ret_cases hostLE ptr pos).1.mpr hn)
  obtain ⟨m, d, hm, hb⟩ := mho_success hostLE ptr pos hreq
  have hd : d = (options_wire hostLE pos).length := by
    have := congrArg List.length hb
    simpa [bytes_length] using this
  rw [hm]
  subst hd
  exact ⟨rfl, hb⟩

/-- Witness for C4: the sample record encodes to 46 octets. -/
theorem make_handshake_options_layout_witness :
    (make_handshake_options true (fun _ => 0) sample_options).2 ≠ -1 ∧
    (make_handshake_options true (fun _ => 0) sample_options).2 =
      ((options_wire true sample_options).length : Int) ∧
    bytes (make_handshake_options true (fun _ => 0) sample_options).1
        (options_wire true sample_options).length = options_wire true sample_options ∧
    options_wire true sample_options =
      [0, 1, 1, 1, 2, 0, 2, 171, 205, 3, 1, 4, 0, 5, 0, 6, 2, 7, 4, 3, 2, 1, 8, 2, 255, 15,
       9, 0, 0, 4, 0, 10, 0, 0, 0, 0, 0, 0, 12, 0, 11, 3, 97, 46, 98, 255] :=
  ⟨by decide, (make_handshake_options_layout true (fun _ => 0) sample_options (by decide)).1,
    (make_handshake_options_layout true (fun _ => 0) sample_options (by decide)).2, by decide⟩

/-- C6: for every `dest_chan_id` and every 32-bit `a` and `b`, `make_request`
returns 14, writes the 14 octets `dest_chan_id` (big-endian), 0x08, `a`, `b`
(big-endian) and 0x06 (PEX_REQ) and nothing beyond them; `dump_request`
applied to that buffer and a LEECHER peer returns 13, before the PEX_REQ octet,
and sets `start_chunk = a` and `end_chunk = b`. -/
theorem request_round_trip (ptr : Buf) (dest_chan_id a b : Nat) (p : peer)
    (ha : a < 2 ^ 32) (hb : b < 2 ^ 32) (hp : p.type = peer_type.LEECHER) :
    (make_request ptr dest_chan_id a b).2 = 14 ∧
    bytes (make_request ptr dest_chan_id a b).1 14 =
      be32 dest_chan_id ++ [0x08] ++ be32 a ++ be32 b ++ [0x06] ∧
    (∀ j, 14 ≤ j → (make_request ptr dest_chan_id a b).1 j = ptr j) ∧
    ∃ p', dump_request (make_request ptr dest_chan_id a b).1 14 p = some (p', 13) ∧
      p'.start_chunk = a ∧ p'.end_chunk = b := by
  have hbytes := make_request_bytes ptr dest_chan_id a b
  refine ⟨rfl, hbytes, ?_, ?_⟩
  · intro j hj
    simp only [make_request]
    rw [wr8_frame _ _ _ _ (by omega), wr32be_frame _ _ _ _ (by omega),
      wr32be_frame _ _ _ _ (by omega), wr8_frame _ _ _ _ (by omega),
      wr32be_frame _ _ _ _ (by omega)]
  · have H := holds_at_zero _ _ _ hbytes
    simp only [List.append_assoc, List.cons_append, List.nil_append] at H
    obtain ⟨_, H⟩ := holds_at_be32 _ _ _ _ H
    obtain ⟨hk, H⟩ := holds_at_cons _ _ _ _ H
    obtain ⟨h1, H⟩ := holds_at_be32 _ _ _ _ H
    obtain ⟨h2, H⟩ := holds_at_be32 _ _ _ _ H
    refine ⟨{ p with start_chunk := a, end_chunk := b }, ?_, rfl, rfl⟩
    simp only [Nat.zero_add] at hk h1 h2
    rw [Nat.mod_eq_of_lt ha] at h1
    rw [Nat.mod_eq_of_lt hb] at h2
    simp [dump_request, hk, h1, h2, hp]

/-- Witness for C6: the request for chunks 3..6 on channel 0x01020304. -/
theorem request_round_trip_witness :
    (3 : Nat) < 2 ^ 32 ∧ (6 : Nat) < 2 ^ 32 ∧ fresh_leecher.type = peer_type.LEECHER ∧
    (make_request (fun _ => 0) 0x01020304 3 6).2 = 14 ∧
    bytes (make_request (fun _ => 0) 0x01020304 3 6).1 14 =
      be32 0x01020304 ++ [0x08] ++ be32 3 ++ be32 6 ++ [0x06] ∧
    (∀ j, 14 ≤ j → (make_request (fun _ => 0) 0x01020304 3 6).1 j = (fun _ => 0) j) ∧
    ∃ p', dump_request (make_request (fun _ => 0) 0x01020304 3 6).1 14 fresh_leecher =
        some (p', 13) ∧ p'.start_chunk = 3 ∧ p'.end_chunk = 6 :=
  ⟨by decide, by decide, rfl,
    request_round_trip (fun _ => 0) 0x01020304 3 6 fresh_leecher (by decide) (by decide) rfl⟩

/-- C7, the claim as written fails for a range of 107374182 hashes: for the
chunks `0 .. 107374181`, below `nl = 2 ^ 27`, the length written is
`13 + 20 * 107374182 = 2147483653`, above the largest `int`, and the `int`
that `make_integrity` returns is `-2147483643`. -/
theorem make_integrity_return_counterexample :
    bulk_request.start_chunk = 0 ∧ bulk_request.end_chunk = 107374181 ∧
    107374181 < bulk_seeder.nl ∧ 2 * bulk_seeder.nl - 1 < 2 ^ 32 ∧
    (make_integrity 107374183 (fun _ => 0) bulk_request bulk_seeder).map (fun r => r.2) =
      some (-2147483643) ∧
    13 + 20 * (107374181 - 0 + 1) = 2147483653 := by
  refine ⟨rfl, rfl, by decide, by decide, ?_, by decide⟩
  obtain ⟨m', e, _⟩ := make_integrity_bytes 107374183 (fun _ => 0) bulk_request bulk_seeder
    (by decide) (by decide) (by decide)
  rw [e]
  rfl

/-- C7 (amended): for every leecher record with `start_chunk = a ≤ end_chunk =
b < nl` and every seeder tree of `2 * nl - 1` nodes (node indices are
`uint32_t`), `make_integrity`, given fuel for its `b - a + 1` iterations,
writes `dest_chan_id` (4 octets big-endian), the kind 0x04, `a` and `b`
(4 octets big-endian each) and then the hashes of the leaves `tree[2 * i]` for
`i = a, …, b` in ascending order, 20 octets each, and nothing beyond them; it
returns the length `13 + 20 * (b - a + 1)` converted to `int`, which is that
length itself when it is below `2 ^ 31`. -/
theorem make_integrity_layout (fuel : Nat) (ptr : Buf) (p we : peer) (a b : Nat)
    (ha : p.start_chunk = a) (hb : p.end_chunk = b) (hab : a ≤ b) (hnl : b < we.nl)
    (hidx : 2 * we.nl - 1 < 2 ^ 32) (hfuel : b - a + 2 ≤ fuel) :
    ∃ m', make_integrity fuel ptr p we = some (m', toInt32 (13 + 20 * (b - a + 1))) ∧
      (13 + 20 * (b - a + 1) < 2 ^ 31 →
        toInt32 (13 + 20 * (b - a + 1)) = ((13 + 20 * (b - a + 1) : Nat) : Int)) ∧
      bytes m' (13 + 20 * (b - a + 1)) =
        be32 p.dest_chan_id ++ [0x04] ++ be32 a ++ be32 b ++ leaf_hashes we.tree a (b - a + 1) ∧
      (∀ i, a ≤ i → i ≤ b →
        bytes (shift m' (13 + 20 * (i - a))) 20 = sha_octets (we.tree (2 * i)).sha) ∧
      ∀ j, 13 + 20 * (b - a + 1) ≤ j → m' j = ptr j := by
  subst ha hb
  obtain ⟨m', e, hbytes, hframe⟩ := make_integrity_bytes fuel ptr p we hab (by omega) hfuel
  refine ⟨m', e, toInt32_small _, hbytes, ?_, hframe⟩
  intro i h1 h2
  have := integrity_leaf_at m' _ _ _ we.tree _ hbytes (i - p.start_chunk) (by omega)
  have e1 : p.start_chunk + (i - p.start_chunk) = i := by omega
  rw [e1] at this
  exact this

/-- Witness for C7: the seeder answers a request for chunks 1..2 with a
message of 53 octets. -/
theorem make_integrity_layout_witness :
    sample_request.start_chunk = 1 ∧ sample_request.end_chunk = 2 ∧ (1 : Nat) ≤ 2 ∧
    2 < sample_seeder.nl ∧ 2 * sample_seeder.nl - 1 < 2 ^ 32 ∧ 2 - 1 + 2 ≤ 3 ∧
    toInt32 (13 + 20 * (2 - 1 + 1)) = 53 ∧
    ∃ m', make_integrity 3 (fun _ => 0) sample_request sample_seeder =
        some (m', toInt32 (13 + 20 * (2 - 1 + 1))) ∧
      (13 + 20 * (2 - 1 + 1) < 2 ^ 31 →
        toInt32 (13 + 20 * (2 - 1 + 1)) = ((13 + 20 * (2 - 1 + 1) : Nat) : Int)) ∧
      bytes m' (13 + 20 * (2 - 1 + 1)) =
        be32 sample_request.dest_chan_id ++ [0x04] ++ be32 1 ++ be32 2 ++
          leaf_hashes sample_seeder.tree 1 (2 - 1 + 1) ∧
      (∀ i, 1 ≤ i → i ≤ 2 →
        bytes (shift m' (13 + 20 * (i - 1))) 20 = sha_octets (sample_seeder.tree (2 * i)).sha) ∧
      ∀ j, 13 + 20 * (2 - 1 + 1) ≤ j → m' j = (fun _ => 0) j :=
  ⟨rfl, rfl, by decide, by decide, by decide, by decide, by decide,
    make_integrity_layout 3 (fun _ => 0) sample_request sample_seeder 1 2 rfl rfl (by decide)
      (by decide) (by decide) (by decide)⟩

/-- C8, counterexample: with a chunk size of `2 ^ 31` an INTEGRITY message for
chunks 0..2 leaves `chunk[2].offset = 0`, not `(2 - 0) * chunk_size = 2 ^ 32`:
the product is formed in `uint32_t`.  And for the chunks `0 .. 107374181`,
inside a table of `2 ^ 27` entries, the length parsed is
`13 + 20 * 107374182 = 2147483653`, above the largest `int`: the `int` that
`dump_integrity` returns is `-2147483643`, whatever `req_len` is. -/
theorem dump_integrity_offset_counterexample :
    (rd8 integrity_0_2 4 = INTEGRITY ∧ rd32be integrity_0_2 5 = 0 ∧ rd32be integrity_0_2 9 = 2 ∧
      2 < wide_leecher.nl ∧
      ((dump_integrity 4 integrity_0_2 73 wide_leecher).bind (fun r => r.1.chunk)).map
        (fun tab => (tab 2).offset) = some 0 ∧
      (2 - 0) * wide_leecher.chunk_size = 4294967296) ∧
    (rd8 integrity_bulk 4 = INTEGRITY ∧ rd32be integrity_bulk 5 = 0 ∧
      rd32be integrity_bulk 9 = 107374181 ∧ 107374181 < bulk_leecher.nl ∧
      (∀ req_len, (dump_integrity 107374183 integrity_bulk req_len bulk_leecher).map
        (fun r => r.2) = some (-2147483643)) ∧
      13 + 20 * (107374181 - 0 + 1) = 2147483653) := by
  refine ⟨⟨by decide, by decide, by decide, by decide, ?_, by decide⟩,
    ⟨by decide, by decide, by decide, by decide, ?_, by decide⟩⟩
  · rfl
  · intro req_len
    obtain ⟨tab', e, _⟩ := dump_integrity_returns 107374183 integrity_bulk req_len bulk_leecher
      (fun _ => {}) 0 107374181 (by decide) (by decide) (by decide) (by decide) (by decide)
      (by decide) rfl (by decide)
    rw [e]
    rfl

/-- C8, amended: for every INTEGRITY message with range `a ≤ b < nl` (`nl` the
`uint32_t` leaf count of the peer, the size of its chunk table) and every peer
with a chunk table, `dump_integrity`, given fuel for its `b - a + 1`
iterations, returns the length `13 + 20 * (b - a + 1)` converted to `int`
(that length itself when it is below `2 ^ 31`), changes nothing but the table,
and stores for each `i` in `[a, b]` the 20 octets at offset
`13 + 20 * (i - a)` as `chunk[i].sha`, `state = CH_ACTIVE`,
`offset = ((i - a) * chunk_size) mod 2 ^ 32` and `len = chunk_size`; when the
message is the output of `make_integrity` for that range and a seeder tree of
`2 * nl - 1` nodes with 20-octet hashes, `chunk[i].sha` equals the seeder's
`tree[2 * i].sha` for every `i` in `[a, b]`. -/
theorem dump_integrity_stores (fuel : Nat) (m : Buf) (req_len : Int) (p : peer)
    (tab : Nat → chunk) (a b : Nat) (hk : rd8 m 4 = INTEGRITY) (ha : rd32be m 5 = a)
    (hb : rd32be m 9 = b) (hab : a ≤ b) (hnl : b < p.nl) (hnl32 : p.nl < 2 ^ 32)
    (htab : p.chunk = some tab) (hfuel : b - a + 2 ≤ fuel) :
    ∃ tab', dump_integrity fuel m req_len p =
        some ({ p with chunk := some tab' }, toInt32 (13 + 20 * (b - a + 1))) ∧
      (13 + 20 * (b - a + 1) < 2 ^ 31 →
        toInt32 (13 + 20 * (b - a + 1)) = ((13 + 20 * (b - a + 1) : Nat) : Int)) ∧
      (∀ i, a ≤ i → i ≤ b →
        (tab' i).sha = bytes (shift m (13 + 20 * (i - a))) 20 ∧
        (tab' i).state = chunk_state.CH_ACTIVE ∧
        (tab' i).offset = ((i - a) * p.chunk_size) % 2 ^ 32 ∧
        (tab' i).len = p.chunk_size) ∧
      (∀ (fuel' : Nat) (ptr : Buf) (q we : peer) (r : Int),
        q.start_chunk = a → q.end_chunk = b → b < we.nl → 2 * we.nl - 1 < 2 ^ 32 →
        (∀ k, sha_wf (we.tree k).sha) → b - a + 2 ≤ fuel' →
        make_integrity fuel' ptr q we = some (m, r) →
        ∀ i, a ≤ i → i ≤ b → (tab' i).sha = (we.tree (2 * i)).sha) := by
  obtain ⟨tab', e, hin, _⟩ := dump_integrity_loop_spec m a b (by omega) (b - a + 1) fuel p 13 a
    tab htab hnl (by omega) (by omega) (Nat.le_refl a)
  refine ⟨tab', ?_, toInt32_small _, ?_, ?_⟩
  · simp only [dump_integrity, Nat.zero_add, hk, if_true, ha, hb]
    rw [e]
  · intro i h1 h2
    rw [hin i h1 h2]
    exact ⟨rfl, rfl, rfl, rfl⟩
  · intro fuel' ptr q we r hqa hqb hwnl hidx hsha hf hmk i h1 h2
    subst hqa hqb
    obtain ⟨m', e', hbytes, _⟩ := make_integrity_bytes fuel' ptr q we hab (by omega) hf
    rw [hmk] at e'
    simp only [Option.some.injEq, Prod.mk.injEq] at e'
    have hleaf := integrity_leaf_at m' _ _ _ we.tree _ hbytes (i - q.start_chunk) (by omega)
    have e1 : q.start_chunk + (i - q.start_chunk) = i := by omega
    rw [e1, ← e'.1] at hleaf
    rw [hin i h1 h2]
    simp only
    rw [hleaf, sha_octets_of_wf _ (hsha _)]

/-- Witness for C8: the message for chunks 0..2 parsed by a leecher with four
chunk entries and chunks of 1024 octets. -/
theorem dump_integrity_stores_witness :
    rd8 integrity_0_2 4 = INTEGRITY ∧ rd32be integrity_0_2 5 = 0 ∧ rd32be integrity_0_2 9 = 2 ∧
    (0 : Nat) ≤ 2 ∧ 2 < sample_leecher.nl ∧ sample_leecher.nl < 2 ^ 32 ∧
    sample_leecher.chunk = some (fun _ => {}) ∧ 2 - 0 + 2 ≤ 4 ∧
    toInt32 (13 + 20 * (2 - 0 + 1)) = 73 ∧
    ∃ tab', dump_integrity 4 integrity_0_2 73 sample_leecher =
        some ({ sample_leecher with chunk := some tab' }, toInt32 (13 + 20 * (2 - 0 + 1))) ∧
      (13 + 20 * (2 - 0 + 1) < 2 ^ 31 →
        toInt32 (13 + 20 * (2 - 0 + 1)) = ((13 + 20 * (2 - 0 + 1) : Nat) : Int)) ∧
      (∀ i, 0 ≤ i → i ≤ 2 →
        (tab' i).sha = bytes (shift integrity_0_2 (13 + 20 * (i - 0))) 20 ∧
        (tab' i).state = chunk_state.CH_ACTIVE ∧
        (tab' i).offset = ((i - 0) * sample_leecher.chunk_size) % 2 ^ 32 ∧
        (tab' i).len = sample_leecher.chunk_size) ∧
      (∀ (fuel' : Nat) (ptr : Buf) (q we : peer) (r : Int),
        q.start_chunk = 0 → q.end_chunk = 2 → 2 < we.nl → 2 * we.nl - 1 < 2 ^ 32 →
        (∀ k, sha_wf (we.tree k).sha) → 2 - 0 + 2 ≤ fuel' →
        make_integrity fuel' ptr q we = some (integrity_0_2, r) →
        ∀ i, 0 ≤ i → i ≤ 2 → (tab' i).sha = (we.tree (2 * i)).sha) :=
  ⟨by decide, by decide, by decide, by decide, by decide, by decide, rfl, by decide, by decide,
    dump_integrity_stores 4 integrity_0_2 73 sample_leecher (fun _ => {}) 0 2 (by decide)
      (by decide) (by decide) (by decide) (by decide) (by decide) rfl (by decide)⟩

/-- C9, the code at the failing input: for a peer that asked for chunks 0..2
and is being served `curr_chunk = 1`, `make_data` writes the header fields
`start_chunk = 0` and `end_chunk = 2` (the requested range, not
`curr_chunk`), then the timestamp and the four file octets of chunk 1. -/
theorem make_data_header_at_failing_input :
    data_peer.curr_chunk = 1 ∧
    (make_data (fun _ => 0) data_peer data_file).2 = 25 ∧
    bytes (make_data (fun _ => 0) data_peer data_file).1 25 =
      [0, 0, 0, 7, 1, 0, 0, 0, 0, 0, 0, 0, 2,
       0x12, 0x34, 0x56, 0x78, 0xf1, 0x1f, 0xf0, 0x0f, 14, 15, 16, 17] ∧
    rd32be (make_data (fun _ => 0) data_peer data_file).1 5 = 0 ∧
    rd32be (make_data (fun _ => 0) data_peer data_file).1 9 = 2 := by
  refine ⟨rfl, by decide, by decide, by decide, by decide⟩

/-- C10: for every peer, `make_ack` returns 21 and writes exactly 21 octets:
`dest_chan_id` (4 octets big-endian), the kind 0x02, the low 32 bits of
`curr_chunk` twice (start_chunk = end_chunk, one chunk per ACK) and the 8
big-endian octets of the delay sample; `dump_ack` applied to the buffer
returns 21. -/
theorem make_ack_layout (ptr : Buf) (p q : peer) (ack_len : Int) :
    (make_ack ptr p).2 = 21 ∧
    bytes (make_ack ptr p).1 21 =
      be32 p.dest_chan_id ++ [0x02] ++ be32 (p.curr_chunk % 2 ^ 32) ++
        be32 (p.curr_chunk % 2 ^ 32) ++ be64 0x12345678ABCDEF ∧
    (∀ j, 21 ≤ j → (make_ack ptr p).1 j = ptr j) ∧
    rd32be (make_ack ptr p).1 5 = rd32be (make_ack ptr p).1 9 ∧
    dump_ack (make_ack ptr p).1 ack_len q = 21 := by
  have hbytes := make_ack_bytes ptr p
  refine ⟨rfl, ?_, ?_, ?_, rfl⟩
  · rw [be32_mod]
    exact hbytes
  · intro j hj
    simp only [make_ack]
    rw [wr64be_frame _ _ _ _ (by omega), wr32be_frame _ _ _ _ (by omega),
      wr32be_frame _ _ _ _ (by omega), wr8_frame _ _ _ _ (by omega),
      wr32be_frame _ _ _ _ (by omega)]
  · have H := holds_at_zero _ _ _ hbytes
    simp only [List.append_assoc, List.cons_append, List.nil_append] at H
    obtain ⟨_, H⟩ := holds_at_be32 _ _ _ _ H
    obtain ⟨_, H⟩ := holds_at_cons _ _ _ _ H
    obtain ⟨h1, H⟩ := holds_at_be32 _ _ _ _ H
    obtain ⟨h2, H⟩ := holds_at_be32 _ _ _ _ H
    rw [show 5 = 0 + 4 + 1 from rfl, show 9 = 0 + 4 + 1 + 4 from rfl, h1, h2]

/-- C11: framing.  For each of `make_handshake_request`, `make_handshake_have`,
`make_request`, `make_integrity`, `make_data` (whether or not the file can be
read) and `make_ack`, octets 0..3 of the output are the big-endian encoding of
the destination channel id the encoder was given and octet 4 is the message
kind, so that `message_type` on the output is HANDSHAKE (0), HANDSHAKE (0),
REQUEST (8), INTEGRITY (4), DATA (1) and ACK (2).  `make_integrity` has a loop:
its buffer starts with these five octets after any number of iterations, so
does the buffer it returns whenever it returns, and it returns when
`end_chunk` is below the largest `uint32_t` and the fuel covers the chunks of
the range. -/
theorem message_framing (fuel : Nat) (ptr : Buf) (dest_chan_id src_chan_id : Nat) (opts : Buf)
    (opt_len start_chunk end_chunk : Nat) (p we : peer) (file : file_env) :
    (bytes (make_handshake_request ptr dest_chan_id src_chan_id opts opt_len).1 5 =
        be32 dest_chan_id ++ [HANDSHAKE] ∧
      message_type (make_handshake_request ptr dest_chan_id src_chan_id opts opt_len).1 =
        HANDSHAKE) ∧
    (bytes (make_handshake_have ptr dest_chan_id src_chan_id opts opt_len p).1 5 =
        be32 dest_chan_id ++ [HANDSHAKE] ∧
      message_type (make_handshake_have ptr dest_chan_id src_chan_id opts opt_len p).1 =
        HANDSHAKE) ∧
    (bytes (make_request ptr dest_chan_id start_chunk end_chunk).1 5 =
        be32 dest_chan_id ++ [REQUEST] ∧
      message_type (make_request ptr dest_chan_id start_chunk end_chunk).1 = REQUEST) ∧
    ((bytes (make_integrity_run fuel ptr p we).buffer 5 = be32 p.dest_chan_id ++ [INTEGRITY] ∧
        message_type (make_integrity_run fuel ptr p we).buffer = INTEGRITY) ∧
      (∀ m' r, make_integrity fuel ptr p we = some (m', r) →
        bytes m' 5 = be32 p.dest_chan_id ++ [INTEGRITY] ∧ message_type m' = INTEGRITY) ∧
      (p.end_chunk < 2 ^ 32 - 1 → p.end_chunk + 2 ≤ fuel + p.start_chunk → 1 ≤ fuel →
        ∃ m' r, make_integrity fuel ptr p we = some (m', r))) ∧
    (bytes (make_data ptr p file).1 5 = be32 p.dest_chan_id ++ [DATA] ∧
      message_type (make_data ptr p file).1 = DATA) ∧
    (bytes (make_ack ptr p).1 5 = be32 p.dest_chan_id ++ [ACK] ∧
      message_type (make_ack ptr p).1 = ACK) ∧
    HANDSHAKE = 0 ∧ REQUEST = 8 ∧ INTEGRITY = 4 ∧ DATA = 1 ∧ ACK = 2 := by
  refine ⟨?_, ?_, ?_, ?_, ?_, ?_, rfl, rfl, rfl, rfl, rfl⟩
  · apply header_of_frame ptr _ dest_chan_id HANDSHAKE (by decide)
    intro j hj
    simp only [make_handshake_request]
    rw [memcpy_frame _ _ _ _ _ (by omega), wr32be_frame _ _ _ _ (by omega)]
  · apply header_of_frame ptr _ dest_chan_id HANDSHAKE (by decide)
    intro j hj
    simp only [make_handshake_have, make_handshake_request, Int.toNat_ofNat]
    rw [wr32be_frame _ _ _ _ (by omega), wr32be_frame _ _ _ _ (by omega),
      wr8_frame _ _ _ _ (by omega), memcpy_frame _ _ _ _ _ (by omega),
      wr32be_frame _ _ _ _ (by omega)]
  · apply header_of_frame ptr _ dest_chan_id REQUEST (by decide)
    intro j hj
    simp only [make_request]
    rw [wr8_frame _ _ _ _ (by omega), wr32be_frame _ _ _ _ (by omega),
      wr32be_frame _ _ _ _ (by omega)]
  · have hrun : bytes (make_integrity_run fuel ptr p we).buffer 5 =
          be32 p.dest_chan_id ++ [INTEGRITY] ∧
        message_type (make_integrity_run fuel ptr p we).buffer = INTEGRITY := by
      apply header_of_frame ptr _ p.dest_chan_id INTEGRITY (by decide)
      intro j hj
      simp only [make_integrity_run]
      rw [make_integrity_loop_run_frame _ _ _ _ _ _ j (by omega),
        wr32be_frame _ _ _ _ (by omega), wr32be_frame _ _ _ _ (by omega)]
    refine ⟨hrun, ?_, ?_⟩
    · intro m' r hm
      have hres := make_integrity_run_result fuel ptr p we
      rw [hm] at hres
      cases hout : make_integrity_run fuel ptr p we with
      | returned m1 r1 =>
        rw [hout] at hres hrun
        simp only [enc_outcome.result, Option.some.injEq, Prod.mk.injEq] at hres
        rw [← hres.1]
        exact hrun
      | running m1 =>
        rw [hout] at hres
        exact absurd hres (by simp [enc_outcome.result])
    · intro hend hfuel hfuel1
      obtain ⟨⟨m', d'⟩, e⟩ := make_integrity_loop_returns we p.end_chunk hend fuel
        (wr32be (wr32be (wr8 (wr32be ptr 0 p.dest_chan_id) (0 + 4) INTEGRITY) (0 + 4 + 1)
          p.start_chunk) (0 + 4 + 1 + 4) p.end_chunk) (0 + 4 + 1 + 4 + 4) p.start_chunk
        (by omega) hfuel1
      refine ⟨m', toInt32 d', ?_⟩
      simp only [make_integrity]
      rw [e]
  · apply header_of_frame ptr _ p.dest_chan_id DATA (by decide)
    intro j hj
    cases file with
    | open_fails =>
      simp only [make_data]
      rw [wr64be_frame _ _ _ _ (by omega), wr32be_frame _ _ _ _ (by omega),
        wr32be_frame _ _ _ _ (by omega)]
    | read_fails =>
      simp only [make_data]
      rw [wr64be_frame _ _ _ _ (by omega), wr32be_frame _ _ _ _ (by omega),
        wr32be_frame _ _ _ _ (by omega)]
    | content data =>
      simp only [make_data]
      rw [memcpy_frame _ _ _ _ _ (by omega), wr64be_frame _ _ _ _ (by omega),
        wr32be_frame _ _ _ _ (by omega), wr32be_frame _ _ _ _ (by omega)]
  · apply header_of_frame ptr _ p.dest_chan_id ACK (by decide)
    intro j hj
    simp only [make_ack]
    rw [wr64be_frame _ _ _ _ (by omega), wr32be_frame _ _ _ _ (by omega),
      wr32be_frame _ _ _ _ (by omega)]

/-- Witness for C11: the messages built for a peer with channel id 7 and the
range 0..2, with fuel 4 for the loop of `make_integrity`; and the buffer of
`make_integrity` for the range `0 .. 2 ^ 32 - 1`, whose loop does not end,
after four tests of the loop condition. -/
theorem message_framing_witness :
    (∃ m' r, make_integrity 4 (fun _ => 0) data_peer data_peer = some (m', r) ∧
      bytes m' 5 = be32 data_peer.dest_chan_id ++ [INTEGRITY] ∧ message_type m' = INTEGRITY) ∧
    make_integrity 4 (fun _ => 0) endless_request data_peer = none ∧
    (bytes (make_integrity_run 4 (fun _ => 0) endless_request data_peer).buffer 5 =
        be32 endless_request.dest_chan_id ++ [INTEGRITY] ∧
      message_type (make_integrity_run 4 (fun _ => 0) endless_request data_peer).buffer =
        INTEGRITY) ∧
    (bytes (make_data (fun _ => 0) data_peer data_file).1 5 =
        be32 data_peer.dest_chan_id ++ [DATA] ∧
      message_type (make_data (fun _ => 0) data_peer data_file).1 = DATA) := by
  obtain ⟨m', r, e⟩ :=
    (message_framing 4 (fun _ => 0) 7 3 (fun _ => 0) 0 0 2 data_peer data_peer
      data_file).2.2.2.1.2.2 (by decide) (by decide) (by decide)
  exact ⟨⟨m', r, e,
      (message_framing 4 (fun _ => 0) 7 3 (fun _ => 0) 0 0 2 data_peer data_peer
        data_file).2.2.2.1.2.1 m' r e⟩,
    rfl,
    (message_framing 4 (fun _ => 0) 7 3 (fun _ => 0) 0 0 2 endless_request data_peer
      data_file).2.2.2.1.1,
    (message_framing 4 (fun _ => 0) 7 3 (fun _ => 0) 0 0 2 data_peer data_peer
      data_file).2.2.2.2.1⟩

/-- C12: for every pattern of downloaded flags and every range
`0 ≤ start ≤ end < nc` with `end ≤ p.end_chunk`,
`create_download_schedule_sbs`, given fuel for `nc + 1` iterations, returns
with `hashes_per_mtu = 256` and a schedule in which a chunk `i` lies in some
entry `[begin, end]` exactly when `start ≤ i ≤ end` and `chunk[i].downloaded =
CH_NO`, no chunk lies in two entries, and no entry has more than 256 chunks. -/
theorem schedule_covers (fuel : Nat) (p : peer) (tab : Nat → chunk)
    (start_chunk end_chunk : Nat) (htab : p.chunk = some tab) (hnc : p.nc < 2 ^ 32)
    (hse : start_chunk ≤ end_chunk) (hen : end_chunk < p.nc) (hep : end_chunk ≤ p.end_chunk)
    (hfuel : p.nc + 1 ≤ fuel) :
    ∃ p' ret, create_download_schedule_sbs fuel p start_chunk end_chunk = some (p', ret) ∧
      p'.hashes_per_mtu = 256 ∧
      (∀ i, (∃ k, k < p'.download_schedule_len ∧ in_entry (p'.download_schedule k) i) ↔
        (start_chunk ≤ i ∧ i ≤ end_chunk ∧ (tab i).downloaded = chunk_downloaded.CH_NO)) ∧
      (∀ k1 k2 i, k1 < p'.download_schedule_len → k2 < p'.download_schedule_len →
        in_entry (p'.download_schedule k1) i → in_entry (p'.download_schedule k2) i → k1 = k2) ∧
      (∀ k, k < p'.download_schedule_len →
        (p'.download_schedule k).end_ + 1 - (p'.download_schedule k).begin ≤ 256) := by
  obtain ⟨sched, len, o', last', e, _, _, c3, c4, c5, c6, c7, _⟩ :=
    schedule_loop_spec fuel end_chunk tab fuel
      { p with download_schedule_len := 0, hashes_per_mtu := 256 } start_chunk start_chunk
      htab rfl hnc hfuel (by omega) (show p.nc + 1 ≤ fuel + start_chunk from by omega)
  simp only at c4 c5 c6 c7
  refine ⟨{ p with download_schedule := sched, download_schedule_len := len,
                    hashes_per_mtu := 256 },
    toInt32 (((last' + 2 ^ 32 - start_chunk + 1) % 2 ^ 32 * p.chunk_size) % 2 ^ 32),
    ?_, ?_, ?_, ?_, ?_⟩
  · simp only [create_download_schedule_sbs]
    rw [if_neg (by omega), e]
  · rfl
  · intro i
    constructor
    · rintro ⟨k, hk, hi⟩
      obtain ⟨d1, _, _, _, _, _, _, d8⟩ := c5 k (Nat.zero_le k) hk
      have := d8 i hi
      exact ⟨Nat.le_trans d1 hi.1, this.1, this.2⟩
    · rintro ⟨h1, h2, h3⟩
      have hlt : i < o' := by
        by_contra hge
        rcases c4 with h | h
        · exact h ⟨by omega, by omega⟩
        · exact yes_ne_no _ (h i (by omega) (by omega)) h3
      obtain ⟨k, _, g2, g3⟩ := c7 i h1 hlt h2 h3
      exact ⟨k, g2, g3⟩
  · intro k1 k2 i h1 h2 hi1 hi2
    simp only [in_entry] at hi1 hi2
    by_contra hne
    rcases Nat.lt_or_gt_of_ne hne with h | h
    · have := c6 k1 k2 (Nat.zero_le _) h h2
      omega
    · have := c6 k2 k1 (Nat.zero_le _) h h1
      omega
  · intro k hk
    exact (c5 k (Nat.zero_le k) hk).2.2.2.2.2.1

/-- Witness for C12: ten chunks with 1, 2 and 5 downloaded, range 0..9. -/
theorem schedule_covers_witness :
    sched_peer.chunk = some (chunk_table [false, true, true, false, false, true]) ∧
    sched_peer.nc < 2 ^ 32 ∧ (0 : Nat) ≤ 9 ∧ 9 < sched_peer.nc ∧ 9 ≤ sched_peer.end_chunk ∧
    sched_peer.nc + 1 ≤ 11 ∧
    ∃ p' ret, create_download_schedule_sbs 11 sched_peer 0 9 = some (p', ret) ∧
      p'.hashes_per_mtu = 256 ∧
      (∀ i, (∃ k, k < p'.download_schedule_len ∧ in_entry (p'.download_schedule k) i) ↔
        (0 ≤ i ∧ i ≤ 9 ∧
          (chunk_table [false, true, true, false, false, true] i).downloaded =
            chunk_downloaded.CH_NO)) ∧
      (∀ k1 k2 i, k1 < p'.download_schedule_len → k2 < p'.download_schedule_len →
        in_entry (p'.download_schedule k1) i → in_entry (p'.download_schedule k2) i → k1 = k2) ∧
      (∀ k, k < p'.download_schedule_len →
        (p'.download_schedule k).end_ + 1 - (p'.download_schedule k).begin ≤ 256) :=
  ⟨rfl, by decide, by decide, by decide, by decide, by decide,
    schedule_covers 11 sched_peer _ 0 9 rfl (by decide) (by decide) (by decide) (by decide)
      (by decide)⟩

/-- C13, the code at the failing input: with chunk 0 downloaded, chunk 1 not,
`nc = 2` and the range 0..0, the skip loop runs past `end_chunk` and the
schedule gets the single entry `begin = 1`, `end = 0`, whose `begin` is above
both its `end` and the requested end. -/
theorem schedule_entry_at_failing_input :
    (0 : Nat) ≤ 0 ∧ 0 < two_chunk_peer.nc ∧
    (create_download_schedule_sbs 3 two_chunk_peer 0 0).map
      (fun r => (r.1.download_schedule_len, (r.1.download_schedule 0).begin,
        (r.1.download_schedule 0).end_)) = some (1, 1, 0) := by
  refine ⟨by decide, by decide, ?_⟩
  rfl

/-- C14, the code at the failing input: with chunks 0 and 1 downloaded, chunk 2
not, `nc = 3` and the range 0..0, the schedule gets the single entry
`begin = 2`, `end = 1`: it holds no chunk, does not end at the requested end
chunk 0, and the chunk after it, chunk 2, is not downloaded. -/
theorem schedule_run_at_failing_input :
    (0 : Nat) ≤ 0 ∧ 0 < three_chunk_peer.nc ∧
    (create_download_schedule_sbs 4 three_chunk_peer 0 0).map
      (fun r => (r.1.download_schedule_len, (r.1.download_schedule 0).begin,
        (r.1.download_schedule 0).end_)) = some (1, 2, 1) ∧
    three_chunk_peer.chunk.map (fun tab => (tab 2).downloaded) = some chunk_downloaded.CH_NO := by
  refine ⟨by decide, by decide, ?_, ?_⟩
  · rfl
  · rfl

/-- C15, counterexample: with chunks of `2 ^ 31` octets and the range 0..0,
none downloaded, the schedule is the single entry 0..0 and the function
returns `-2147483648`, not `(0 - 0 + 1) * chunk_size = 2147483648`. -/
theorem schedule_size_counterexample :
    (create_download_schedule_sbs 4 wide_sched_peer 0 0).map
      (fun r => (r.2, r.1.download_schedule_len, (r.1.download_schedule 0).begin,
        (r.1.download_schedule 0).end_)) = some (-2147483648, 1, 0, 0) ∧
    ((0 - 0 + 1) * wide_sched_peer.chunk_size : Int) = 2147483648 := by
  refine ⟨?_, by decide⟩
  rfl

/-- C15, amended: whenever `create_download_schedule_sbs` (with
`start ≤ p.end_chunk` and fuel for `nc + 1` iterations) emits at least one
entry, the value it returns is `(last_covered - start + 1) * chunk_size`
reduced modulo `2 ^ 32` and read as an `int32_t`, where `last_covered ≥ start`
is the end of the last entry; it is the exact product whenever that is below
`2 ^ 31`; for a range `start ≤ end < nc` with no downloaded chunk and at most
256 chunks the returned value is `(end - start + 1) * chunk_size` reduced the
same way. -/
theorem schedule_size_estimate (fuel : Nat) (p : peer) (tab : Nat → chunk)
    (start_chunk end_chunk : Nat) (htab : p.chunk = some tab) (hnc : p.nc < 2 ^ 32)
    (hsp : start_chunk ≤ p.end_chunk) (hfuel : p.nc + 1 ≤ fuel) :
    ∃ p' ret, create_download_schedule_sbs fuel p start_chunk end_chunk = some (p', ret) ∧
      (0 < p'.download_schedule_len →
        start_chunk ≤ (p'.download_schedule (p'.download_schedule_len - 1)).end_ ∧
        ret = toInt32 ((((p'.download_schedule (p'.download_schedule_len - 1)).end_
          - start_chunk + 1) * p.chunk_size) % 2 ^ 32) ∧
        (((p'.download_schedule (p'.download_schedule_len - 1)).end_ - start_chunk + 1)
            * p.chunk_size < 2 ^ 31 →
          ret = ((((p'.download_schedule (p'.download_schedule_len - 1)).end_
            - start_chunk + 1) * p.chunk_size : Nat) : Int))) ∧
      ((∀ i, start_chunk ≤ i → i ≤ end_chunk →
          (tab i).downloaded = chunk_downloaded.CH_NO) →
        start_chunk ≤ end_chunk → end_chunk < p.nc → end_chunk - start_chunk + 1 ≤ 256 →
        ret = toInt32 (((end_chunk - start_chunk + 1) * p.chunk_size) % 2 ^ 32)) := by
  obtain ⟨sched, len, o', last', e, _, _, _, _, c5, _, _, c8⟩ :=
    schedule_loop_spec fuel end_chunk tab fuel
      { p with download_schedule_len := 0, hashes_per_mtu := 256 } start_chunk start_chunk
      htab rfl hnc hfuel (by omega) (show p.nc + 1 ≤ fuel + start_chunk from by omega)
  simp only at c5 c8
  have hrun : create_download_schedule_sbs fuel p start_chunk end_chunk =
      some ({ p with download_schedule := sched, download_schedule_len := len,
                     hashes_per_mtu := 256 },
        toInt32 (((last' + 2 ^ 32 - start_chunk + 1) % 2 ^ 32 * p.chunk_size) % 2 ^ 32)) := by
    simp only [create_download_schedule_sbs]
    rw [if_neg (by omega), e]
  refine ⟨_, _, hrun, ?_, ?_⟩
  · intro hlen
    simp only at hlen ⊢
    rcases c8 with ⟨g1, _⟩ | ⟨_, g2⟩
    · omega
    · obtain ⟨d1, d2, d3, _⟩ := c5 (len - 1) (Nat.zero_le _) (by omega)
      have hl : last' = (sched (len - 1)).end_ := by
        rw [g2]; exact Nat.mod_eq_of_lt (by omega)
      have hx : (last' + 2 ^ 32 - start_chunk + 1) % 2 ^ 32 =
          ((sched (len - 1)).end_ - start_chunk + 1) % 2 ^ 32 := by
        rw [hl]; omega
      have hret : toInt32 (((last' + 2 ^ 32 - start_chunk + 1) % 2 ^ 32 * p.chunk_size) % 2 ^ 32) =
          toInt32 ((((sched (len - 1)).end_ - start_chunk + 1) * p.chunk_size) % 2 ^ 32) := by
        rw [hx, Nat.mod_mul_mod]
      refine ⟨d2, hret, ?_⟩
      intro hsmall
      rw [hret, Nat.mod_eq_of_lt (by omega), toInt32_small _ hsmall]
  · intro hno hse hen hcnt
    obtain ⟨f, rfl⟩ : ∃ f, fuel = f + 2 := ⟨fuel - 2, by omega⟩
    have hskip : skip_downloaded tab p.nc (f + 2) start_chunk = some start_chunk := by
      simp only [skip_downloaded]
      rw [if_neg (fun h => yes_ne_no _ h.1 (hno start_chunk (Nat.le_refl _) hse))]
    have hext := extend_run_all_no tab p.nc end_chunk 256 hen (end_chunk + 1 - start_chunk)
      (f + 2) 0 start_chunk (by omega) (by omega) (by omega) hno
    have hm1 : (end_chunk + 1 + 2 ^ 64 - 1) % 2 ^ 64 = end_chunk := by omega
    have hdirect : create_download_schedule_sbs (f + 2) p start_chunk end_chunk =
        some ({ p with
            download_schedule := Function.update p.download_schedule 0
              { begin := start_chunk, end_ := end_chunk },
            download_schedule_len := 1, hashes_per_mtu := 256 },
          toInt32 (((end_chunk % 2 ^ 32 + 2 ^ 32 - start_chunk + 1) % 2 ^ 32 * p.chunk_size)
            % 2 ^ 32)) := by
      simp only [create_download_schedule_sbs]
      rw [if_neg (by omega)]
      simp only [schedule_loop]
      rw [if_pos ⟨by omega, hse⟩]
      simp only [htab, hskip]
      rw [if_neg (by omega)]
      simp only [hext, hm1]
      rw [if_neg (by omega), ← htab]
    rw [hdirect] at hrun
    simp only [Option.some.injEq, Prod.mk.injEq] at hrun
    rw [← hrun.2]
    have he32 : end_chunk % 2 ^ 32 = end_chunk := Nat.mod_eq_of_lt (by omega)
    have hx : (end_chunk % 2 ^ 32 + 2 ^ 32 - start_chunk + 1) % 2 ^ 32 =
        (end_chunk - start_chunk + 1) % 2 ^ 32 := by
      rw [he32]; omega
    rw [hx, Nat.mod_mul_mod]

/-- Witness for C15: ten chunks of 1024 octets, none downloaded, range 3..6:
the estimate is 4096. -/
theorem schedule_size_estimate_witness :
    ten_chunk_peer.chunk = some (chunk_table []) ∧ ten_chunk_peer.nc < 2 ^ 32 ∧
    3 ≤ ten_chunk_peer.end_chunk ∧ ten_chunk_peer.nc + 1 ≤ 11 ∧
    (toInt32 (((6 - 3 + 1) * ten_chunk_peer.chunk_size) % 2 ^ 32) = 4096) ∧
    ∃ p' ret, create_download_schedule_sbs 11 ten_chunk_peer 3 6 = some (p', ret) ∧
      (0 < p'.download_schedule_len →
        3 ≤ (p'.download_schedule (p'.download_schedule_len - 1)).end_ ∧
        ret = toInt32 ((((p'.download_schedule (p'.download_schedule_len - 1)).end_
          - 3 + 1) * ten_chunk_peer.chunk_size) % 2 ^ 32) ∧
        (((p'.download_schedule (p'.download_schedule_len - 1)).end_ - 3 + 1)
            * ten_chunk_peer.chunk_size < 2 ^ 31 →
          ret = ((((p'.download_schedule (p'.download_schedule_len - 1)).end_
            - 3 + 1) * ten_chunk_peer.chunk_size : Nat) : Int))) ∧
      ((∀ i, 3 ≤ i → i ≤ 6 →
          (chunk_table [] i).downloaded = chunk_downloaded.CH_NO) →
        3 ≤ 6 → 6 < ten_chunk_peer.nc → 6 - 3 + 1 ≤ 256 →
        ret = toInt32 (((6 - 3 + 1) * ten_chunk_peer.chunk_size) % 2 ^ 32)) :=
  ⟨rfl, by decide, by decide, by decide, by decide,
    schedule_size_estimate 11 ten_chunk_peer (chunk_table []) 3 6 rfl (by decide) (by decide)
      (by decide)⟩

/-- C16, the code at the failing input: ten chunks of 1024 octets, none
downloaded, have cache 0..9, request 3..6 (inside the have range):
`swift_create_download_schedule_sbs` schedules the single entry 3..9 and
returns 7168, not 3..6 and 4096; `create_download_schedule_sbs` on the same
input schedules 3..6 and returns 4096. -/
theorem swift_schedule_at_failing_input :
    ten_chunk_peer.num_have_cache = 1 ∧
    (ten_chunk_peer.have_cache 0).start_chunk ≤ 3 ∧ 6 ≤ (ten_chunk_peer.have_cache 0).end_chunk ∧
    (swift_create_download_schedule_sbs 11 ten_chunk_peer 3 6).map
      (fun r => (r.2, r.1.download_schedule_len, (r.1.download_schedule 0).begin,
        (r.1.download_schedule 0).end_)) = some (7168, 1, 3, 9) ∧
    (create_download_schedule_sbs 11 ten_chunk_peer 3 6).map
      (fun r => (r.2, r.1.download_schedule_len, (r.1.download_schedule 0).begin,
        (r.1.download_schedule 0).end_)) = some (4096, 1, 3, 6) := by
  refine ⟨rfl, by decide, by decide, ?_, ?_⟩
  · rfl
  · rfl

/-- C17: `all_chunks_downloaded`, given fuel for `nc + 1` iterations, returns
the peer it was given; it returns 1 when `nc = 0`, and with a chunk table it
returns 1 if and only if `chunk[i].downloaded = CH_YES` for every `i` in
`[0, nc)`, and 0 otherwise. -/
theorem all_chunks_downloaded_spec (fuel : Nat) (p : peer) (hfuel : p.nc + 1 ≤ fuel) :
    (p.nc = 0 → all_chunks_downloaded fuel p = some (p, 1)) ∧
    (∀ tab, p.chunk = some tab →
      ∃ r, all_chunks_downloaded fuel p = some (p, r) ∧
        (r = 1 ↔ ∀ i, i < p.nc → (tab i).downloaded = chunk_downloaded.CH_YES) ∧
        (r = 0 ↔ ¬ ∀ i, i < p.nc → (tab i).downloaded = chunk_downloaded.CH_YES)) := by
  constructor
  · intro h0
    obtain ⟨f, rfl⟩ : ∃ f, fuel = f + 1 := ⟨fuel - 1, by omega⟩
    simp only [all_chunks_downloaded, all_chunks_downloaded_loop]
    rw [if_neg (by omega)]
  · intro tab htab
    obtain ⟨r, e, h1, h2⟩ := all_loop_spec tab p.nc fuel 0 (by omega) (by omega)
    refine ⟨r, ?_, ?_, ?_⟩
    · simp only [all_chunks_downloaded, htab, e]
    · rw [h1]
      exact ⟨fun h i hi => h i (Nat.zero_le i) hi, fun h i _ hi => h i hi⟩
    · have h1' : r = 1 ↔ ∀ i, i < p.nc → (tab i).downloaded = chunk_downloaded.CH_YES := by
        rw [h1]
        exact ⟨fun h i hi => h i (Nat.zero_le i) hi, fun h i _ hi => h i hi⟩
      rw [← h1']
      rcases h2 with h | h
      · rw [h]; decide
      · rw [h]; decide

/-- Witness for C17: ten chunks of which three are downloaded. -/
theorem all_chunks_downloaded_spec_witness :
    sched_peer.nc + 1 ≤ 11 ∧
    (sched_peer.nc = 0 → all_chunks_downloaded 11 sched_peer = some (sched_peer, 1)) ∧
    (∀ tab, sched_peer.chunk = some tab →
      ∃ r, all_chunks_downloaded 11 sched_peer = some (sched_peer, r) ∧
        (r = 1 ↔ ∀ i, i < sched_peer.nc → (tab i).downloaded = chunk_downloaded.CH_YES) ∧
        (r = 0 ↔ ¬ ∀ i, i < sched_peer.nc → (tab i).downloaded = chunk_downloaded.CH_YES)) :=
  ⟨by decide, all_chunks_downloaded_spec 11 sched_peer (by decide)⟩

/-- C18, the claim as written fails for the swift variant: on a peer whose two
chunks are both downloaded (`all_chunks_downloaded` returns 1) and whose have
cache is empty, with the range 0..1 (`start ≤ p.end_chunk`),
`swift_create_download_schedule_sbs` stops at its assertion
`num_have_cache > 0` and produces no schedule, whatever the fuel. -/
theorem completion_schedule_counterexample :
    all_chunks_downloaded 3 done_peer = some (done_peer, 1) ∧
    0 ≤ done_peer.end_chunk ∧ done_peer.num_have_cache = 0 ∧
    (∀ fuel, swift_create_download_schedule_sbs fuel done_peer 0 1 = none) :=
  ⟨rfl, by decide, rfl, fun _ => rfl⟩

/-- C18 (amended): for every peer on which `all_chunks_downloaded` returns 1
and every range with `start ≤ p.end_chunk`, `create_download_schedule_sbs`
returns with `download_schedule_len = 0` and the peer otherwise unchanged
apart from `hashes_per_mtu = 256`; `swift_create_download_schedule_sbs` does
the same provided the have cache is not empty (`num_have_cache > 0`). -/
theorem completion_schedule_empty (fuel0 fuel : Nat) (p : peer) (start_chunk end_chunk : Nat)
    (hall : all_chunks_downloaded fuel0 p = some (p, 1)) (hsp : start_chunk ≤ p.end_chunk)
    (hfuel : p.nc + 1 ≤ fuel) (hcache : p.num_have_cache + 1 ≤ fuel) :
    (∃ ret, create_download_schedule_sbs fuel p start_chunk end_chunk =
      some ({ p with download_schedule_len := 0, hashes_per_mtu := 256 }, ret)) ∧
    (0 < p.num_have_cache →
      ∃ ret, swift_create_download_schedule_sbs fuel p start_chunk end_chunk =
        some ({ p with download_schedule_len := 0, hashes_per_mtu := 256 }, ret)) := by
  have hloop : all_chunks_downloaded_loop p.chunk p.nc fuel0 0 = some 1 := by
    simp only [all_chunks_downloaded] at hall
    cases hl : all_chunks_downloaded_loop p.chunk p.nc fuel0 0 with
    | none => rw [hl] at hall; simp at hall
    | some r =>
      rw [hl] at hall
      simp only [Option.some.injEq, Prod.mk.injEq, true_and] at hall
      rw [hall]
  obtain ⟨hyes, hnone⟩ := all_loop_one p.chunk p.nc fuel0 0 hloop
  have hyes' : ∀ tab, p.chunk = some tab → ∀ i, i < p.nc →
      (tab i).downloaded = chunk_downloaded.CH_YES :=
    fun tab ht i hi => hyes tab ht i (Nat.zero_le i) hi
  have hnone' : p.chunk = none → p.nc = 0 := fun h => by have := hnone h; omega
  constructor
  · obtain ⟨o', e⟩ := schedule_loop_all_yes fuel end_chunk
      { p with download_schedule_len := 0, hashes_per_mtu := 256 } start_chunk start_chunk fuel
      hyes' hnone' hfuel (by omega)
    refine ⟨toInt32 (((start_chunk + 2 ^ 32 - start_chunk + 1) % 2 ^ 32 * p.chunk_size)
      % 2 ^ 32), ?_⟩
    simp only [create_download_schedule_sbs]
    rw [if_neg (by omega), e]
  · intro hpos
    have e := swift_have_loop_all_yes fuel
      { p with download_schedule_len := 0, hashes_per_mtu := 256 } hyes' hnone' hfuel (by omega)
      fuel 0 start_chunk start_chunk (show p.num_have_cache + 1 ≤ fuel + 0 from by omega)
      (by omega)
    refine ⟨toInt32 (((start_chunk + 2 ^ 32 - start_chunk + 1) % 2 ^ 32 * p.chunk_size)
      % 2 ^ 32), ?_⟩
    simp only [swift_create_download_schedule_sbs]
    rw [if_neg (by omega), if_pos hpos, e]

/-- Witness for C18: two chunks, both downloaded, have cache 0..1, range
0..1. -/
theorem completion_schedule_empty_witness :
    all_chunks_downloaded 3 done_cache_peer = some (done_cache_peer, 1) ∧
    0 ≤ done_cache_peer.end_chunk ∧ done_cache_peer.nc + 1 ≤ 3 ∧
    done_cache_peer.num_have_cache + 1 ≤ 3 ∧
    (∃ ret, create_download_schedule_sbs 3 done_cache_peer 0 1 =
      some ({ done_cache_peer with download_schedule_len := 0, hashes_per_mtu := 256 }, ret)) ∧
    (0 < done_cache_peer.num_have_cache →
      ∃ ret, swift_create_download_schedule_sbs 3 done_cache_peer 0 1 =
        some ({ done_cache_peer with download_schedule_len := 0, hashes_per_mtu := 256 },
          ret)) :=
  ⟨rfl, by decide, by decide, by decide,
    completion_schedule_empty 3 3 done_cache_peer 0 1 rfl (by decide) (by decide) (by decide)⟩

/-- C19, the code at the failing input: for a peer whose remote channel id is
7, `make_handshake_finish` returns 10 and writes the octets fe ed 12 34 (the
constant 0xfeed1234) in bytes 0..3, not the encoding 00 00 00 07 of the
peer's `dest_chan_id`; the kind HANDSHAKE, `src_chan_id = 0` and the
END_OPTION octet follow as described. -/
theorem make_handshake_finish_at_failing_input :
    finish_peer.dest_chan_id = 7 ∧
    (make_handshake_finish (fun _ => 0) finish_peer).2 = 10 ∧
    bytes (make_handshake_finish (fun _ => 0) finish_peer).1 10 =
      [0xfe, 0xed, 0x12, 0x34, 0, 0, 0, 0, 0, 255] ∧
    be32 finish_peer.dest_chan_id = [0, 0, 0, 7] ∧
    rd32be (make_handshake_finish (fun _ => 0) finish_peer).1 0 = 0xfeed1234 ∧
    message_type (make_handshake_finish (fun _ => 0) finish_peer).1 = HANDSHAKE := by
  refine ⟨rfl, by decide, by decide, by decide, by decide, by decide⟩

/-- C20, the claim as written fails: on the option list VERSION 1,
MINIMUM_VERSION 1, tag 13, CHUNK_SIZE 1024, END_OPTION, which has the tag 13
between two known options and before END_OPTION, `dump_options` does not
return, whether `char` is signed or not. -/
theorem dump_options_unknown_tag_counterexample :
    bytes unknown_tag_options 11 = [0, 1, 1, 1, 13, 9, 0, 0, 4, 0, 255] ∧
    dump_options true unknown_tag_options fresh_leecher = none ∧
    dump_options false unknown_tag_options fresh_leecher = none :=
  ⟨by decide, rfl, rfl⟩

/-- C20 (amended): `dump_options` has no branch that skips a tag it does not
know.  Wherever the parser expects a tag, at the start of the list or after
any of the known options, an octet in 12..254 at that place makes it stop at
its END_OPTION test without returning. -/
theorem dump_options_unknown_tag (charSigned : Bool) (m : Buf) (p : peer)
    (chunk_addr_method d : Nat) (h1 : 12 ≤ rd8 m d) (h2 : rd8 m d ≤ 254) :
    (d = 0 → dump_options charSigned m p = none) ∧
    dump_options_minimum_version charSigned m p d = none ∧
    dump_options_swarm_id charSigned m p d = none ∧
    dump_options_content_prot_method charSigned m p d = none ∧
    dump_options_merkle_hash_func charSigned m p d = none ∧
    dump_options_live_signature_alg charSigned m p d = none ∧
    dump_options_chunk_addr_method charSigned m p d = none ∧
    dump_options_live_disc_wind charSigned m p chunk_addr_method d = none ∧
    dump_options_supported_msgs charSigned m p d = none ∧
    dump_options_chunk_size charSigned m p d = none ∧
    dump_options_file_size charSigned m p d = none ∧
    dump_options_file_name charSigned m p d = none ∧
    dump_options_end m p d = none := by
  have e0 : dump_options_end m p d = none := by
    simp only [dump_options_end, END_OPTION]
    rw [if_neg (by omega)]
  have e1 : dump_options_file_name charSigned m p d = none := by
    simp only [dump_options_file_name, FILE_NAME]
    rw [if_neg (by omega)]
    exact e0
  have e2 : dump_options_file_size charSigned m p d = none := by
    simp only [dump_options_file_size, FILE_SIZE]
    rw [if_neg (by omega)]
    exact e1
  have e3 : dump_options_chunk_size charSigned m p d = none := by
    simp only [dump_options_chunk_size, CHUNK_SIZE]
    rw [if_neg (by omega)]
    exact e2
  have e4 : dump_options_supported_msgs charSigned m p d = none := by
    simp only [dump_options_supported_msgs, SUPPORTED_MSGS]
    rw [if_neg (by omega)]
    exact e3
  have e5 : ∀ cam, dump_options_live_disc_wind charSigned m p cam d = none := by
    intro cam
    simp only [dump_options_live_disc_wind, LIVE_DISC_WIND]
    rw [if_neg (by omega)]
    exact e4
  have e6 : dump_options_chunk_addr_method charSigned m p d = none := by
    simp only [dump_options_chunk_addr_method, CHUNK_ADDR_METHOD]
    rw [if_neg (by omega)]
    exact e5 255
  have e7 : dump_options_live_signature_alg charSigned m p d = none := by
    simp only [dump_options_live_signature_alg, LIVE_SIGNATURE_ALG]
    rw [if_neg (by omega)]
    exact e6
  have e8 : dump_options_merkle_hash_func charSigned m p d = none := by
    simp only [dump_options_merkle_hash_func, MERKLE_HASH_FUNC]
    rw [if_neg (by omega)]
    exact e7
  have e9 : dump_options_content_prot_method charSigned m p d = none := by
    simp only [dump_options_content_prot_method, CONTENT_PROT_METHOD]
    rw [if_neg (by omega)]
    exact e8
  have e10 : dump_options_swarm_id charSigned m p d = none := by
    simp only [dump_options_swarm_id, SWARM_ID]
    rw [if_neg (by omega)]
    exact e9
  have e11 : dump_options_minimum_version charSigned m p d = none := by
    simp only [dump_options_minimum_version, MINIMUM_VERSION]
    rw [if_neg (by omega)]
    exact e10
  refine ⟨?_, e11, e10, e9, e8, e7, e6, e5 chunk_addr_method, e4, e3, e2, e1, e0⟩
  intro hd
  subst hd
  simp only [dump_options, VERSION]
  rw [if_neg (by omega)]
  exact e11

/-- Witness for C20: the tag 13 at offset 4 of the list VERSION 1,
MINIMUM_VERSION 1, 13, CHUNK_SIZE 1024, END_OPTION, where the parser is at
its SWARM_ID test. -/
theorem dump_options_unknown_tag_witness :
    12 ≤ rd8 unknown_tag_options 4 ∧ rd8 unknown_tag_options 4 ≤ 254 ∧
    dump_options_swarm_id true unknown_tag_options fresh_leecher 4 = none ∧
    dump_options_end unknown_tag_options fresh_leecher 4 = none :=
  ⟨by decide, by decide,
    (dump_options_unknown_tag true unknown_tag_options fresh_leecher 255 4 (by decide)
      (by decide)).2.2.1,
    (dump_options_unknown_tag true unknown_tag_options fresh_leecher 255 4 (by decide)
      (by decide)).2.2.2.2.2.2.2.2.2.2.2.2⟩

/-- C21, the claim as written fails for the methods above 4: for the
unassigned method 5 the encoder writes the tag and 8 octets of window (9
octets, then END_OPTION in the tenth), while the parser told that the method
is 5 consumes none of them and stops at its END_OPTION test; told that the
method is 1 it consumes the 8 octets and returns 10. -/
theorem live_disc_wind_width_counterexample :
    (put_live_disc_wind true method5_options (fun _ => 255, 0)).2 = 0 + 1 + 8 ∧
    bytes method5_wire 10 = [7, 0, 0, 0, 0, 0, 0, 0, 0, 255] ∧
    dump_options_live_disc_wind true method5_wire fresh_leecher 5 0 = none ∧
    dump_options_live_disc_wind false method5_wire fresh_leecher 5 0 = none ∧
    (dump_options_live_disc_wind true method5_wire fresh_leecher 1 0).map (fun r => r.2) =
      some 10 :=
  ⟨rfl, by decide, rfl, rfl, rfl⟩

/-- C21 (amended): encoder and parser agree on the width of the LIVE_DISC_WIND
body for the chunk addressing methods 0..4: after the tag both move on by 4
octets when the method is 0 or 2 and by 8 octets when it is 1, 3 or 4, and
the encoder's octets are the big-endian window.  For every other method the
encoder writes 8 octets and the parser, whose `switch` takes its `default`
label, consumes none.  The parser's method is the octet of the
CHUNK_ADDR_METHOD option. -/
theorem live_disc_wind_width (hostLE cs : Bool) (pos : proto_opt_str) (c : Buf × Nat)
    (L : List Nat) (m : Buf) (p : peer) (d : Nat) (hL : bytes c.1 c.2 = L)
    (htag : rd8 m d = LIVE_DISC_WIND) :
    ((pos.chunk_addr_method = 0 ∨ pos.chunk_addr_method = 2) →
      (put_live_disc_wind hostLE pos c).2 = c.2 + 1 + 4 ∧
      bytes (put_live_disc_wind hostLE pos c).1 (c.2 + 1 + 4) =
        L ++ LIVE_DISC_WIND :: be32 (ld32host hostLE pos.live_disc_wind) ∧
      dump_options_live_disc_wind cs m p pos.chunk_addr_method d =
        dump_options_supported_msgs cs m p (d + 1 + 4)) ∧
    ((pos.chunk_addr_method = 1 ∨ pos.chunk_addr_method = 3 ∨ pos.chunk_addr_method = 4) →
      (put_live_disc_wind hostLE pos c).2 = c.2 + 1 + 8 ∧
      bytes (put_live_disc_wind hostLE pos c).1 (c.2 + 1 + 8) =
        L ++ LIVE_DISC_WIND :: be64 (ld64host hostLE pos.live_disc_wind) ∧
      dump_options_live_disc_wind cs m p pos.chunk_addr_method d =
        dump_options_supported_msgs cs m p (d + 1 + 8)) ∧
    (5 ≤ pos.chunk_addr_method →
      (put_live_disc_wind hostLE pos c).2 = c.2 + 1 + 8 ∧
      bytes (put_live_disc_wind hostLE pos c).1 (c.2 + 1 + 8) =
        L ++ LIVE_DISC_WIND :: be64 (ld64host hostLE pos.live_disc_wind) ∧
      dump_options_live_disc_wind cs m p pos.chunk_addr_method d =
        dump_options_supported_msgs cs m p (d + 1)) ∧
    (∀ e, rd8 m e = CHUNK_ADDR_METHOD →
      dump_options_chunk_addr_method cs m p e =
        dump_options_live_disc_wind cs m p (rd8 m (e + 1)) (e + 1 + 1)) := by
  have hspec := put_live_disc_wind_spec hostLE pos c L hL
  refine ⟨?_, ?_, ?_, ?_⟩
  · intro hc
    have h2 : (put_live_disc_wind hostLE pos c).2 = c.2 + 1 + 4 := by
      simp only [put_live_disc_wind]
      rw [if_pos hc]
    rw [h2, if_pos hc] at hspec
    refine ⟨h2, hspec, ?_⟩
    simp only [dump_options_live_disc_wind]
    rw [if_pos htag, if_pos hc]
  · intro hc
    have hn : ¬ (pos.chunk_addr_method = 0 ∨ pos.chunk_addr_method = 2) := by omega
    have h2 : (put_live_disc_wind hostLE pos c).2 = c.2 + 1 + 8 := by
      simp only [put_live_disc_wind]
      rw [if_neg hn]
    rw [h2, if_neg hn] at hspec
    refine ⟨h2, hspec, ?_⟩
    simp only [dump_options_live_disc_wind]
    rw [if_pos htag, if_neg hn, if_pos hc]
  · intro hc
    have hn : ¬ (pos.chunk_addr_method = 0 ∨ pos.chunk_addr_method = 2) := by omega
    have hn' : ¬ (pos.chunk_addr_method = 1 ∨ pos.chunk_addr_method = 3 ∨
        pos.chunk_addr_method = 4) := by omega
    have h2 : (put_live_disc_wind hostLE pos c).2 = c.2 + 1 + 8 := by
      simp only [put_live_disc_wind]
      rw [if_neg hn]
    rw [h2, if_neg hn] at hspec
    refine ⟨h2, hspec, ?_⟩
    simp only [dump_options_live_disc_wind]
    rw [if_pos htag, if_neg hn, if_neg hn']
  · intro e he
    simp only [dump_options_chunk_addr_method]
    rw [if_pos he]

/-- Witness for C21: method 5, cursor at the start of an empty buffer, and
the parser at the tag the encoder wrote. -/
theorem live_disc_wind_width_witness :
    bytes (fun _ => 255) 0 = [] ∧ rd8 method5_wire 0 = LIVE_DISC_WIND ∧
    (5 ≤ method5_options.chunk_addr_method →
      (put_live_disc_wind true method5_options (fun _ => 255, 0)).2 = 0 + 1 + 8 ∧
      bytes (put_live_disc_wind true method5_options (fun _ => 255, 0)).1 (0 + 1 + 8) =
        [] ++ LIVE_DISC_WIND :: be64 (ld64host true method5_options.live_disc_wind) ∧
      dump_options_live_disc_wind true method5_wire fresh_leecher
          method5_options.chunk_addr_method 0 =
        dump_options_supported_msgs true method5_wire fresh_leecher (0 + 1)) :=
  ⟨rfl, by decide,
    (live_disc_wind_width true true method5_options (fun _ => 255, 0) [] method5_wire
      fresh_leecher 0 rfl (by decide)).2.2.1⟩

/-- C22, the code at the failing input, a platform where `char` is signed:
`peer.fname_len` is a `char`, so the length octet 128 is stored as -128 and
the `memcpy` of the name cannot complete; on the FILE_NAME option with length
128, 128 name octets and END_OPTION the parser does not return.  Where `char`
is unsigned the same option is parsed and its `2 + 128` octets and the
END_OPTION are consumed; with the length 3 the parse succeeds on both. -/
theorem file_name_at_failing_input :
    rd8 long_name_wire 0 = FILE_NAME ∧ rd8 long_name_wire 1 = 128 ∧
    rd8 long_name_wire (2 + 128) = END_OPTION ∧
    toChar true (rd8 long_name_wire 1) = -128 ∧
    dump_options_file_name true long_name_wire fresh_leecher 0 = none ∧
    (dump_options_file_name false long_name_wire fresh_leecher 0).map
      (fun r => (r.2, r.1.fname_len)) = some (131, 128) ∧
    (dump_options_file_name true short_name_wire fresh_leecher 0).map
      (fun r => (r.2, r.1.fname_len, bytes r.1.fname 3)) = some (6, 3, [97, 98, 99]) := by
  refine ⟨rfl, rfl, rfl, by decide, rfl, rfl, ?_⟩
  rfl

/-- C23: a bad message header aborts.  When octet 4 is not HANDSHAKE,
`dump_handshake_request`, `handshake_type` and `dump_handshake_have` stop in
`abort()`; when it is not REQUEST, `dump_request` does; when it is not
INTEGRITY, `dump_integrity` does; and when `dump_handshake_request` has
returned and the octet after the options is not HAVE, `dump_handshake_have`
does.  In each case the peer record at the abort is the one the function had
when it made the check: the record it was called with, and for the HAVE check
the record as `dump_handshake_request` left it, in which the fields that
`dump_handshake_have` itself stores to (`start_chunk`, `end_chunk`, `nc`,
`nl`, `chunk`) still have the values of the record it was called with. -/
theorem bad_header_aborts (charSigned : Bool) (m : Buf) (len : Int) (p : peer)
    (fuel ret0 : Nat) :
    (rd8 m 4 ≠ HANDSHAKE →
      dump_handshake_request_run charSigned m len p = outcome.aborted p ∧
      dump_handshake_request charSigned m len p = none ∧
      handshake_type m ret0 = none ∧
      dump_handshake_have_run charSigned m len p = outcome.aborted p ∧
      dump_handshake_have charSigned m len p = none) ∧
    (rd8 m 4 ≠ REQUEST →
      dump_request_run m len p = outcome.aborted p ∧ dump_request m len p = none) ∧
    (rd8 m 4 ≠ INTEGRITY →
      dump_integrity_run fuel m len p = some (outcome.aborted p) ∧
      dump_integrity fuel m len p = none) ∧
    (∀ q n, dump_handshake_request_run charSigned m len p = outcome.returned q n →
      rd8 m n.toNat ≠ HAVE →
      dump_handshake_have_run charSigned m len p = outcome.aborted q ∧
      dump_handshake_have charSigned m len p = none ∧ range_kept p q) := by
  refine ⟨?_, ?_, ?_, ?_⟩
  · intro h
    have h1 : dump_handshake_request_run charSigned m len p = outcome.aborted p := by
      simp only [dump_handshake_request_run]
      rw [if_neg h]
    have h2 : dump_handshake_request charSigned m len p = none := by
      simp only [dump_handshake_request]
      rw [if_neg h]
    refine ⟨h1, h2, ?_, ?_, ?_⟩
    · simp only [handshake_type]
      rw [if_neg h]
    · simp only [dump_handshake_have_run]
      rw [h1]
    · simp only [dump_handshake_have]
      rw [h2]
  · intro h
    constructor
    · simp only [dump_request_run]
      rw [if_neg h]
    · simp only [dump_request]
      rw [if_neg h]
  · intro h
    constructor
    · simp only [dump_integrity_run]
      rw [if_neg h]
    · simp only [dump_integrity]
      rw [if_neg h]
  · intro q n hq hn
    have h1 : dump_handshake_have_run charSigned m len p = outcome.aborted q := by
      simp only [dump_handshake_have_run]
      rw [hq]
      simp only
      rw [if_neg hn]
    refine ⟨h1, ?_, ?_⟩
    · rw [← dump_handshake_have_run_result, h1]
      rfl
    · have hk := dump_handshake_request_run_kept charSigned m len p
      rw [hq] at hk
      exact hk

/-- Witness for C23, the HAVE check: the handshake carries CHUNK_SIZE 1024 and
no HAVE; `dump_handshake_request` returns 19 with `chunk_size = 1024` stored,
and `dump_handshake_have` aborts with that record. -/
theorem bad_header_aborts_witness :
    dump_handshake_request_run true handshake_no_have 20 fresh_leecher =
      outcome.returned { fresh_leecher with chunk_size := 1024 } 19 ∧
    rd8 handshake_no_have (19 : Int).toNat ≠ HAVE ∧
    dump_handshake_have_run true handshake_no_have 20 fresh_leecher =
      outcome.aborted { fresh_leecher with chunk_size := 1024 } ∧
    dump_handshake_have true handshake_no_have 20 fresh_leecher = none ∧
    range_kept fresh_leecher { fresh_leecher with chunk_size := 1024 } :=
  ⟨rfl, by decide,
    (bad_header_aborts true handshake_no_have 20 fresh_leecher 0 0).2.2.2
      { fresh_leecher with chunk_size := 1024 } 19 rfl (by decide)⟩

/-- C24, the code at the failing input: the 14 octets of a REQUEST message
(kind octet 8) given to `dump_ack` are parsed as an ACK and 21 is returned;
the sibling parser `dump_request` given an ACK message aborts. -/
theorem dump_ack_at_failing_input :
    (make_request (fun _ => 0) 7 1 2).2 = 14 ∧
    rd8 (make_request (fun _ => 0) 7 1 2).1 4 = REQUEST ∧ REQUEST ≠ ACK ∧
    dump_ack (make_request (fun _ => 0) 7 1 2).1 14 fresh_leecher = 21 ∧
    dump_request (make_ack (fun _ => 0) data_peer).1 21 fresh_leecher = none := by
  refine ⟨rfl, by decide, by decide, rfl, rfl⟩

/-- C26, the code at the failing input: for 75 chunks, none downloaded, and
the range 0..74, both schedulers set `hashes_per_mtu = 256` and emit the
single entry 0..74; the INTEGRITY message `make_integrity` builds for that
range has `13 + 20 * 75 = 1513` octets, more than `BUFSIZE = 1500`. -/
theorem schedule_mtu_at_failing_input :
    (create_download_schedule_sbs 76 mtu_peer 0 74).map
      (fun r => (r.1.hashes_per_mtu, r.1.download_schedule_len,
        (r.1.download_schedule 0).begin, (r.1.download_schedule 0).end_)) =
      some (256, 1, 0, 74) ∧
    (swift_create_download_schedule_sbs 76 mtu_peer 0 74).map
      (fun r => (r.1.hashes_per_mtu, r.1.download_schedule_len,
        (r.1.download_schedule 0).begin, (r.1.download_schedule 0).end_)) =
      some (256, 1, 0, 74) ∧
    (make_integrity 76 (fun _ => 0) mtu_request sample_seeder).map (fun r => r.2) =
      some 1513 ∧
    13 + 20 * (74 - 0 + 1) = 1513 ∧ BUFSIZE < 1513 := by
  refine ⟨?_, ?_, ?_, by decide, by decide⟩
  · rfl
  · rfl
  · rfl

/-- C27, the claim as written fails where the counts do not fit the
`uint32_t` fields: a file of `2 ^ 32` octets in chunks of one octet has
`2 ^ 32` chunks and `process_file` stores `nc = 0`; and for an empty file
(size 0, chunks of 1024) it stores `nc = 0` and `end_chunk = 4294967295`,
which is not `nc - 1 = -1`. -/
theorem process_file_counts_counterexample :
    (process_file {} octet_seeder 3 (2 ^ 32)).map
      (fun e => (e.nc, e.start_chunk, e.end_chunk)) = some (0, 0, 4294967295) ∧
    (2 ^ 32 + octet_seeder.chunk_size - 1) / octet_seeder.chunk_size = 4294967296 ∧
    (process_file {} catalog_seeder 3 0).map
      (fun e => (e.nc, e.start_chunk, e.end_chunk)) = some (0, 0, 4294967295) ∧
    ((0 : Int) - 1 ≠ 4294967295) := by
  refine ⟨?_, by decide, ?_, by decide⟩
  · rfl
  · rfl

/-- C27 (amended): for every file size `s ≥ 1` and chunk size `c > 0` whose
quotient rounded up is below `2 ^ 32`, `process_file` (on a file that `open`
opens) stores `nc = ceil(s / c)`, the number with `s ≤ nc * c < s + c`,
`start_chunk = 0` and `end_chunk = nc - 1`, and `nc ≥ 1`. -/
theorem process_file_counts (file_entry : file_list_entry) (p : peer) (fd : Int) (s : Nat)
    (hfd : 0 ≤ fd) (hc : 0 < p.chunk_size) (hs : 1 ≤ s)
    (hfit : (s + p.chunk_size - 1) / p.chunk_size < 2 ^ 32) :
    ∃ e, process_file file_entry p fd s = some e ∧
      e.nc = (s + p.chunk_size - 1) / p.chunk_size ∧
      s ≤ e.nc * p.chunk_size ∧ e.nc * p.chunk_size < s + p.chunk_size ∧
      1 ≤ e.nc ∧ e.start_chunk = 0 ∧ e.end_chunk = e.nc - 1 ∧
      e.file_size = file_entry.file_size := by
  obtain ⟨_, h2, h3⟩ := ceil_div_cases s p.chunk_size hc
  have hpos : 1 ≤ (s + p.chunk_size - 1) / p.chunk_size := by
    by_contra hlt
    have h0 : (s + p.chunk_size - 1) / p.chunk_size = 0 := by omega
    rw [h0] at h2
    omega
  have hnc : ((s + p.chunk_size - 1) / p.chunk_size) % 2 ^ 32 =
      (s + p.chunk_size - 1) / p.chunk_size := Nat.mod_eq_of_lt hfit
  refine ⟨_, process_file_eq file_entry p fd s hfd hc, ?_, ?_, ?_, ?_, rfl, ?_, rfl⟩
  · exact hnc
  · simp only [hnc]; exact h2
  · simp only [hnc]; exact h3
  · simp only [hnc]; exact hpos
  · simp only [hnc]
    omega

/-- Witness for C27: 2500 octets in chunks of 1024 give `nc = 3` and
`end_chunk = 2`. -/
theorem process_file_counts_witness :
    (0 : Int) ≤ 3 ∧ 0 < catalog_seeder.chunk_size ∧ 1 ≤ 2500 ∧
    (2500 + catalog_seeder.chunk_size - 1) / catalog_seeder.chunk_size < 2 ^ 32 ∧
    (2500 + catalog_seeder.chunk_size - 1) / catalog_seeder.chunk_size = 3 ∧
    ∃ e, process_file {} catalog_seeder 3 2500 = some e ∧
      e.nc = (2500 + catalog_seeder.chunk_size - 1) / catalog_seeder.chunk_size ∧
      2500 ≤ e.nc * catalog_seeder.chunk_size ∧
      e.nc * catalog_seeder.chunk_size < 2500 + catalog_seeder.chunk_size ∧
      1 ≤ e.nc ∧ e.start_chunk = 0 ∧ e.end_chunk = e.nc - 1 ∧
      e.file_size = ({} : file_list_entry).file_size :=
  ⟨by decide, by decide, by decide, by decide, by decide,
    process_file_counts {} catalog_seeder 3 2500 (by decide) (by decide) (by decide)
      (by decide)⟩

/-- C28, the claim as written fails for counts above `2 ^ 31`: the smallest
power of two that is at least `2 ^ 31 + 1` is `2 ^ 32`, which the `uint32_t`
field `nl` cannot hold.  After a HAVE for the chunks `0 .. 2 ^ 31`
`dump_handshake_have` leaves `nc = 2 ^ 31 + 1` and `nl = 0`, and so does
`process_file` for a file of `2 ^ 31 + 1` octets in chunks of one octet. -/
theorem leaf_count_counterexample :
    (dump_handshake_have true have_wide 23 fresh_leecher).map (fun r => (r.1.nc, r.1.nl)) =
      some (2147483649, 0) ∧
    (process_file {} octet_seeder 3 (2 ^ 31 + 1)).map (fun e => (e.nc, e.nl)) =
      some (2147483649, 0) ∧
    ¬ (1 ≤ 0) ∧ ¬ (2147483649 ≤ 0) := by
  refine ⟨?_, ?_, by decide, by decide⟩
  · rfl
  · rfl

/-- C28 (amended): for every chunk count `1 ≤ nc ≤ 2 ^ 30`, the number of
leaves `nl = 1 << order2(nc)` that `process_file` stores (for a file of `s`
octets with `nc = ceil(s / c)`) and that `dump_handshake_have` stores (with
the `nc` it computed from the HAVE range) is a power of two, is at least
`nc`, is at most every power of two that is at least `nc`, and is at least 1;
`nc = 1` gives 1 and `nc = 3` gives 4. -/
theorem leaf_count (charSigned : Bool) (m : Buf) (resp_len : Int) (p p' : peer) (r : Int)
    (file_entry : file_list_entry) (q : peer) (fd : Int) (s : Nat)
    (hret : dump_handshake_have charSigned m resp_len p = some (p', r))
    (hnc1 : 1 ≤ p'.nc) (hnc2 : p'.nc ≤ 2 ^ 30)
    (hfd : 0 ≤ fd) (hc : 0 < q.chunk_size) (hs : 1 ≤ s)
    (hfit : (s + q.chunk_size - 1) / q.chunk_size ≤ 2 ^ 30) :
    ((∃ k, p'.nl = 2 ^ k) ∧ p'.nc ≤ p'.nl ∧ (∀ j, p'.nc ≤ 2 ^ j → p'.nl ≤ 2 ^ j) ∧
      1 ≤ p'.nl) ∧
    (∃ e, process_file file_entry q fd s = some e ∧
      e.nc = (s + q.chunk_size - 1) / q.chunk_size ∧
      (∃ k, e.nl = 2 ^ k) ∧ e.nc ≤ e.nl ∧ (∀ j, e.nc ≤ 2 ^ j → e.nl ≤ 2 ^ j) ∧ 1 ≤ e.nl) ∧
    (1 <<< order2 1) % 2 ^ 32 = 1 ∧ (1 <<< order2 3) % 2 ^ 32 = 4 := by
  have key : ∀ n, n ≤ 2 ^ 30 →
      (∃ k, (1 <<< order2 n) % 2 ^ 32 = 2 ^ k) ∧ n ≤ (1 <<< order2 n) % 2 ^ 32 ∧
      (∀ j, n ≤ 2 ^ j → (1 <<< order2 n) % 2 ^ 32 ≤ 2 ^ j) ∧
      1 ≤ (1 <<< order2 n) % 2 ^ 32 := by
    intro n hn
    obtain ⟨_, hsh⟩ := order2_shift n hn
    obtain ⟨hle, hmin⟩ := order2_spec n
    rw [hsh]
    refine ⟨⟨order2 n, rfl⟩, hle, ?_, Nat.one_le_two_pow⟩
    intro j hj
    exact Nat.pow_le_pow_right (by norm_num) (hmin j hj)
  refine ⟨?_, ?_, by decide, by decide⟩
  · rw [dump_handshake_have_nl charSigned m resp_len p p' r hret]
    exact key p'.nc hnc2
  · have hmod : ((s + q.chunk_size - 1) / q.chunk_size) % 2 ^ 32 =
        (s + q.chunk_size - 1) / q.chunk_size := Nat.mod_eq_of_lt (by omega)
    refine ⟨_, process_file_eq file_entry q fd s hfd hc, hmod, ?_⟩
    simp only [hmod]
    exact key _ hfit

/-- Witness for C28: a HAVE for the chunks 0..2 and a file of 2500 octets in
chunks of 1024 both give `nc = 3` and `nl = 4`. -/
theorem leaf_count_witness :
    dump_handshake_have true have_three 23 fresh_leecher =
      some ({ fresh_leecher with
        end_chunk := 2, nc := 3, nl := 4, chunk := some (fun _ => ({} : chunk)) }, 23) ∧
    (1 ≤ 3 ∧ 3 ≤ 2 ^ 30) ∧
    ((0 : Int) ≤ 3 ∧ 0 < catalog_seeder.chunk_size ∧ 1 ≤ 2500 ∧
      (2500 + catalog_seeder.chunk_size - 1) / catalog_seeder.chunk_size ≤ 2 ^ 30) ∧
    ((∃ k, 4 = 2 ^ k) ∧ 3 ≤ 4 ∧ (∀ j, 3 ≤ 2 ^ j → 4 ≤ 2 ^ j) ∧ 1 ≤ 4) ∧
    (∃ e, process_file {} catalog_seeder 3 2500 = some e ∧
      e.nc = (2500 + catalog_seeder.chunk_size - 1) / catalog_seeder.chunk_size ∧
      (∃ k, e.nl = 2 ^ k) ∧ e.nc ≤ e.nl ∧ (∀ j, e.nc ≤ 2 ^ j → e.nl ≤ 2 ^ j) ∧ 1 ≤ e.nl) :=
  ⟨rfl, ⟨by decide, by decide⟩, ⟨by decide, by decide, by decide, by decide⟩,
    (leaf_count true have_three 23 fresh_leecher
      { fresh_leecher with
        end_chunk := 2, nc := 3, nl := 4, chunk := some (fun _ => ({} : chunk)) } 23
      {} catalog_seeder 3 2500 rfl (by decide) (by decide) (by decide) (by decide)
      (by decide) (by decide)).1,
    (leaf_count true have_three 23 fresh_leecher
      { fresh_leecher with
        end_chunk := 2, nc := 3, nl := 4, chunk := some (fun _ => ({} : chunk)) } 23
      {} catalog_seeder 3 2500 rfl (by decide) (by decide) (by decide) (by decide)
      (by decide) (by decide)).2.1⟩

/-- C29: when the preliminary connection returns with the leecher's record
`q`, whose `fname` holds a C string, `swift_leecher_get_metadata` returns 0
exactly when `q.seeder_has_file = 1` and `-ENOENT` in every other case, and no
other value.  With status 0 and a non-NULL `meta` it copies the file name
(the string and its NUL, nothing after it) and `file_size`, `chunk_size`,
`start_chunk`, `end_chunk` of `q` into `meta`; a NULL `meta` stays NULL.
With status `-ENOENT` it leaves `meta` as it was. -/
theorem get_metadata_status (conn : peer → Option peer) (handle q : peer)
    (mt0 : Option ppspp_metadata_t) (hconn : conn handle = some q)
    (hstr : ∃ n, n < 256 ∧ rd8 q.fname n = 0) :
    ∃ mt1 ret, swift_leecher_get_metadata conn handle mt0 = some (q, mt1, ret) ∧
      (ret = 0 ∨ ret = -ENOENT) ∧ (ret = 0 ↔ q.seeder_has_file = 1) ∧
      (q.seeder_has_file ≠ 1 → ret = -ENOENT ∧ mt1 = mt0) ∧
      (q.seeder_has_file = 1 →
        (mt0 = none → mt1 = none) ∧
        ∀ a, mt0 = some a → ∃ b n, mt1 = some b ∧ n < 256 ∧ rd8 q.fname n = 0 ∧
          (∀ j, j < n → rd8 q.fname j ≠ 0) ∧
          (∀ j, j ≤ n → rd8 b.file_name j = rd8 q.fname j) ∧
          (∀ j, n < j → b.file_name j = a.file_name j) ∧
          b.file_size = q.file_size ∧ b.chunk_size = q.chunk_size ∧
          b.start_chunk = q.start_chunk ∧ b.end_chunk = q.end_chunk) := by
  have hne : (0 : Int) ≠ -ENOENT := by decide
  by_cases hf : q.seeder_has_file = 1
  · cases hm : mt0 with
    | none =>
      refine ⟨none, 0, ?_, Or.inl rfl, ⟨fun _ => hf, fun _ => rfl⟩,
        fun h => absurd hf h, fun _ => ⟨fun _ => rfl, fun a ha => by simp at ha⟩⟩
      simp only [swift_leecher_get_metadata, hconn]
      rw [if_pos hf]
    | some a =>
      obtain ⟨out, n, e, k1, k2, k3, k4, k5⟩ := strcpy_spec a.file_name q.fname 256 hstr
      refine ⟨some { a with
          file_name := out, file_size := q.file_size, chunk_size := q.chunk_size,
          start_chunk := q.start_chunk, end_chunk := q.end_chunk },
        0, ?_, Or.inl rfl, ⟨fun _ => hf, fun _ => rfl⟩, fun h => absurd hf h, fun _ => ⟨?_, ?_⟩⟩
      · simp only [swift_leecher_get_metadata, hconn]
        rw [if_pos hf]
        simp only [e]
      · intro h; simp at h
      · intro a' ha'
        simp only [Option.some.injEq] at ha'
        subst ha'
        exact ⟨_, n, rfl, k1, k2, k3, k4, k5, rfl, rfl, rfl, rfl⟩
  · refine ⟨mt0, -ENOENT, ?_, Or.inr rfl, ⟨fun h => absurd h.symm hne, fun h => absurd h hf⟩,
      fun _ => ⟨rfl, rfl⟩, fun h => absurd h hf⟩
    simp only [swift_leecher_get_metadata, hconn]
    rw [if_neg hf]

/-- Witness for C29: the seeder has the file "abc" of 2500 octets. -/
theorem get_metadata_status_witness :
    (fun _ => some found_leecher : peer → Option peer) fresh_leecher = some found_leecher ∧
    (∃ n, n < 256 ∧ rd8 found_leecher.fname n = 0) ∧
    ∃ mt1 ret, swift_leecher_get_metadata (fun _ => some found_leecher) fresh_leecher
        (some {}) = some (found_leecher, mt1, ret) ∧
      (ret = 0 ∨ ret = -ENOENT) ∧ (ret = 0 ↔ found_leecher.seeder_has_file = 1) ∧
      (found_leecher.seeder_has_file ≠ 1 → ret = -ENOENT ∧ mt1 = some {}) ∧
      (found_leecher.seeder_has_file = 1 →
        ((some {} : Option ppspp_metadata_t) = none → mt1 = none) ∧
        ∀ a, (some {} : Option ppspp_metadata_t) = some a →
          ∃ b n, mt1 = some b ∧ n < 256 ∧ rd8 found_leecher.fname n = 0 ∧
          (∀ j, j < n → rd8 found_leecher.fname j ≠ 0) ∧
          (∀ j, j ≤ n → rd8 b.file_name j = rd8 found_leecher.fname j) ∧
          (∀ j, n < j → b.file_name j = a.file_name j) ∧
          b.file_size = found_leecher.file_size ∧ b.chunk_size = found_leecher.chunk_size ∧
          b.start_chunk = found_leecher.start_chunk ∧
          b.end_chunk = found_leecher.end_chunk) :=
  ⟨rfl, ⟨3, by decide, by decide⟩,
    get_metadata_status (fun _ => some found_leecher) fresh_leecher found_leecher (some {}) rfl
      ⟨3, by decide, by decide⟩⟩

/-- C30, the code at the failing input: the list of alternatives holds
10.0.0.2:2000 and 10.0.0.1:3000; removing 10.0.0.1:2000, which is not in the
list, removes 10.0.0.1:3000, an entry with the same address and another port,
and adding 10.0.0.1:2000 and removing it again does not give the list back:
only 10.0.0.2:2000 is left, and 0 is returned. -/
theorem remove_seeder_at_failing_input :
    alt_seeder.other_seeders_list_head.map (fun e => (e.sa.sin_addr, e.sa.sin_port)) =
      [(0x0a000002, 2000), (0x0a000001, 3000)] ∧
    (seeder_a.sin_addr, seeder_a.sin_port) = (0x0a000001, 2000) ∧
    (swift_seeder_remove_seeder alt_seeder seeder_a).2 = 0 ∧
    (swift_seeder_remove_seeder alt_seeder seeder_a).1.other_seeders_list_head.map
      (fun e => (e.sa.sin_addr, e.sa.sin_port)) = [(0x0a000002, 2000)] ∧
    (swift_seeder_add_seeder true alt_seeder seeder_a).1.other_seeders_list_head.map
      (fun e => (e.sa.sin_addr, e.sa.sin_port)) =
      [(0x0a000001, 2000), (0x0a000002, 2000), (0x0a000001, 3000)] ∧
    (swift_seeder_remove_seeder (swift_seeder_add_seeder true alt_seeder seeder_a).1
      seeder_a).1.other_seeders_list_head.map
      (fun e => (e.sa.sin_addr, e.sa.sin_port)) = [(0x0a000002, 2000)] := by
  refine ⟨by decide, by decide, by decide, by decide, by decide, by decide⟩

/-- C31: for every peer and every buffer, `make_handshake_finish` returns 10,
the 10 octets it writes are the channel id 0xfeed1234, the kind HANDSHAKE,
the source channel id 0 and END_OPTION, and `handshake_type` classifies them
as HANDSHAKE_FINISH whatever its local `ret` held before. -/
theorem handshake_finish_classified (ptr : Buf) (p : peer) (ret0 : Nat) :
    (make_handshake_finish ptr p).2 = 10 ∧
    bytes (make_handshake_finish ptr p).1 10 =
      be32 0xfeed1234 ++ [HANDSHAKE] ++ be32 0 ++ [END_OPTION] ∧
    handshake_type (make_handshake_finish ptr p).1 ret0 = some HANDSHAKE_FINISH := by
  have hb := make_handshake_finish_bytes ptr p
  refine ⟨rfl, hb, ?_⟩
  have H := holds_at_zero _ _ _ hb
  simp only [List.append_assoc, List.cons_append, List.nil_append] at H
  obtain ⟨h1, H⟩ := holds_at_be32 _ _ _ _ H
  obtain ⟨h2, H⟩ := holds_at_cons _ _ _ _ H
  obtain ⟨h3, H⟩ := holds_at_be32 _ _ _ _ H
  have e4 : 0 + 4 = 4 := rfl
  have e5 : 0 + 4 + 1 = 5 := rfl
  rw [e4] at h2
  rw [e5] at h3
  simp only [handshake_type, h1, h2, h3]
  rw [if_pos True.intro, if_neg (by decide), if_neg (by decide), if_pos (by decide)]

/-- C32: HAVE is accepted once.  For a peer whose `chunk` is already
allocated `dump_handshake_have` does not return, whatever the message.  When
the header and the options parse returns, the next octet is HAVE and
`peer.chunk` is NULL, it returns 9 octets further with a chunk table whose
entries are all zero-filled (offset 0, length 0, hash 0, CH_EMPTY, CH_NO) and
`nl = 1 << order2(nc)`.  Every call that returns was made with
`peer.chunk = NULL` and has allocated such a table. -/
theorem have_only_once (charSigned : Bool) (m : Buf) (resp_len : Int) (p : peer) :
    (∀ tab, p.chunk = some tab → dump_handshake_have charSigned m resp_len p = none) ∧
    (∀ q n, dump_handshake_request charSigned m resp_len p = some (q, n) →
      rd8 m n.toNat = HAVE → p.chunk = none →
      ∃ p', dump_handshake_have charSigned m resp_len p =
          some (p', ((n.toNat + 1 + 4 + 4 : Nat) : Int)) ∧
        p'.chunk = some (fun _ => ({} : chunk)) ∧
        p'.nl = (1 <<< order2 p'.nc) % 2 ^ 32) ∧
    (∀ p' r, dump_handshake_have charSigned m resp_len p = some (p', r) →
      p.chunk = none ∧
      ∃ tab, p'.chunk = some tab ∧ ∀ i, i < p'.nl →
        (tab i).offset = 0 ∧ (tab i).len = 0 ∧ (tab i).sha = List.replicate 20 0 ∧
        (tab i).state = chunk_state.CH_EMPTY ∧
        (tab i).downloaded = chunk_downloaded.CH_NO) := by
  refine ⟨?_, ?_, ?_⟩
  · intro tab htab
    simp only [dump_handshake_have]
    cases hq : dump_handshake_request charSigned m resp_len p with
    | none => rfl
    | some r =>
      obtain ⟨q, n⟩ := r
      have hc : q.chunk = some tab := (dump_handshake_request_chunk _ _ _ _ _ _ hq).trans htab
      simp only
      split_ifs
      · simp only [hc]
      · rfl
  · intro q n hq hv hnull
    have hc : q.chunk = none := (dump_handshake_request_chunk _ _ _ _ _ _ hq).trans hnull
    have hsome : ∃ p', dump_handshake_have charSigned m resp_len p =
          some (p', ((n.toNat + 1 + 4 + 4 : Nat) : Int)) ∧
        p'.chunk = some (fun _ => ({} : chunk)) := by
      simp only [dump_handshake_have, hq]
      rw [if_pos hv]
      simp only [hc]
      exact ⟨_, rfl, rfl⟩
    obtain ⟨p', e, hp'⟩ := hsome
    exact ⟨p', e, hp', dump_handshake_have_nl _ _ _ _ _ _ e⟩
  · intro p' r h
    simp only [dump_handshake_have] at h
    cases hq : dump_handshake_request charSigned m resp_len p with
    | none => rw [hq] at h; simp at h
    | some r0 =>
      obtain ⟨q, n⟩ := r0
      rw [hq] at h
      simp only at h
      split_ifs at h with hv
      cases hch : q.chunk with
      | none =>
        rw [hch] at h
        simp only [Option.some.injEq, Prod.mk.injEq] at h
        refine ⟨(dump_handshake_request_chunk _ _ _ _ _ _ hq).symm.trans hch, ?_⟩
        refine ⟨fun _ => ({} : chunk), ?_, fun i _ => ⟨rfl, rfl, rfl, rfl, rfl⟩⟩
        rw [← h.1]
      | some t =>
        rw [hch] at h
        simp at h

/-- Witness for C32: the handshake with HAVE for chunks 0..2 is accepted by a
fresh leecher and refused by a leecher that already has a chunk table. -/
theorem have_only_once_witness :
    dump_handshake_request true have_three 23 fresh_leecher = some (fresh_leecher, 14) ∧
    rd8 have_three (14 : Int).toNat = HAVE ∧ fresh_leecher.chunk = none ∧
    (∃ p', dump_handshake_have true have_three 23 fresh_leecher =
        some (p', (((14 : Int).toNat + 1 + 4 + 4 : Nat) : Int)) ∧
      p'.chunk = some (fun _ => ({} : chunk)) ∧
      p'.nl = (1 <<< order2 p'.nc) % 2 ^ 32) ∧
    sample_leecher.chunk = some (fun _ => {}) ∧
    dump_handshake_have true have_three 23 sample_leecher = none :=
  ⟨rfl, by decide, rfl,
    (have_only_once true have_three 23 fresh_leecher).2.1 fresh_leecher 14 rfl (by decide) rfl,
    rfl, (have_only_once true have_three 23 sample_leecher).1 (fun _ => {}) rfl⟩

/-- C33, the claim as written fails: for one chunk of `2 ^ 32 - 1` octets, not
downloaded, and the range 0..0, which is the allowed range 0..0,
`create_download_schedule_sbs` schedules the entry 0..0 and returns -1: the
size `1 * (2 ^ 32 - 1)` read as an `int32_t`.  A range inside the allowed
range gets -1, and with `download_schedule_len = 1`. -/
theorem schedule_range_guard_counterexample :
    odd_chunk_peer.start_chunk ≤ 0 ∧ 0 ≤ odd_chunk_peer.end_chunk ∧
    (create_download_schedule_sbs 3 odd_chunk_peer 0 0).map
      (fun r => (r.2, r.1.download_schedule_len, (r.1.download_schedule 0).begin,
        (r.1.download_schedule 0).end_)) = some (-1, 1, 0, 0) := by
  refine ⟨by decide, by decide, ?_⟩
  rfl

/-- C33 (amended): `create_download_schedule_sbs` returns -1, with
`download_schedule_len = 0` and nothing else changed, whenever
`start_chunk > p.end_chunk`; and for every range inside the allowed range and
inside the file (`p.start_chunk ≤ start ≤ end ≤ p.end_chunk`, `end < nc`) of a
file of fewer than `2 ^ 31` octets (`nc * chunk_size < 2 ^ 31`) it returns,
given fuel for `nc + 1` iterations, a size that is not negative: at least one
chunk and at most the file. -/
theorem schedule_range_guard (fuel : Nat) (p : peer) (tab : Nat → chunk)
    (start_chunk end_chunk : Nat) :
    (start_chunk > p.end_chunk →
      create_download_schedule_sbs fuel p start_chunk end_chunk =
        some ({ p with download_schedule_len := 0 }, -1)) ∧
    (p.chunk = some tab → p.nc < 2 ^ 32 → p.start_chunk ≤ start_chunk →
      start_chunk ≤ end_chunk → end_chunk ≤ p.end_chunk → end_chunk < p.nc →
      p.nc * p.chunk_size < 2 ^ 31 → p.nc + 1 ≤ fuel →
      ∃ p' ret, create_download_schedule_sbs fuel p start_chunk end_chunk = some (p', ret) ∧
        0 ≤ ret ∧ ret ≠ -1 ∧ (p.chunk_size : Int) ≤ ret ∧
        ret ≤ ((p.nc * p.chunk_size : Nat) : Int)) := by
  constructor
  · intro h
    simp only [create_download_schedule_sbs]
    rw [if_pos h]
  · intro htab hnc _ hse hep hen hsize hfuel
    obtain ⟨sched, len, o', last', e, _, _, _, _, c5, _, _, c8⟩ :=
      schedule_loop_spec fuel end_chunk tab fuel
        { p with download_schedule_len := 0, hashes_per_mtu := 256 } start_chunk start_chunk
        htab rfl hnc hfuel (by omega) (show p.nc + 1 ≤ fuel + start_chunk from by omega)
    simp only at c5 c8
    have hrun : create_download_schedule_sbs fuel p start_chunk end_chunk =
        some ({ p with download_schedule := sched, download_schedule_len := len,
                       hashes_per_mtu := 256 },
          toInt32 (((last' + 2 ^ 32 - start_chunk + 1) % 2 ^ 32 * p.chunk_size) % 2 ^ 32)) := by
      simp only [create_download_schedule_sbs]
      rw [if_neg (by omega), e]
    have hX : ∃ X, 1 ≤ X ∧ X ≤ p.nc ∧ (last' + 2 ^ 32 - start_chunk + 1) % 2 ^ 32 = X := by
      rcases c8 with ⟨_, g2⟩ | ⟨g1, g2⟩
      · refine ⟨1, Nat.le_refl 1, by omega, ?_⟩
        rw [g2]
        omega
      · obtain ⟨d1, d2, d3, _⟩ := c5 (len - 1) (Nat.zero_le _) (by omega)
        refine ⟨(sched (len - 1)).end_ - start_chunk + 1, by omega, by omega, ?_⟩
        rw [g2]
        omega
    obtain ⟨X, x1, x2, x3⟩ := hX
    have hle : X * p.chunk_size ≤ p.nc * p.chunk_size := Nat.mul_le_mul_right _ x2
    have hge : p.chunk_size ≤ X * p.chunk_size := Nat.le_mul_of_pos_left _ x1
    have hsmall : X * p.chunk_size < 2 ^ 31 := by omega
    have hret : toInt32 (((last' + 2 ^ 32 - start_chunk + 1) % 2 ^ 32 * p.chunk_size) % 2 ^ 32) =
        ((X * p.chunk_size : Nat) : Int) := by
      rw [x3, Nat.mod_eq_of_lt (by omega), toInt32_small _ hsmall]
    refine ⟨_, _, hrun, ?_, ?_, ?_, ?_⟩
    · rw [hret]; omega
    · rw [hret]; omega
    · rw [hret]; omega
    · rw [hret]; omega

/-- Witness for C33: ten chunks of 1024 octets with the allowed range 0..9 and
the request 3..6. -/
theorem schedule_range_guard_witness :
    sched_peer.chunk = some (chunk_table [false, true, true, false, false, true]) ∧
    sched_peer.nc < 2 ^ 32 ∧ sched_peer.start_chunk ≤ 3 ∧ 3 ≤ 6 ∧ 6 ≤ sched_peer.end_chunk ∧
    6 < sched_peer.nc ∧ sched_peer.nc * sched_peer.chunk_size < 2 ^ 31 ∧
    sched_peer.nc + 1 ≤ 11 ∧
    (∃ p' ret, create_download_schedule_sbs 11 sched_peer 3 6 = some (p', ret) ∧
      0 ≤ ret ∧ ret ≠ -1 ∧ (sched_peer.chunk_size : Int) ≤ ret ∧
      ret ≤ ((sched_peer.nc * sched_peer.chunk_size : Nat) : Int)) ∧
    (10 > sched_peer.end_chunk →
      create_download_schedule_sbs 11 sched_peer 10 12 =
        some ({ sched_peer with download_schedule_len := 0 }, -1)) :=
  ⟨rfl, by decide, by decide, by decide, by decide, by decide, by decide, by decide,
    (schedule_range_guard 11 sched_peer _ 3 6).2 rfl (by decide) (by decide) (by decide)
      (by decide) (by decide) (by decide) (by decide),
    (schedule_range_guard 11 sched_peer (chunk_table []) 10 12).1⟩

/-- C35, the code at the failing input: a chunk table of `nl = 2` entries for
`nc = 2` chunks, both downloaded.  The skip loop reads `chunk[o]` before it
tests `o < nc`, so all three schedulers read `chunk[0]`, `chunk[1]` and then
`chunk[2]`, one entry past the table.  With `nc = nl = 1` and the chunk not
downloaded, `create_download_schedule` reads `chunk[1]` in its first
assertion. -/
theorem schedule_reads_at_failing_input :
    done_peer.nc = 2 ∧ done_peer.nl = 2 ∧ done_cache_peer.nl = 2 ∧ done_mtu_peer.nl = 2 ∧
    create_download_schedule_sbs_reads 3 done_peer 0 1 = [0, 1, 2] ∧
    swift_create_download_schedule_sbs_reads 3 done_cache_peer 0 1 = [0, 1, 2] ∧
    create_download_schedule_reads 3 done_mtu_peer = [0, 1, 2] ∧
    one_chunk_peer.nc = 1 ∧ one_chunk_peer.nl = 1 ∧
    create_download_schedule_reads 3 one_chunk_peer = [0, 0, 1] := by
  refine ⟨rfl, rfl, rfl, rfl, by decide, by decide, by decide, rfl, rfl, by decide⟩

/-- C36, the claim as written fails for `end_chunk = 2 ^ 32 - 1`: the counter
`x` is a `uint32_t`, so `x <= end_chunk` is true for every value it takes.
The loop of `make_integrity` does not end, with whatever fuel, where the claim
has it end after `2 ^ 32` iterations (start 0); the loop of `dump_integrity`
has no result either, it leaves the chunk table on the way.  The claim also
fails for the loop of `dump_integrity` whenever the range reaches `nl`: for
the chunks 0..2 and a table of two entries the third iteration stores outside
the table. -/
theorem integrity_loop_counterexample :
    (2 ^ 32 - 1 < 2 ^ 32) ∧
    (∀ fuel, make_integrity_loop sample_seeder (2 ^ 32 - 1) fuel (fun _ => 0) 13 0 = none) ∧
    (∀ fuel, dump_integrity_loop integrity_0_2 0 (2 ^ 32 - 1) fuel sample_leecher 13 0 =
      none) ∧
    two_entry_leecher.nl = 2 ∧
    (∀ fuel, dump_integrity_loop integrity_0_2 0 2 fuel two_entry_leecher 13 0 = none) :=
  ⟨by decide, fun fuel => make_integrity_loop_never _ fuel _ _ _ (by decide),
    fun fuel => dump_integrity_loop_never _ _ fuel _ _ _ (by decide), rfl,
    fun fuel => dump_integrity_loop_outside _ _ _ (by decide) fuel _ _ _ (by decide)
      (by decide)⟩

/-- C36 (amended): for every 32-bit `start_chunk` and every `end_chunk` inside
the chunk table of the leecher and among the leaves of the seeder's tree
(`end_chunk < nl`, `nl` a `uint32_t`), or below `start_chunk`, the hash-copy
loops of `make_integrity` and of `dump_integrity` (on a peer with a chunk
table) end after exactly `max(0, end_chunk - start_chunk + 1)` iterations:
with `n = end_chunk + 1 - start_chunk`, fuel for `n + 1` tests of the loop
condition gives the result, with the cursor moved by `20 * n`, and fuel for
`n` tests or fewer does not. -/
theorem integrity_loop_iterations (we p : peer) (ptr m : Buf) (tab : Nat → chunk)
    (start_chunk end_chunk d fuel : Nat) (hs : start_chunk < 2 ^ 32)
    (hpnl : p.nl < 2 ^ 32) (hwnl : we.nl < 2 ^ 32)
    (hp : end_chunk < p.nl ∨ end_chunk < start_chunk)
    (hw : end_chunk < we.nl ∨ end_chunk < start_chunk) (htab : p.chunk = some tab) :
    (end_chunk + 1 - start_chunk + 1 ≤ fuel →
      ∃ m', make_integrity_loop we end_chunk fuel ptr d start_chunk =
        some (m', d + 20 * (end_chunk + 1 - start_chunk))) ∧
    (fuel ≤ end_chunk + 1 - start_chunk →
      make_integrity_loop we end_chunk fuel ptr d start_chunk = none) ∧
    (end_chunk + 1 - start_chunk + 1 ≤ fuel →
      ∃ p', dump_integrity_loop m start_chunk end_chunk fuel p d start_chunk =
        some (p', d + 20 * (end_chunk + 1 - start_chunk))) ∧
    (fuel ≤ end_chunk + 1 - start_chunk →
      dump_integrity_loop m start_chunk end_chunk fuel p d start_chunk = none) := by
  obtain ⟨a1, a2⟩ := make_integrity_loop_iter we end_chunk (by omega) fuel ptr d start_chunk
  obtain ⟨b1, b2⟩ := dump_integrity_loop_iter m start_chunk end_chunk (by omega) fuel p d
    start_chunk ⟨tab, htab⟩ hp
  exact ⟨a1, a2, b1, b2⟩

/-- Witness for C36: the range 0..2 takes three iterations, fuel 4. -/
theorem integrity_loop_iterations_witness :
    (0 : Nat) < 2 ^ 32 ∧ sample_leecher.nl < 2 ^ 32 ∧ sample_seeder.nl < 2 ^ 32 ∧
    (2 < sample_leecher.nl ∨ 2 < 0) ∧ (2 < sample_seeder.nl ∨ 2 < 0) ∧
    sample_leecher.chunk = some (fun _ => {}) ∧
    (2 + 1 - 0 + 1 ≤ 4 →
      ∃ m', make_integrity_loop sample_seeder 2 4 (fun _ => 0) 13 0 =
        some (m', 13 + 20 * (2 + 1 - 0))) ∧
    (3 ≤ 2 + 1 - 0 → make_integrity_loop sample_seeder 2 3 (fun _ => 0) 13 0 = none) ∧
    (2 + 1 - 0 + 1 ≤ 4 →
      ∃ p', dump_integrity_loop integrity_0_2 0 2 4 sample_leecher 13 0 =
        some (p', 13 + 20 * (2 + 1 - 0))) :=
  ⟨by decide, by decide, by decide, by decide, by decide, rfl,
    (integrity_loop_iterations sample_seeder sample_leecher (fun _ => 0) integrity_0_2
      (fun _ => {}) 0 2 13 4 (by decide) (by decide) (by decide) (by decide) (by decide) rfl).1,
    (integrity_loop_iterations sample_seeder sample_leecher (fun _ => 0) integrity_0_2
      (fun _ => {}) 0 2 13 3 (by decide) (by decide) (by decide) (by decide) (by decide)
      rfl).2.1,
    (integrity_loop_iterations sample_seeder sample_leecher (fun _ => 0) integrity_0_2
      (fun _ => {}) 0 2 13 4 (by decide) (by decide) (by decide) (by decide) (by decide)
      rfl).2.2.1⟩

/-- C37, the claim as written fails when the range of the message reaches
beyond the chunk table: for the chunks 0..2 and a table of two entries
(`nl = 2`) the third iteration of `dump_integrity` stores to `chunk[2]`,
which is no entry of the table, so the call writes outside the chunks the
claim names and no amount of fuel gives a result. -/
theorem dump_integrity_frame_counterexample :
    rd8 integrity_0_2 4 = INTEGRITY ∧ rd32be integrity_0_2 5 = 0 ∧ rd32be integrity_0_2 9 = 2 ∧
    two_entry_leecher.nl = 2 ∧ two_entry_leecher.chunk = some (fun _ => {}) ∧
    ∀ fuel, dump_integrity fuel integrity_0_2 73 two_entry_leecher = none :=
  ⟨by decide, by decide, by decide, rfl, rfl,
    fun fuel => dump_integrity_outside fuel integrity_0_2 73 two_entry_leecher (by decide)
      (by decide)⟩

/-- C37 (amended): for every INTEGRITY message whose range `[a, b]` lies
inside the chunk table (`b < nl`, `nl` a `uint32_t`) or is empty (`b < a`) and
every peer with a chunk table, `dump_integrity`, given fuel for its
iterations, returns a peer record that differs from the one it was given in
the chunk table only; in the table every chunk outside `[a, b]` is unchanged
and the `downloaded` flag of every chunk is unchanged. -/
theorem dump_integrity_frame (fuel : Nat) (m : Buf) (req_len : Int) (p : peer)
    (tab : Nat → chunk) (a b : Nat) (hk : rd8 m 4 = INTEGRITY) (ha : rd32be m 5 = a)
    (hb : rd32be m 9 = b) (hin : b < p.nl ∨ b < a) (hnl32 : p.nl < 2 ^ 32)
    (htab : p.chunk = some tab) (hfuel : b + 1 - a + 1 ≤ fuel) :
    ∃ tab', dump_integrity fuel m req_len p =
        some ({ p with chunk := some tab' }, toInt32 (13 + 20 * (b + 1 - a))) ∧
      (∀ i, (i < a ∨ b < i) → tab' i = tab i) ∧
      (∀ i, (tab' i).downloaded = (tab i).downloaded) ∧
      ({ p with chunk := some tab' } : peer).start_chunk = p.start_chunk ∧
      ({ p with chunk := some tab' } : peer).end_chunk = p.end_chunk ∧
      ({ p with chunk := some tab' } : peer).nc = p.nc ∧
      ({ p with chunk := some tab' } : peer).nl = p.nl ∧
      ({ p with chunk := some tab' } : peer).chunk_size = p.chunk_size ∧
      ({ p with chunk := some tab' } : peer).file_size = p.file_size ∧
      ({ p with chunk := some tab' } : peer).download_schedule_len =
        p.download_schedule_len := by
  by_cases hab : a ≤ b
  · obtain ⟨tab', e, hin', hout⟩ := dump_integrity_loop_spec m a b (by omega) (b - a + 1) fuel p
      13 a tab htab (by omega) (by omega) (by omega) (Nat.le_refl a)
    refine ⟨tab', ?_, hout, ?_, rfl, rfl, rfl, rfl, rfl, rfl, rfl⟩
    · simp only [dump_integrity, Nat.zero_add, hk, if_true, ha, hb]
      rw [e]
      have e1 : b - a + 1 = b + 1 - a := by omega
      rw [e1]
    · intro i
      by_cases hi : a ≤ i ∧ i ≤ b
      · rw [hin' i hi.1 hi.2]
      · rw [hout i (by omega)]
  · obtain ⟨f, rfl⟩ : ∃ f, fuel = f + 1 := ⟨fuel - 1, by omega⟩
    refine ⟨tab, ?_, fun _ _ => rfl, fun _ => rfl, rfl, rfl, rfl, rfl, rfl, rfl, rfl⟩
    simp only [dump_integrity, Nat.zero_add, hk, if_true, ha, hb, dump_integrity_loop]
    rw [if_neg hab]
    have e1 : b + 1 - a = 0 := by omega
    rw [e1, ← htab]

/-- Witness for C37: the message for chunks 0..2 and a leecher with four chunk
entries. -/
theorem dump_integrity_frame_witness :
    rd8 integrity_0_2 4 = INTEGRITY ∧ rd32be integrity_0_2 5 = 0 ∧ rd32be integrity_0_2 9 = 2 ∧
    (2 < sample_leecher.nl ∨ 2 < 0) ∧ sample_leecher.nl < 2 ^ 32 ∧
    sample_leecher.chunk = some (fun _ => {}) ∧ 2 + 1 - 0 + 1 ≤ 4 ∧
    ∃ tab', dump_integrity 4 integrity_0_2 73 sample_leecher =
        some ({ sample_leecher with chunk := some tab' }, toInt32 (13 + 20 * (2 + 1 - 0))) ∧
      (∀ i, (i < 0 ∨ 2 < i) → tab' i = (fun _ => ({} : chunk)) i) ∧
      (∀ i, (tab' i).downloaded = ((fun _ => ({} : chunk)) i).downloaded) ∧
      ({ sample_leecher with chunk := some tab' } : peer).start_chunk =
        sample_leecher.start_chunk ∧
      ({ sample_leecher with chunk := some tab' } : peer).end_chunk =
        sample_leecher.end_chunk ∧
      ({ sample_leecher with chunk := some tab' } : peer).nc = sample_leecher.nc ∧
      ({ sample_leecher with chunk := some tab' } : peer).nl = sample_leecher.nl ∧
      ({ sample_leecher with chunk := some tab' } : peer).chunk_size =
        sample_leecher.chunk_size ∧
      ({ sample_leecher with chunk := some tab' } : peer).file_size =
        sample_leecher.file_size ∧
      ({ sample_leecher with chunk := some tab' } : peer).download_schedule_len =
        sample_leecher.download_schedule_len :=
  ⟨by decide, by decide, by decide, by decide, by decide, rfl, by decide,
    dump_integrity_frame 4 integrity_0_2 73 sample_leecher (fun _ => {}) 0 2 (by decide)
      (by decide) (by decide) (by decide) (by decide) rfl (by decide)⟩

/-- C39: for every peer with a chunk table (each `downloaded` flag is CH_NO
or CH_YES) and `hashes_per_mtu ≥ 1`, given fuel for `nc + 1` iterations,
`all_chunks_downloaded` returns 1 or 0 and `create_download_schedule` ends
without a failed test of an assertion, and `download_schedule_len` is 0 at
its end if and only if `all_chunks_downloaded` returns 1.  When
`all_chunks_downloaded` returns 1, `create_download_schedule` returns; it can
end in its first assertion, at a read of the chunk table past its last entry,
only after it has written an entry. -/
theorem schedule_empty_iff_complete (fuel : Nat) (p : peer) (tab : Nat → chunk)
    (htab : p.chunk = some tab) (hhpm : 1 ≤ p.hashes_per_mtu) (hfuel : p.nc + 1 ≤ fuel) :
    ∃ out r, create_download_schedule fuel p = some out ∧
      all_chunks_downloaded fuel p = some (p, r) ∧ (r = 1 ∨ r = 0) ∧
      (∀ q, out ≠ sched_outcome.assert_failed q) ∧
      (out.peer_at_end.download_schedule_len = 0 ↔ r = 1) ∧
      (out.peer_at_end.download_schedule_len = 0 ↔
        all_chunks_downloaded fuel p = some (p, 1)) ∧
      (r = 1 → ∃ q, out = sched_outcome.done q) := by
  obtain ⟨sched, len, hres, _, _, c3⟩ := create_download_schedule_loop_spec fuel tab fuel
    { p with download_schedule_len := 0 } 0 htab hhpm (Nat.le_refl 0) (Nat.zero_le _) hfuel
    (show p.nc + 1 ≤ fuel + 0 from by omega) (by omega)
  simp only at c3 hres
  obtain ⟨r, er, h1, h2⟩ := all_loop_spec tab p.nc fuel 0 (by omega) (by omega)
  have hall : all_chunks_downloaded fuel p = some (p, r) := by
    simp only [all_chunks_downloaded, htab, er]
  have hiff : len = 0 ↔ r = 1 := by rw [c3, h1]
  have hiff2 : len = 0 ↔ all_chunks_downloaded fuel p = some (p, 1) := by
    rw [hall]
    constructor
    · intro h
      rw [hiff.1 h]
    · intro h
      simp only [Option.some.injEq, Prod.mk.injEq, true_and] at h
      exact hiff.2 h
  rcases hres with e | ⟨e, o2, g1, g2, g3, g4⟩
  · have e' : create_download_schedule fuel p = some (sched_outcome.done
        { p with download_schedule := sched, download_schedule_len := len }) := by
      simp only [create_download_schedule]
      exact e
    exact ⟨_, r, e', hall, h2, fun q h => sched_outcome.noConfusion h, hiff, hiff2,
      fun _ => ⟨_, rfl⟩⟩
  · have e' : create_download_schedule fuel p = some (sched_outcome.read_outside
        { p with download_schedule := sched, download_schedule_len := len }) := by
      simp only [create_download_schedule]
      exact e
    refine ⟨_, r, e', hall, h2, fun q h => sched_outcome.noConfusion h, hiff, hiff2,
      fun hr => ?_⟩
    have hyes := (c3.1 (hiff.2 hr)) (o2 - 1) (Nat.zero_le _) (by omega)
    exact absurd g4 (yes_ne_no _ hyes)

/-- Witness for C39: two chunks, both downloaded, `hashes_per_mtu = 256`. -/
theorem schedule_empty_iff_complete_witness :
    done_mtu_peer.chunk = some (chunk_table [true, true]) ∧
    1 ≤ done_mtu_peer.hashes_per_mtu ∧ done_mtu_peer.nc + 1 ≤ 3 ∧
    ∃ out r, create_download_schedule 3 done_mtu_peer = some out ∧
      all_chunks_downloaded 3 done_mtu_peer = some (done_mtu_peer, r) ∧ (r = 1 ∨ r = 0) ∧
      (∀ q, out ≠ sched_outcome.assert_failed q) ∧
      (out.peer_at_end.download_schedule_len = 0 ↔ r = 1) ∧
      (out.peer_at_end.download_schedule_len = 0 ↔
        all_chunks_downloaded 3 done_mtu_peer = some (done_mtu_peer, 1)) ∧
      (r = 1 → ∃ q, out = sched_outcome.done q) :=
  ⟨rfl, by decide, by decide,
    schedule_empty_iff_complete 3 done_mtu_peer _ rfl (by decide) (by decide)⟩

end Ppspp
